import Mathlib

/-!
# Catalog: radix decoding and polynomial reconstruction (`cat.cpp`)

A shallow embedding of `cat.cpp` and the properties of its routines.

* `baseToDecimal64` is `baseToDecimal` with its `long long` accumulators `result` and `power`
  wrapping modulo `2^64`. `baseToDecimalExact` is the same loop over unbounded integers: the
  value of the loop when nothing overflows, used in the proofs.
* The numeric routines are given twice.
  - `gaussianElimination`, `solveVandermonde`, `newtonDividedDifference`, `verifyPolynomial`:
    doubles are exact rationals (`ℚ`), integers are unbounded (`Int`), and console output is
    not modelled. `a / b` on doubles is `fdiv`, which stops the run with `Fault.divByZero`
    when `b = 0`.
  - `gaussianEliminationG`, `solveVandermondeG`, `newtonDividedDifferenceG`,
    `verifyPolynomialG`: the same routines over an arithmetic `Arith D`, which interprets the
    operations on `int` and on `double`, with the reads made by the printing loops.
    `exactArith` has exact doubles and the 32-bit `int` subtraction of lines 125 and 142,
    `roundedArith` rounds the result of every operation to the nearest double, and
    `totalArith` gives the division by zero a value.
* `std::vector` is a `List`; `operator[]` is the checked read `rd` / write `wr`, which
  stop the run with `Fault.outOfBounds` where the C++ access would be outside the container.
-/

open scoped BigOperators

namespace Catalog

/-! ## Radix decoding (`baseToDecimal`, lines 11-35) -/

/-- Lines 19-27: the digit a character stands for, `none` for the `else continue` branch. -/
def digitOfChar (c : Char) : Option Int :=
  if '0' ≤ c ∧ c ≤ '9' then some ((c.toNat : Int) - ('0'.toNat : Int))
  else if 'A' ≤ c ∧ c ≤ 'Z' then some ((c.toNat : Int) - ('A'.toNat : Int) + 10)
  else if 'a' ≤ c ∧ c ≤ 'z' then some ((c.toNat : Int) - ('a'.toNat : Int) + 10)
  else none

/-- One iteration of the loop of lines 15-33 on the state `(result, power)`, over unbounded
integers. -/
def baseToDecimalStepExact (base : Int) (st : Int × Int) (c : Char) : Int × Int :=
  match digitOfChar c with
  | none => st
  | some digit => if digit ≥ base then st else (st.1 + digit * st.2, st.2 * base)

/-- Lines 11-35 over unbounded integers: the loop runs over the characters from the last one
to the first one. This is what `baseToDecimal` computes as long as no `long long` operation
overflows; `baseToDecimal64` is the routine with its 64-bit accumulators. -/
def baseToDecimalExact (value : String) (base : Int) : Int :=
  (value.toList.reverse.foldl (baseToDecimalStepExact base) (0, 1)).1

/-! ### The same loop with `long long` accumulators that wrap -/

/-- A `long long` after an operation that overflowed: the value is reduced modulo `2^64` to
the range `[-2^63, 2^63)`. -/
def wrap64 (z : Int) : Int := (z + 2 ^ 63) % 2 ^ 64 - 2 ^ 63

/-- One iteration of the loop of lines 15-33 on the state `(result, power)`, the products and
the sum of lines 31-32 being `long long` operations that wrap. -/
def baseToDecimalStep64 (base : Int) (st : Int × Int) (c : Char) : Int × Int :=
  match digitOfChar c with
  | none => st
  | some digit =>
    if digit ≥ base then st
    else (wrap64 (st.1 + wrap64 (digit * st.2)), wrap64 (st.2 * base))

/-- Lines 11-35 with the `long long` accumulators `result` and `power` wrapping modulo
`2^64`. -/
def baseToDecimal64 (value : String) (base : Int) : Int :=
  (value.toList.reverse.foldl (baseToDecimalStep64 base) (0, 1)).1

/-! ### The specification's reading of digits -/

/-- Position of `c` in `alphabet`, if it occurs there. -/
def positionIn (alphabet : List Char) (c : Char) : Option Nat :=
  if alphabet.indexOf c < alphabet.length then some (alphabet.indexOf c) else none

/-- Digit values in the specification's words: the numeric value for '0'-'9', and
10 + the position in the alphabet for a letter of either case. -/
def specDigitValue (c : Char) : Option Nat :=
  match positionIn "0123456789".toList c with
  | some d => some d
  | none =>
    match positionIn "ABCDEFGHIJKLMNOPQRSTUVWXYZ".toList c with
    | some k => some (10 + k)
    | none =>
      match positionIn "abcdefghijklmnopqrstuvwxyz".toList c with
      | some k => some (10 + k)
      | none => none

/-- The character `c` is a valid digit for base `b`: it has a digit value, below `b`. -/
def validDigit (b : Int) (c : Char) : Bool :=
  match specDigitValue c with
  | some d => decide ((d : Int) < b)
  | none => false

/-- The character is one of '0'-'9', 'A'-'Z', 'a'-'z'. -/
def isAlnum (c : Char) : Bool := (specDigitValue c).isSome

/-- The value of a digit character, 0 for a character that is no digit. -/
def digitValue (c : Char) : Int :=
  ((specDigitValue c).getD 0 : Nat)

/-- Most-significant-digit-first positional value: the digit at position `i` weighs
`b ^ (distance of i from the right end)`. -/
def positionalValue (b : Int) (s : List Char) : Int :=
  ∑ i : Fin s.length, digitValue (s.get i) * b ^ (s.length - 1 - i.val)


/-! ## Runs of the numeric routines -/

/-- The error classes of the specification's taxonomy. -/
inductive FitError
  | singularMatrix
  | dimensionMismatch
  deriving DecidableEq

/-- How a run of one of the numeric routines stops before its `return`.

* `divByZero`: a division of doubles with divisor `0` is executed. `cat.cpp` tests no divisor
  and signals nothing there: IEEE 754 gives an infinity or a NaN and the routine goes on, so
  what it returns is no rational number and the exact model ends.
* `outOfBounds`: `operator[]` is applied outside its container. `cat.cpp` checks no index:
  in C++ this is undefined behaviour.
* `raised e`: the routine reports the error `e` to its caller. `cat.cpp` contains no `throw`,
  no error return and no assertion, so no routine below produces it. -/
inductive Fault
  | divByZero
  | outOfBounds
  | raised (e : FitError)
  deriving DecidableEq

/-- A `vector<pair<int, long long>>`. -/
abbrev Points := List (Int × Int)

/-- A `vector<vector<double>>`. -/
abbrev Mat := List (List ℚ)

/-- The read `v[i]`. -/
def rd {α : Type} (v : List α) (i : Nat) : Except Fault α :=
  match v[i]? with
  | some a => .ok a
  | none => .error .outOfBounds

/-- The write `v[i] = a`. -/
def wr {α : Type} (v : List α) (i : Nat) (a : α) : Except Fault (List α) :=
  if i < v.length then .ok (v.set i a) else .error .outOfBounds

/-- The read `m[i][j]`. -/
def rd2 (m : Mat) (i j : Nat) : Except Fault ℚ := do
  let row ← rd m i
  rd row j

/-- The write `m[i][j] = a`. -/
def wr2 (m : Mat) (i j : Nat) (a : ℚ) : Except Fault Mat := do
  let row ← rd m i
  let row ← wr row j a
  wr m i row

/-- The quotient `a / b` of two doubles. -/
def fdiv (a b : ℚ) : Except Fault ℚ :=
  if b = 0 then .error .divByZero else .ok (a / b)

/-! ## Gaussian elimination (`gaussianElimination`, lines 38-72) -/

/-- Lines 44-49: the pivot search in column `i`, over the rows `i+1 .. n-1`. -/
def findPivot (matrix : Mat) (n i : Nat) : Except Fault Nat :=
  (List.range' (i + 1) (n - (i + 1))).foldlM (fun maxRow k => do
    let a ← rd2 matrix k i
    let b ← rd2 matrix maxRow i
    pure (if |a| > |b| then k else maxRow)) i

/-- Line 50: `swap(matrix[a], matrix[b])`. -/
def swapRows (matrix : Mat) (a b : Nat) : Except Fault Mat := do
  let ra ← rd matrix a
  let rb ← rd matrix b
  let matrix ← wr matrix a rb
  wr matrix b ra

/-- Lines 54-57: row `k` loses `factor` times row `i`, in the columns `i .. n`. -/
def eliminateRow (matrix : Mat) (n i k : Nat) : Except Fault Mat := do
  let mki ← rd2 matrix k i
  let mii ← rd2 matrix i i
  let factor ← fdiv mki mii
  (List.range' i (n + 1 - i)).foldlM (fun m j => do
    let mkj ← rd2 m k j
    let mij ← rd2 m i j
    wr2 m k j (mkj - factor * mij)) matrix

/-- Lines 43-58: one iteration of the forward elimination, for column `i`. -/
def forwardStep (n : Nat) (matrix : Mat) (i : Nat) : Except Fault Mat := do
  let maxRow ← findPivot matrix n i
  let matrix ← swapRows matrix maxRow i
  (List.range' (i + 1) (n - (i + 1))).foldlM (fun m k => eliminateRow m n i k) matrix

/-- Lines 42-59: the forward elimination. -/
def forwardElimination (matrix : Mat) : Except Fault Mat :=
  (List.range matrix.length).foldlM (forwardStep matrix.length) matrix

/-- Lines 64-68: one iteration of the back substitution, for row `i`. -/
def backStep (matrix : Mat) (n : Nat) (solution : List ℚ) (i : Nat) : Except Fault (List ℚ) := do
  let b ← rd2 matrix i n
  let solution ← wr solution i b
  let solution ← (List.range' (i + 1) (n - (i + 1))).foldlM (fun sol j => do
    let mij ← rd2 matrix i j
    let sj ← rd sol j
    let si ← rd sol i
    wr sol i (si - mij * sj)) solution
  let si ← rd solution i
  let mii ← rd2 matrix i i
  let q ← fdiv si mii
  wr solution i q

/-- Lines 62-69: the back substitution, from row `n-1` down to row `0`. -/
def backSubstitution (matrix : Mat) : Except Fault (List ℚ) :=
  (List.range matrix.length).reverse.foldlM (backStep matrix matrix.length)
    (List.replicate matrix.length 0)

/-- Lines 38-72. The argument is passed by reference and left in its eliminated form; the
caller in `cat.cpp` does not read it again, so only the returned vector is kept here. -/
def gaussianElimination (matrix : Mat) : Except Fault (List ℚ) := do
  let matrix ← forwardElimination matrix
  backSubstitution matrix

/-! ## The Vandermonde method (`solveVandermonde`, lines 75-107) -/

/-- Lines 82-91 for one `i`: row `i` becomes `[1, x, x^2, ..., x^(n-1), y]`. -/
def fillRow (points : Points) (matrix : Mat) (i : Nat) : Except Fault Mat := do
  let n := points.length
  let p ← rd points i
  let matrix ← (List.range n).foldlM (fun m j => wr2 m i j ((p.1 : ℚ) ^ j)) matrix
  wr2 matrix i n (p.2 : ℚ)

/-- Lines 76-97: the augmented matrix of the system. -/
def buildVandermonde (points : Points) : Except Fault Mat :=
  (List.range points.length).foldlM (fillRow points)
    (List.replicate points.length (List.replicate (points.length + 1) 0))

/-- Lines 76-99: the vector `coefficients`. -/
def solveVandermondeCoefficients (points : Points) : Except Fault (List ℚ) := do
  let matrix ← buildVandermonde points
  gaussianElimination matrix

/-- Lines 75-107: the returned value is `coefficients[0]`. -/
def solveVandermonde (points : Points) : Except Fault ℚ := do
  let coefficients ← solveVandermondeCoefficients points
  rd coefficients 0

/-! ## Newton's divided differences (`newtonDividedDifference`, lines 110-156) -/

/-- Line 124-125: the entry `table[i][j]`, the difference of the x-coordinates being taken
over the integers (`tableStepG` takes it on `int`). -/
def tableStep (points : Points) (j : Nat) (table : Mat) (i : Nat) : Except Fault Mat := do
  let a ← rd2 table (i + 1) (j - 1)
  let b ← rd2 table i (j - 1)
  let pij ← rd points (i + j)
  let pi ← rd points i
  let q ← fdiv (a - b) ((pij.1 - pi.1 : Int) : ℚ)
  wr2 table i j q

/-- Lines 112-127: the divided-difference table. -/
def newtonTable (points : Points) : Except Fault Mat := do
  let n := points.length
  let table ← (List.range n).foldlM (fun t i => do
    let p ← rd points i
    wr2 t i 0 (p.2 : ℚ)) (List.replicate n (List.replicate n 0))
  (List.range' 1 (n - 1)).foldlM (fun t j =>
    (List.range (n - j)).foldlM (tableStep points j) t) table

/-- Lines 141-144: one iteration on the state `(result, product)`, `0 - x` being taken over
the integers (`newtonEvalStepG` takes it on `int`). -/
def newtonEvalStep (points : Points) (table : Mat) (st : ℚ × ℚ) (i : Nat) :
    Except Fault (ℚ × ℚ) := do
  let p ← rd points (i - 1)
  let product := st.2 * ((0 - p.1 : Int) : ℚ)
  let t ← rd2 table 0 i
  pure (st.1 + t * product, product)

/-- Lines 110-156: the Newton form evaluated at `x = 0`. -/
def newtonDividedDifference (points : Points) : Except Fault ℚ := do
  let table ← newtonTable points
  let result ← rd2 table 0 0
  let st ← (List.range' 1 (points.length - 1)).foldlM (newtonEvalStep points table) (result, 1)
  pure st.1

/-! ## Verification (`verifyPolynomial`, lines 159-187) -/

/-- One line of the report of lines 183-185. -/
structure VerifyLine where
  x : Int
  calculated : ℚ
  expected : Int
  isMatch : Bool
  deriving DecidableEq

/-- Lines 178-181: the sum of `coeffs[i] * pow(x, i)`. -/
def evalCoeffs (coeffs : List ℚ) (x : Int) : Except Fault ℚ :=
  (List.range coeffs.length).foldlM (fun calculated i => do
    let c ← rd coeffs i
    pure (calculated + c * (x : ℚ) ^ i)) 0

/-- Lines 174-186: one report line for each point, in the order of the points. -/
def verifyPolynomial (points : Points) (coeffs : List ℚ) : Except Fault (List VerifyLine) :=
  points.foldlM (fun out point => do
    let calculated ← evalCoeffs coeffs point.1
    pure (out ++ [⟨point.1, calculated, point.2,
      decide (|calculated - (point.2 : ℚ)| < 1 / 1000000000)⟩])) []

/-! ## Notions used in the statements -/

/-- Entry `(i, j)` of a matrix, `0` outside it. -/
def ent (m : Mat) (i j : Nat) : ℚ := (m.getD i []).getD j 0

/-- A matrix of `r` rows with `c` entries each. -/
def Rect (r c : Nat) (m : Mat) : Prop := m.length = r ∧ ∀ row ∈ m, row.length = c

/-- The square part `A` of an augmented matrix `[A | b]` with `n` rows. -/
def squarePart (n : Nat) (m : Mat) : Matrix (Fin n) (Fin n) ℚ := fun i j => ent m i j

/-- The right-hand side `b` of an augmented matrix `[A | b]` with `n` rows. -/
def rhsPart (n : Nat) (m : Mat) : Fin n → ℚ := fun i => ent m i n

/-- A list of `n` numbers as a vector. -/
def vecOf (n : Nat) (s : List ℚ) : Fin n → ℚ := fun i => s.getD i 0

/-- The x-coordinates of the points. -/
def xs (points : Points) : List Int := points.map Prod.fst

/-- Row `i` of the Vandermonde system for the point `p` among `n` points:
`[1, x, x^2, ..., x^(n-1), y]`. -/
def vandermondeRow (n : Nat) (p : Int × Int) : List ℚ :=
  (List.range n).map (fun j => (p.1 : ℚ) ^ j) ++ [(p.2 : ℚ)]

/-! ## Auxiliary notions of the proofs -/

/-- Postcondition of a run: `Q` holds of the returned value, `E` of the fault. -/
def Post {β : Type} (x : Except Fault β) (Q : β → Prop) (E : Fault → Prop) : Prop :=
  match x with
  | .ok b => Q b
  | .error e => E e

/-- The matrix `m` with entry `(i, j)` replaced by `a`. -/
def set2 (m : Mat) (i j : Nat) (a : ℚ) : Mat := m.set i ((m.getD i []).set j a)

/-- The residual of row `k` of the system `[A | b]` at the vector `s`, the right-hand side
being scaled by `t`. -/
def lin (n : Nat) (m : Mat) (k : Nat) (s : Nat → ℚ) (t : ℚ) : ℚ :=
  ∑ j in Finset.range n, ent m k j * s j - t * ent m k n

/-- The systems `[A | t b]` of two augmented matrices with `n` rows have the same solutions,
for every scaling `t` of the right-hand side. -/
def SameSol (n : Nat) (m m2 : Mat) : Prop :=
  ∀ (s : Nat → ℚ) (t : ℚ), (∀ k, k < n → lin n m k s t = 0) ↔ (∀ k, k < n → lin n m2 k s t = 0)

/-- Columns `0 .. i` are zero in the rows `i .. n-1`. -/
def ZeroCol (n i : Nat) (m : Mat) : Prop :=
  ∀ r c, c ≤ i → i ≤ r → r < n → ent m r c = 0

/-- The state of the forward elimination of `m0` before the iteration for column `i`. -/
def ElimInv (n : Nat) (m0 : Mat) (i : Nat) (m : Mat) : Prop :=
  Rect n (n + 1) m ∧ SameSol n m0 m ∧ (∀ j k, j < i → j < k → k < n → ent m k j = 0) ∧
    (∀ j, j < i → j + 1 < n → ent m j j ≠ 0)

/-- The x-coordinate of point `i` as a double, `0` past the end of the list. -/
def xAt (points : Points) (i : Nat) : ℚ := ((points.getD i (0, 0)).1 : ℚ)

/-- The y-coordinate of point `i` as a double, `0` past the end of the list. -/
def yAt (points : Points) (i : Nat) : ℚ := ((points.getD i (0, 0)).2 : ℚ)

/-- The value at `x` of the polynomial with coefficient list `c`, index `j` holding the
coefficient of `x^j`. -/
def polyValue (c : List ℚ) (x : ℚ) : ℚ := ∑ j in Finset.range c.length, c.getD j 0 * x ^ j

/-- The divided difference of order `j` starting at sample `i`, by the recurrence of
lines 124-125 (`divDiff x y j i` is the entry `table[i][j]`). -/
def divDiff (x y : Nat → ℚ) : Nat → Nat → ℚ
  | 0, i => y i
  | j + 1, i => (divDiff x y j (i + 1) - divDiff x y j i) / (x (i + (j + 1)) - x i)

/-- The Newton form on the first `n` samples, evaluated at `0` as in lines 138-144. -/
def newtonValue (x y : Nat → ℚ) (n : Nat) : ℚ :=
  ∑ k in Finset.range n, divDiff x y k 0 * ∏ l in Finset.range k, (0 - x l)

/-! ## The routines over an arithmetic, with the reads of the printing loops -/

/-- The `int` and `double` operations of the numeric routines, the values of type `double`
being those of `D`. -/
structure Arith (D : Type) where
  /-- The conversion of an `int` or `long long` to `double`. -/
  ofInt : Int → D
  /-- The call `pow(x, j)` for an `int` `x` and a loop index `j`. -/
  pow : Int → Nat → D
  /-- The sum `a + b` of doubles. -/
  add : D → D → D
  /-- The difference `a - b` of doubles. -/
  sub : D → D → D
  /-- The product `a * b` of doubles. -/
  mul : D → D → D
  /-- The quotient `a / b` of doubles. -/
  div : D → D → Except Fault D
  /-- The test `abs(a) > abs(b)`. -/
  absGt : D → D → Bool
  /-- The test `abs(a) < 1e-9`. -/
  absLtTol : D → Bool
  /-- The difference `a - b` of two `int`. -/
  isub : Int → Int → Int

/-- A `vector<vector<double>>` over the doubles `D`. -/
abbrev MatG (D : Type) := List (List D)

/-- A matrix of `r` rows with `c` entries each, over the doubles `D`. -/
def RectG {D : Type} (r c : Nat) (m : MatG D) : Prop :=
  m.length = r ∧ ∀ row ∈ m, row.length = c

/-- The read `m[i][j]`. -/
def rd2G {D : Type} (m : MatG D) (i j : Nat) : Except Fault D := do
  let row ← rd m i
  rd row j

/-- The write `m[i][j] = a`. -/
def wr2G {D : Type} (m : MatG D) (i j : Nat) (a : D) : Except Fault (MatG D) := do
  let row ← rd m i
  let row ← wr row j a
  wr m i row

/-- A loop that prints, for each index of `idx` in turn, what `f` reads: the reads are
executed and nothing is kept. -/
def readAll {α : Type} (idx : List Nat) (f : Nat → Except Fault α) : Except Fault Unit :=
  idx.foldlM (fun _ i => do
    let _a ← f i
    pure ()) ()

/-- Lines 44-49: the pivot search in column `i`, over the rows `i+1 .. n-1`. -/
def findPivotG {D : Type} (A : Arith D) (matrix : MatG D) (n i : Nat) : Except Fault Nat :=
  (List.range' (i + 1) (n - (i + 1))).foldlM (fun maxRow k => do
    let a ← rd2G matrix k i
    let b ← rd2G matrix maxRow i
    pure (if A.absGt a b then k else maxRow)) i

/-- Line 50: `swap(matrix[a], matrix[b])`. -/
def swapRowsG {D : Type} (matrix : MatG D) (a b : Nat) : Except Fault (MatG D) := do
  let ra ← rd matrix a
  let rb ← rd matrix b
  let matrix ← wr matrix a rb
  wr matrix b ra

/-- Lines 54-57: row `k` loses `factor` times row `i`, in the columns `i .. n`. -/
def eliminateRowG {D : Type} (A : Arith D) (matrix : MatG D) (n i k : Nat) :
    Except Fault (MatG D) := do
  let mki ← rd2G matrix k i
  let mii ← rd2G matrix i i
  let factor ← A.div mki mii
  (List.range' i (n + 1 - i)).foldlM (fun m j => do
    let mkj ← rd2G m k j
    let mij ← rd2G m i j
    wr2G m k j (A.sub mkj (A.mul factor mij))) matrix

/-- Lines 43-58: one iteration of the forward elimination, for column `i`. -/
def forwardStepG {D : Type} (A : Arith D) (n : Nat) (matrix : MatG D) (i : Nat) :
    Except Fault (MatG D) := do
  let maxRow ← findPivotG A matrix n i
  let matrix ← swapRowsG matrix maxRow i
  (List.range' (i + 1) (n - (i + 1))).foldlM (fun m k => eliminateRowG A m n i k) matrix

/-- Lines 42-59: the forward elimination. -/
def forwardEliminationG {D : Type} (A : Arith D) (matrix : MatG D) : Except Fault (MatG D) :=
  (List.range matrix.length).foldlM (forwardStepG A matrix.length) matrix

/-- Lines 64-68: one iteration of the back substitution, for row `i`. -/
def backStepG {D : Type} (A : Arith D) (matrix : MatG D) (n : Nat) (solution : List D)
    (i : Nat) : Except Fault (List D) := do
  let b ← rd2G matrix i n
  let solution ← wr solution i b
  let solution ← (List.range' (i + 1) (n - (i + 1))).foldlM (fun sol j => do
    let mij ← rd2G matrix i j
    let sj ← rd sol j
    let si ← rd sol i
    wr sol i (A.sub si (A.mul mij sj))) solution
  let si ← rd solution i
  let mii ← rd2G matrix i i
  let q ← A.div si mii
  wr solution i q

/-- Lines 62-69: the back substitution, from row `n-1` down to row `0`. -/
def backSubstitutionG {D : Type} (A : Arith D) (matrix : MatG D) : Except Fault (List D) :=
  (List.range matrix.length).reverse.foldlM (backStepG A matrix matrix.length)
    (List.replicate matrix.length (A.ofInt 0))

/-- Lines 38-72. -/
def gaussianEliminationG {D : Type} (A : Arith D) (matrix : MatG D) :
    Except Fault (List D) := do
  let matrix ← forwardEliminationG A matrix
  backSubstitutionG A matrix

/-- Lines 83-96 for one `i`: row `i` becomes `[1, x, x^2, ..., x^(n-1), y]` and its first `n`
entries are printed. -/
def fillRowG {D : Type} (A : Arith D) (points : Points) (matrix : MatG D) (i : Nat) :
    Except Fault (MatG D) := do
  let n := points.length
  let p ← rd points i
  let matrix ← (List.range n).foldlM (fun m j => wr2G m i j (A.pow p.1 j)) matrix
  let matrix ← wr2G matrix i n (A.ofInt p.2)
  readAll (List.range n) (fun j => rd2G matrix i j)
  pure matrix

/-- Lines 76-97: the augmented matrix of the system. -/
def buildVandermondeG {D : Type} (A : Arith D) (points : Points) : Except Fault (MatG D) :=
  (List.range points.length).foldlM (fillRowG A points)
    (List.replicate points.length (List.replicate (points.length + 1) (A.ofInt 0)))

/-- Lines 75-107: the coefficients are computed, printed one by one, and `coefficients[0]`
is returned. -/
def solveVandermondeG {D : Type} (A : Arith D) (points : Points) : Except Fault D := do
  let matrix ← buildVandermondeG A points
  let coefficients ← gaussianEliminationG A matrix
  readAll (List.range points.length) (fun i => rd coefficients i)
  rd coefficients 0

/-- Line 124-125: the entry `table[i][j]`; the difference of the x-coordinates is taken on
`int`, then converted. -/
def tableStepG {D : Type} (A : Arith D) (points : Points) (j : Nat) (table : MatG D)
    (i : Nat) : Except Fault (MatG D) := do
  let a ← rd2G table (i + 1) (j - 1)
  let b ← rd2G table i (j - 1)
  let pij ← rd points (i + j)
  let pi ← rd points i
  let q ← A.div (A.sub a b) (A.ofInt (A.isub pij.1 pi.1))
  wr2G table i j q

/-- Lines 112-127: the divided-difference table. -/
def newtonTableG {D : Type} (A : Arith D) (points : Points) : Except Fault (MatG D) := do
  let n := points.length
  let table ← (List.range n).foldlM (fun t i => do
    let p ← rd points i
    wr2G t i 0 (A.ofInt p.2)) (List.replicate n (List.replicate n (A.ofInt 0)))
  (List.range' 1 (n - 1)).foldlM (fun t j =>
    (List.range (n - j)).foldlM (tableStepG A points j) t) table

/-- Lines 141-144: one iteration on the state `(result, product)`; `0 - x` is taken on `int`,
then converted. -/
def newtonEvalStepG {D : Type} (A : Arith D) (points : Points) (table : MatG D) (st : D × D)
    (i : Nat) : Except Fault (D × D) := do
  let p ← rd points (i - 1)
  let product := A.mul st.2 (A.ofInt (A.isub 0 p.1))
  let t ← rd2G table 0 i
  pure (A.add st.1 (A.mul t product), product)

/-- Lines 110-156: the table is built and printed (lines 130-135), the Newton form is
evaluated at `x = 0` (lines 138-144) and printed term by term (lines 147-152). -/
def newtonDividedDifferenceG {D : Type} (A : Arith D) (points : Points) : Except Fault D := do
  let n := points.length
  let table ← newtonTableG A points
  readAll (List.range n) (fun i => readAll (List.range (n - i)) (fun j => rd2G table i j))
  let result ← rd2G table 0 0
  let st ← (List.range' 1 (n - 1)).foldlM (newtonEvalStepG A points table) (result, A.ofInt 1)
  let _first ← rd2G table 0 0
  readAll (List.range' 1 (n - 1)) (fun i => do
    let _p ← rd points (i - 1)
    rd2G table 0 i)
  pure st.1

/-- One line of the report of lines 183-185, over the doubles `D`. -/
structure VerifyLineG (D : Type) where
  x : Int
  calculated : D
  expected : Int
  isMatch : Bool

/-- Lines 178-181: the sum of `coeffs[i] * pow(x, i)`, accumulated from `i = 0` on. -/
def evalCoeffsG {D : Type} (A : Arith D) (coeffs : List D) (x : Int) : Except Fault D :=
  (List.range coeffs.length).foldlM (fun calculated i => do
    let c ← rd coeffs i
    pure (A.add calculated (A.mul c (A.pow x i)))) (A.ofInt 0)

/-- Lines 159-187: the polynomial is printed from its highest coefficient down
(lines 162-170), then one report line is made for each point, in the order of the points. -/
def verifyPolynomialG {D : Type} (A : Arith D) (points : Points) (coeffs : List D) :
    Except Fault (List (VerifyLineG D)) := do
  readAll (List.range coeffs.length).reverse (fun i => rd coeffs i)
  points.foldlM (fun out point => do
    let calculated ← evalCoeffsG A coeffs point.1
    pure (out ++ [⟨point.1, calculated, point.2,
      A.absLtTol (A.sub calculated (A.ofInt point.2))⟩])) []

/-! ### Three arithmetics -/

/-- An `int` after an operation that overflowed: the value is reduced modulo `2^32` to the
range `[-2^31, 2^31)`. -/
def wrap32 (z : Int) : Int := (z + 2 ^ 31) % 2 ^ 32 - 2 ^ 31

/-- Doubles as exact rationals, `int` as 32-bit integers that wrap: no rounding is made, and
a division by zero ends the run, its result being no rational number. -/
def exactArith : Arith ℚ where
  ofInt z := (z : ℚ)
  pow x j := (x : ℚ) ^ j
  add a b := a + b
  sub a b := a - b
  mul a b := a * b
  div := fdiv
  absGt a b := decide (|a| > |b|)
  absLtTol d := decide (|d| < 1 / 1000000000)
  isub a b := wrap32 (a - b)

/-- Rounding to the nearest integer, a tie going to the even neighbour. -/
def roundHalfEven (q : ℚ) : Int :=
  if q - ⌊q⌋ < 1 / 2 then ⌊q⌋
  else if 1 / 2 < q - ⌊q⌋ then ⌊q⌋ + 1
  else if ⌊q⌋ % 2 = 0 then ⌊q⌋ else ⌊q⌋ + 1

/-- The double nearest to `q`: 53 significant bits, a tie going to the even significand. The
exponent range is taken unbounded: no overflow to an infinity and no subnormal numbers. -/
def roundDouble (q : ℚ) : ℚ :=
  if q = 0 then 0
  else roundHalfEven (q / 2 ^ (Int.log 2 |q| - 52)) * 2 ^ (Int.log 2 |q| - 52)

/-- Doubles as the rationals that are doubles, every operation rounding its exact result to
the nearest double, and `int` as 32-bit integers that wrap. `pow` is taken correctly rounded,
and a division by zero ends the run, its result being no rational number. -/
def roundedArith : Arith ℚ where
  ofInt z := roundDouble z
  pow x j := roundDouble ((x : ℚ) ^ j)
  add a b := roundDouble (a + b)
  sub a b := roundDouble (a - b)
  mul a b := roundDouble (a * b)
  div a b := if b = 0 then .error .divByZero else .ok (roundDouble (a / b))
  absGt a b := decide (|a| > |b|)
  absLtTol d := decide (|d| < roundDouble (1 / 1000000000))
  isub a b := wrap32 (a - b)

/-- Doubles as exact rationals with one more value, `none`, for a result that is no rational
number (an infinity or a NaN of IEEE 754): a division by zero gives `none`, every operation on
`none` gives `none`, and a comparison with `none` is false. No operation ends the run. -/
def totalArith : Arith (Option ℚ) where
  ofInt z := some (z : ℚ)
  pow x j := some ((x : ℚ) ^ j)
  add a b := a.bind (fun x => b.map (fun y => x + y))
  sub a b := a.bind (fun x => b.map (fun y => x - y))
  mul a b := a.bind (fun x => b.map (fun y => x * y))
  div a b := .ok (a.bind (fun x => b.bind (fun y => if y = 0 then none else some (x / y))))
  absGt a b :=
    match a, b with
    | some x, some y => decide (|x| > |y|)
    | _, _ => false
  absLtTol d :=
    match d with
    | some x => decide (|x| < 1 / 1000000000)
    | none => false
  isub a b := wrap32 (a - b)

/-! ## Radix decoding: proofs -/

set_option maxRecDepth 100000 in
theorem digitOfChar_ascii : ∀ n : Fin 128,
    digitOfChar (Char.ofNat n) = (specDigitValue (Char.ofNat n)).map Int.ofNat := by
  decide

theorem positionIn_eq_none {l : List Char} {c : Char} (h : c ∉ l) : positionIn l c = none := by
  unfold positionIn
  rw [if_neg]
  rw [List.indexOf_lt_length]
  exact h

theorem specDigitValue_of_large (c : Char) (h : 128 ≤ c.toNat) : specDigitValue c = none := by
  have h1 : c ∉ "0123456789".toList := by
    intro hc
    have : ∀ x ∈ "0123456789".toList, x.toNat < 128 := by decide
    exact absurd (this c hc) (by omega)
  have h2 : c ∉ "ABCDEFGHIJKLMNOPQRSTUVWXYZ".toList := by
    intro hc
    have : ∀ x ∈ "ABCDEFGHIJKLMNOPQRSTUVWXYZ".toList, x.toNat < 128 := by decide
    exact absurd (this c hc) (by omega)
  have h3 : c ∉ "abcdefghijklmnopqrstuvwxyz".toList := by
    intro hc
    have : ∀ x ∈ "abcdefghijklmnopqrstuvwxyz".toList, x.toNat < 128 := by decide
    exact absurd (this c hc) (by omega)
  unfold specDigitValue
  rw [positionIn_eq_none h1, positionIn_eq_none h2, positionIn_eq_none h3]

theorem char_le_toNat {a c : Char} (h : c ≤ a) : c.toNat ≤ a.toNat := h

theorem digitOfChar_of_large (c : Char) (h : 128 ≤ c.toNat) : digitOfChar c = none := by
  unfold digitOfChar
  have e9 : ('9' : Char).toNat = 57 := by decide
  have eZ : ('Z' : Char).toNat = 90 := by decide
  have ez : ('z' : Char).toNat = 122 := by decide
  rw [if_neg, if_neg, if_neg]
  · rintro ⟨-, h2⟩
    have := char_le_toNat h2
    omega
  · rintro ⟨-, h2⟩
    have := char_le_toNat h2
    omega
  · rintro ⟨-, h2⟩
    have := char_le_toNat h2
    omega

theorem digitOfChar_eq_spec (c : Char) :
    digitOfChar c = (specDigitValue c).map Int.ofNat := by
  by_cases h : c.toNat < 128
  · have := digitOfChar_ascii ⟨c.toNat, h⟩
    simpa [Char.ofNat_toNat] using this
  · rw [digitOfChar_of_large c (by omega), specDigitValue_of_large c (by omega)]
    rfl

theorem validDigit_iff {b : Int} {c : Char} :
    validDigit b c = true ↔ ∃ d, specDigitValue c = some d ∧ (d : Int) < b := by
  unfold validDigit
  cases specDigitValue c with
  | none => simp
  | some d => simp

theorem baseToDecimalStep_valid {b : Int} {c : Char} {d : Nat} (hd : specDigitValue c = some d)
    (hlt : (d : Int) < b) (st : Int × Int) :
    baseToDecimalStepExact b st c = (st.1 + (d : Int) * st.2, st.2 * b) := by
  unfold baseToDecimalStepExact
  rw [digitOfChar_eq_spec, hd]
  simp only [Option.map_some', ge_iff_le, Int.ofNat_eq_coe]
  rw [if_neg (by omega)]

theorem baseToDecimalStep_invalid {b : Int} {c : Char} (h : ¬ validDigit b c = true)
    (st : Int × Int) : baseToDecimalStepExact b st c = st := by
  unfold baseToDecimalStepExact
  rw [digitOfChar_eq_spec]
  cases hd : specDigitValue c with
  | none => rfl
  | some d =>
    have : ¬ (d : Int) < b := fun hlt => h (validDigit_iff.mpr ⟨d, hd, hlt⟩)
    simp only [Option.map_some', ge_iff_le, Int.ofNat_eq_coe]
    rw [if_pos (by omega)]

/-- The loop state after the characters of `l` have been read from the right. -/
theorem foldr_step_valid (b : Int) (l : List Char) (h : ∀ c ∈ l, validDigit b c = true) :
    l.foldr (fun c st => baseToDecimalStepExact b st c) (0, 1) = (positionalValue b l, b ^ l.length) := by
  induction l with
  | nil => simp [positionalValue]
  | cons c t ih =>
    have ht : ∀ c ∈ t, validDigit b c = true := fun x hx => h x (List.mem_cons_of_mem _ hx)
    have hc : validDigit b c = true := h c (List.mem_cons_self _ _)
    rw [List.foldr_cons, ih ht]
    obtain ⟨d, hd, hlt⟩ := validDigit_iff.mp hc
    rw [baseToDecimalStep_valid hd hlt]
    simp only [positionalValue, List.length_cons, Fin.sum_univ_succ]
    simp only [digitValue, hd, Fin.val_zero, Fin.val_succ, List.get_cons_zero,
      List.get_cons_succ, Option.getD_some, Prod.mk.injEq, pow_succ, and_true]
    rw [add_comm]
    congr 1
    simp only [add_tsub_cancel_right, tsub_zero, mul_comm]
    refine Finset.sum_congr rfl (fun i _ => ?_)
    congr 2
    omega

theorem foldr_step_filter (b : Int) (l : List Char) :
    l.foldr (fun c st => baseToDecimalStepExact b st c) (0, 1)
      = (l.filter (validDigit b)).foldr (fun c st => baseToDecimalStepExact b st c) (0, 1) := by
  induction l with
  | nil => rfl
  | cons c t ih =>
    rw [List.foldr_cons, ih]
    by_cases hc : validDigit b c = true
    · rw [List.filter_cons_of_pos hc, List.foldr_cons]
    · rw [List.filter_cons_of_neg hc]
      rw [baseToDecimalStep_invalid hc]

theorem baseToDecimal_eq_foldr (s : String) (b : Int) :
    baseToDecimalExact s b = (s.toList.foldr (fun c st => baseToDecimalStepExact b st c) (0, 1)).1 := by
  unfold baseToDecimalExact
  rw [List.foldl_reverse]


theorem baseToDecimal_of_valid (b : Int) (s : String)
    (hs : ∀ c ∈ s.toList, validDigit b c = true) :
    baseToDecimalExact s b = positionalValue b s.toList := by
  rw [baseToDecimal_eq_foldr, foldr_step_valid b s.toList hs]

theorem baseToDecimal_filter (b : Int) (s : String) :
    baseToDecimalExact s b = baseToDecimalExact (String.mk (s.toList.filter (validDigit b))) b := by
  rw [baseToDecimal_eq_foldr, baseToDecimal_eq_foldr, foldr_step_filter]
  rfl

/-! ## Radix decoding with wrapping accumulators -/

theorem wrap64_modEq (z : Int) : wrap64 z ≡ z [ZMOD 2 ^ 64] := by
  unfold wrap64 Int.ModEq
  omega

theorem wrap64_range (z : Int) : -2 ^ 63 ≤ wrap64 z ∧ wrap64 z < 2 ^ 63 := by
  unfold wrap64
  omega

theorem wrap64_of_range {z : Int} (h1 : -2 ^ 63 ≤ z) (h2 : z < 2 ^ 63) : wrap64 z = z := by
  unfold wrap64
  omega

theorem wrap64_congr {a b : Int} (h : a ≡ b [ZMOD 2 ^ 64]) : wrap64 a = wrap64 b := by
  unfold wrap64
  unfold Int.ModEq at h
  omega

theorem step64_wrap (b : Int) (st : Int × Int) (c : Char) :
    baseToDecimalStep64 b (wrap64 st.1, wrap64 st.2) c
      = (wrap64 (baseToDecimalStepExact b st c).1, wrap64 (baseToDecimalStepExact b st c).2) := by
  unfold baseToDecimalStep64 baseToDecimalStepExact
  cases digitOfChar c with
  | none => rfl
  | some d =>
    dsimp only
    by_cases h : d ≥ b
    · rw [if_pos h, if_pos h]
    · rw [if_neg h, if_neg h]
      dsimp only
      congr 1
      · apply wrap64_congr
        refine Int.ModEq.add (wrap64_modEq _) ?_
        exact (wrap64_modEq _).trans (Int.ModEq.mul_left _ (wrap64_modEq _))
      · apply wrap64_congr
        exact Int.ModEq.mul_right _ (wrap64_modEq _)

theorem foldr_step64 (b : Int) (l : List Char) :
    l.foldr (fun c st => baseToDecimalStep64 b st c) (0, 1)
      = (wrap64 (l.foldr (fun c st => baseToDecimalStepExact b st c) (0, 1)).1,
         wrap64 (l.foldr (fun c st => baseToDecimalStepExact b st c) (0, 1)).2) := by
  induction l with
  | nil => rfl
  | cons c t ih =>
    rw [List.foldr_cons, ih, step64_wrap]
    rfl

/-- The wrapped result is the exact result reduced modulo `2^64`. -/
theorem baseToDecimal64_eq_wrap (s : String) (b : Int) :
    baseToDecimal64 s b = wrap64 (baseToDecimalExact s b) := by
  unfold baseToDecimal64
  rw [List.foldl_reverse, foldr_step64, baseToDecimal_eq_foldr]

theorem positionalValue_nonneg {b : Int} (hb : 0 ≤ b) (l : List Char) :
    0 ≤ positionalValue b l := by
  unfold positionalValue
  refine Finset.sum_nonneg (fun i _ => mul_nonneg ?_ (pow_nonneg hb _))
  unfold digitValue
  exact Int.natCast_nonneg _

/-- C12, as stated, fails in base 10 at the decimal digits of `2^63`: with wrapping
accumulators the returned value is `-2^63`. -/
theorem baseToDecimal64_negative :
    ("9223372036854775808" ≠ "" ∧ ∀ c ∈ "9223372036854775808".toList, isAlnum c = true) ∧
    baseToDecimal64 "9223372036854775808" 10 = -9223372036854775808 ∧
    ¬ (0 ≤ baseToDecimal64 "9223372036854775808" 10) := by
  have h : baseToDecimal64 "9223372036854775808" 10 = -9223372036854775808 := by
    rw [baseToDecimal64_eq_wrap]
    decide
  refine ⟨⟨by decide, by decide⟩, h, ?_⟩
  rw [h]
  decide

/-- C12, amended: for a base `b` in [2, 36] and a non-empty string over '0'-'9', 'A'-'Z',
'a'-'z' whose valid digits have a positional value below `2^63`, the 64-bit value returned by
`baseToDecimal` (accumulators wrapping modulo `2^64`) is non-negative. -/
theorem baseToDecimal64_nonneg (b : Int) (s : String) (hb : 2 ≤ b ∧ b ≤ 36) (_hne : s ≠ "")
    (_hs : ∀ c ∈ s.toList, isAlnum c = true)
    (hV : positionalValue b (s.toList.filter (validDigit b)) < 2 ^ 63) :
    0 ≤ baseToDecimal64 s b := by
  have h0 := positionalValue_nonneg (show (0 : Int) ≤ b by omega)
    (s.toList.filter (validDigit b))
  have h2 : baseToDecimalExact s b = positionalValue b (s.toList.filter (validDigit b)) := by
    rw [baseToDecimal_filter]
    exact baseToDecimal_of_valid b _ (fun c hc => (List.mem_filter.mp hc).2)
  rw [baseToDecimal64_eq_wrap, h2, wrap64_of_range (by omega) hV]
  exact h0

/-- C12, amended, at the string "7fffffffffffffff" in base 16, whose value is `2^63 - 1`. -/
theorem baseToDecimal64_nonneg_witness : 0 ≤ baseToDecimal64 "7fffffffffffffff" 16 :=
  baseToDecimal64_nonneg 16 "7fffffffffffffff" (by decide) (by decide) (by decide) (by decide)

set_option maxRecDepth 1000000 in
theorem baseToDecimal64_ones :
    baseToDecimal64 (String.mk (List.replicate 63 '1')) 2 = 2 ^ 63 - 1 := by
  decide

set_option maxRecDepth 1000000 in
theorem baseToDecimal64_leading_zeros :
    baseToDecimal64 (String.mk (List.replicate 70 '0' ++ ['5'])) 10 = 5 := by
  decide

/-- C19: with `result` and `power` wrapping modulo `2^64`, for a base `b` in [2, 36] and a
string of valid digits for `b` whose positional value `V` is below `2^63`, `baseToDecimal`
returns exactly `V`, also when the running power overflows: 63 digits 1 in base 2 give
`2^63 - 1`, and 70 digits 0 followed by the digit 5 give 5 in base 10. -/
theorem baseToDecimal64_exact :
    (∀ (b : Int) (s : String), 2 ≤ b → b ≤ 36 → (∀ c ∈ s.toList, validDigit b c = true) →
      positionalValue b s.toList < 2 ^ 63 →
      baseToDecimal64 s b = positionalValue b s.toList) ∧
    baseToDecimal64 (String.mk (List.replicate 63 '1')) 2 = 2 ^ 63 - 1 ∧
    baseToDecimal64 (String.mk (List.replicate 70 '0' ++ ['5'])) 10 = 5 := by
  refine ⟨fun b s hb1 _ hs hV => ?_, ?_, ?_⟩
  · have h0 := positionalValue_nonneg (show (0 : Int) ≤ b by omega) s.toList
    rw [baseToDecimal64_eq_wrap, baseToDecimal_of_valid b s hs, wrap64_of_range (by omega) hV]
  · exact baseToDecimal64_ones
  · exact baseToDecimal64_leading_zeros

/-- C19 at the string "7fffffffffffffff" in base 16. -/
theorem baseToDecimal64_exact_witness :
    baseToDecimal64 "7fffffffffffffff" 16 = positionalValue 16 "7fffffffffffffff".toList ∧
    positionalValue 16 "7fffffffffffffff".toList = 2 ^ 63 - 1 :=
  ⟨baseToDecimal64_exact.1 16 "7fffffffffffffff" (by decide) (by decide) (by decide)
    (by decide), by decide⟩

/-! ## Radix decoding with wrapping accumulators: the positional value -/

theorem baseToDecimalExact_eq_positional (b : Int) (s : String) :
    baseToDecimalExact s b = positionalValue b (s.toList.filter (validDigit b)) := by
  rw [baseToDecimal_filter]
  exact baseToDecimal_of_valid b _ (fun c hc => (List.mem_filter.mp hc).2)

/-- Whatever the base, the wrapped result is the positional value of the valid digits reduced
modulo `2^64`. -/
theorem baseToDecimal64_eq_wrap_positional (b : Int) (s : String) :
    baseToDecimal64 s b = wrap64 (positionalValue b (s.toList.filter (validDigit b))) := by
  rw [baseToDecimal64_eq_wrap, baseToDecimalExact_eq_positional]

theorem filter_validDigit_of_neg {b : Int} (hb : b < 0) (l : List Char) :
    l.filter (validDigit b) = [] := by
  rw [List.filter_eq_nil_iff]
  intro c _ hc
  obtain ⟨d, -, hlt⟩ := validDigit_iff.mp hc
  omega

theorem positionalValue_filter_nonneg (b : Int) (l : List Char) :
    0 ≤ positionalValue b (l.filter (validDigit b)) := by
  by_cases hb : 0 ≤ b
  · exact positionalValue_nonneg hb _
  · rw [filter_validDigit_of_neg (by omega)]
    simp [positionalValue]

theorem baseToDecimal64_two_pow_63 :
    baseToDecimal64 "9223372036854775808" 10 = -9223372036854775808 := by
  rw [baseToDecimal64_eq_wrap]
  decide

theorem baseToDecimal64_skipped_overflow :
    baseToDecimal64 "1x0000000000000000000" 10 = -8446744073709551616 := by
  rw [baseToDecimal64_eq_wrap]
  decide

/-- C1, as stated, fails in base 10 at the decimal digits of `2^63`: every character is a
valid digit, the positional value over unbounded integers is `2^63`, and the `long long`
result is `-2^63`. -/
theorem baseToDecimal64_not_positional :
    (∀ c ∈ "9223372036854775808".toList, validDigit 10 c = true) ∧
    positionalValue 10 "9223372036854775808".toList = 9223372036854775808 ∧
    baseToDecimal64 "9223372036854775808" 10 = -9223372036854775808 ∧
    baseToDecimal64 "9223372036854775808" 10
      ≠ positionalValue 10 "9223372036854775808".toList := by
  have hv : positionalValue 10 "9223372036854775808".toList = 9223372036854775808 := by
    decide
  refine ⟨by decide, hv, baseToDecimal64_two_pow_63, ?_⟩
  rw [baseToDecimal64_two_pow_63, hv]
  decide

/-- C1, amended: for a base `b` in [2, 36] and a string `s` of valid digits for `b` whose
positional value over unbounded integers is below `2^63`, the `long long` value returned by
`baseToDecimal` (accumulators wrapping modulo `2^64`) is that positional value; in particular
"111" in base 2 is 7, "12" in base 10 is 12, "4" in base 10 is 4 and "213" in base 4 is 39. -/
theorem baseToDecimal64_positional :
    (∀ (b : Int) (s : String), 2 ≤ b → b ≤ 36 → (∀ c ∈ s.toList, validDigit b c = true) →
      positionalValue b s.toList < 2 ^ 63 →
      baseToDecimal64 s b = positionalValue b s.toList) ∧
    baseToDecimal64 "111" 2 = 7 ∧ baseToDecimal64 "12" 10 = 12 ∧
    baseToDecimal64 "4" 10 = 4 ∧ baseToDecimal64 "213" 4 = 39 := by
  refine ⟨fun b s hb1 _ hs hV => ?_, ?_, ?_, ?_, ?_⟩
  · have h0 := positionalValue_nonneg (show (0 : Int) ≤ b by omega) s.toList
    rw [baseToDecimal64_eq_wrap, baseToDecimal_of_valid b s hs, wrap64_of_range (by omega) hV]
  all_goals decide

/-- C1, amended, at the string "2aZ" in base 36: its digits are valid, and its positional
value is 2 * 36^2 + 10 * 36 + 35. -/
theorem baseToDecimal64_positional_witness :
    baseToDecimal64 "2aZ" 36 = positionalValue 36 "2aZ".toList ∧
    positionalValue 36 "2aZ".toList = 2987 :=
  ⟨baseToDecimal64_positional.1 36 "2aZ" (by decide) (by decide) (by decide) (by decide),
    by decide⟩

/-- C2, as stated, fails in base 10 at the string "1x0000000000000000000": the character x is
skipped, the remaining digit 1 has 19 valid digits to its right, so that its weight would be
`10^19`, and the `long long` result is `10^19 - 2^64`. -/
theorem baseToDecimal64_weight_wraps :
    "1x0000000000000000000".toList.filter (validDigit 10) = "10000000000000000000".toList ∧
    positionalValue 10 "10000000000000000000".toList = 10 ^ 19 ∧
    baseToDecimal64 "1x0000000000000000000" 10 = -8446744073709551616 ∧
    baseToDecimal64 "1x0000000000000000000" 10
      ≠ positionalValue 10 ("1x0000000000000000000".toList.filter (validDigit 10)) := by
  have hf : "1x0000000000000000000".toList.filter (validDigit 10)
      = "10000000000000000000".toList := by decide
  have hv : positionalValue 10 "10000000000000000000".toList = 10 ^ 19 := by decide
  refine ⟨hf, hv, baseToDecimal64_skipped_overflow, ?_⟩
  rw [baseToDecimal64_skipped_overflow, hf, hv]
  decide

/-- C2, amended: for every base `b` and string `s`, the `long long` value returned by
`baseToDecimal` (accumulators wrapping modulo `2^64`) is the value returned for `s` with the
characters that are no valid digit for `b` removed: skipped characters consume no power of
the base. It is the positional value of the remaining digits (each weighing
`b ^ (number of valid digits to its right)`) reduced modulo `2^64` to the `long long` range,
hence that positional value itself when it is below `2^63`; a string without a valid digit,
the empty one included, decodes to 0. -/
theorem baseToDecimal64_skips_invalid (b : Int) (s : String) :
    baseToDecimal64 s b = baseToDecimal64 (String.mk (s.toList.filter (validDigit b))) b ∧
    baseToDecimal64 s b = wrap64 (positionalValue b (s.toList.filter (validDigit b))) ∧
    (positionalValue b (s.toList.filter (validDigit b)) < 2 ^ 63 →
      baseToDecimal64 s b = positionalValue b (s.toList.filter (validDigit b))) ∧
    ((∀ c ∈ s.toList, validDigit b c = false) → baseToDecimal64 s b = 0) ∧
    baseToDecimal64 "" b = 0 := by
  refine ⟨?_, baseToDecimal64_eq_wrap_positional b s, fun hV => ?_, fun h => ?_, rfl⟩
  · rw [baseToDecimal64_eq_wrap, baseToDecimal64_eq_wrap, ← baseToDecimal_filter]
  · have h0 := positionalValue_filter_nonneg b s.toList
    rw [baseToDecimal64_eq_wrap_positional, wrap64_of_range (by omega) hV]
  · rw [baseToDecimal64_eq_wrap_positional]
    have : s.toList.filter (validDigit b) = [] := by
      rw [List.filter_eq_nil_iff]
      intro c hc
      rw [h c hc]
      decide
    rw [this]
    rfl

/-- C2, amended, at the string "1x-1 2" in base 2: only the two digits 1 are kept, the value
is 3; and "z!" has no valid digit in base 10. -/
theorem baseToDecimal64_skips_invalid_witness :
    baseToDecimal64 "1x-1 2" 2 = baseToDecimal64 "11" 2 ∧ baseToDecimal64 "1x-1 2" 2 = 3 ∧
    baseToDecimal64 "z!" 10 = 0 :=
  ⟨(baseToDecimal64_skips_invalid 2 "1x-1 2").1,
    ((baseToDecimal64_skips_invalid 2 "1x-1 2").2.2.1 (by decide)).trans (by decide),
    (baseToDecimal64_skips_invalid 10 "z!").2.2.2.1 (by decide)⟩

/-! ## Runs, loops and containers: basic facts -/

@[simp] theorem ok_bind {α β : Type} (a : α) (f : α → Except Fault β) :
    (Except.ok a >>= f) = f a := rfl

@[simp] theorem error_bind {α β : Type} (e : Fault) (f : α → Except Fault β) :
    ((Except.error e : Except Fault α) >>= f) = Except.error e := rfl

@[simp] theorem pure_eq_ok {α : Type} (a : α) : (pure a : Except Fault α) = Except.ok a := rfl

@[simp] theorem post_ok {β : Type} (b : β) (Q : β → Prop) (E : Fault → Prop) :
    Post (Except.ok b) Q E ↔ Q b := Iff.rfl

@[simp] theorem post_error {β : Type} (e : Fault) (Q : β → Prop) (E : Fault → Prop) :
    Post (Except.error e : Except Fault β) Q E ↔ E e := Iff.rfl

theorem post_bind {α β : Type} {x : Except Fault α} {g : α → Except Fault β}
    {Q : α → Prop} {R : β → Prop} {E : Fault → Prop}
    (hx : Post x Q E) (hg : ∀ a, Q a → Post (g a) R E) : Post (x >>= g) R E := by
  cases x with
  | ok a => exact hg a hx
  | error e => exact hx

theorem post_mono {β : Type} {x : Except Fault β} {Q R : β → Prop} {E F : Fault → Prop}
    (hx : Post x Q E) (hQ : ∀ b, Q b → R b) (hE : ∀ e, E e → F e) : Post x R F := by
  cases x with
  | ok a => exact hQ a hx
  | error e => exact hE e hx

theorem post_ok_of {β : Type} {x : Except Fault β} {Q : β → Prop}
    (hx : Post x Q (fun _ => False)) : ∃ b, x = Except.ok b ∧ Q b := by
  cases x with
  | ok a => exact ⟨a, rfl, hx⟩
  | error e => exact hx.elim

/-- The rule for a counting loop `for (k = s; k < s + len; k++)`. -/
theorem foldlM_post {β : Type} (f : β → Nat → Except Fault β) (I : Nat → β → Prop)
    (E : Fault → Prop) :
    ∀ (len s : Nat) (b : β), I s b →
      (∀ k b, s ≤ k → k < s + len → I k b → Post (f b k) (I (k + 1)) E) →
      Post ((List.range' s len).foldlM f b) (I (s + len)) E := by
  intro len
  induction len with
  | zero => intro s b h0 _; simpa using h0
  | succ len ih =>
    intro s b h0 hstep
    rw [List.range'_succ, List.foldlM_cons]
    refine post_bind (hstep s b le_rfl (by omega) h0) (fun b1 hb1 => ?_)
    have := ih (s + 1) b1 hb1 (fun k b hk hk2 hI => hstep k b (by omega) (by omega) hI)
    rwa [show s + 1 + len = s + (len + 1) by omega] at this

/-- The rule for a counting loop `for (k = n - 1; k >= 0; k--)`. -/
theorem foldlM_reverse_post {β : Type} (f : β → Nat → Except Fault β) (I : Nat → β → Prop)
    (E : Fault → Prop) :
    ∀ (n : Nat) (b : β), I n b →
      (∀ k b, k < n → I (k + 1) b → Post (f b k) (I k) E) →
      Post ((List.range n).reverse.foldlM f b) (I 0) E := by
  intro n
  induction n with
  | zero => intro b h0 _; simpa using h0
  | succ n ih =>
    intro b h0 hstep
    rw [List.range_succ, List.reverse_append, List.reverse_singleton, List.singleton_append,
      List.foldlM_cons]
    refine post_bind (hstep n b (by omega) h0) (fun b1 hb1 => ?_)
    exact ih b1 hb1 (fun k b hk hI => hstep k b (by omega) hI)

theorem rd_ok {α : Type} {v : List α} {i : Nat} (h : i < v.length) :
    rd v i = Except.ok (v.get ⟨i, h⟩) := by
  unfold rd
  rw [List.getElem?_eq_getElem h]
  rfl

theorem rd_oob {α : Type} {v : List α} {i : Nat} (h : v.length ≤ i) :
    rd v i = Except.error Fault.outOfBounds := by
  unfold rd
  rw [List.getElem?_eq_none h]

theorem rd_ok_getD {v : List ℚ} {i : Nat} (h : i < v.length) :
    rd v i = Except.ok (v.getD i 0) := by
  rw [rd_ok h]
  congr 1
  simp [List.getD_eq_getElem?_getD, List.getElem?_eq_getElem h]

theorem wr_ok {α : Type} {v : List α} {i : Nat} (a : α) (h : i < v.length) :
    wr v i a = Except.ok (v.set i a) := by
  unfold wr
  rw [if_pos h]

theorem rect_row {r c : Nat} {m : Mat} (hm : Rect r c m) {i : Nat} (hi : i < r) :
    (m.getD i []).length = c := by
  have hi2 : i < m.length := hm.1 ▸ hi
  have : m.getD i [] = m.get ⟨i, hi2⟩ := by
    simp [List.getD_eq_getElem?_getD, List.getElem?_eq_getElem hi2]
  rw [this]
  exact hm.2 _ (List.get_mem _ _ _)

theorem rd_row {r c : Nat} {m : Mat} (hm : Rect r c m) {i : Nat} (hi : i < r) :
    rd m i = Except.ok (m.getD i []) := by
  have hi2 : i < m.length := hm.1 ▸ hi
  rw [rd_ok hi2]
  congr 1
  simp [List.getD_eq_getElem?_getD, List.getElem?_eq_getElem hi2]

theorem rd2_ok {r c : Nat} {m : Mat} (hm : Rect r c m) {i j : Nat} (hi : i < r) (hj : j < c) :
    rd2 m i j = Except.ok (ent m i j) := by
  unfold rd2
  rw [rd_row hm hi, ok_bind, rd_ok_getD (by rw [rect_row hm hi]; exact hj)]
  rfl

theorem wr2_ok {r c : Nat} {m : Mat} (hm : Rect r c m) {i j : Nat} (hi : i < r) (hj : j < c)
    (a : ℚ) : wr2 m i j a = Except.ok (set2 m i j a) := by
  unfold wr2
  rw [rd_row hm hi, ok_bind, wr_ok a (by rw [rect_row hm hi]; exact hj), ok_bind,
    wr_ok _ (by rw [hm.1]; exact hi)]
  rfl

theorem rect_set {r c : Nat} {m : Mat} (hm : Rect r c m) (i : Nat) (row : List ℚ)
    (hrow : row.length = c) : Rect r c (m.set i row) := by
  refine ⟨by rw [List.length_set]; exact hm.1, fun x hx => ?_⟩
  rcases List.mem_or_eq_of_mem_set hx with h | h
  · exact hm.2 x h
  · rw [h]; exact hrow

theorem ent_set {r c : Nat} {m : Mat} (hm : Rect r c m) {i : Nat} (hi : i < r) (row : List ℚ)
    (i2 j2 : Nat) : ent (m.set i row) i2 j2 = if i2 = i then row.getD j2 0 else ent m i2 j2 := by
  unfold ent
  have hi2 : i < m.length := hm.1 ▸ hi
  by_cases h : i2 = i
  · subst h
    simp [List.getD_eq_getElem?_getD, List.getElem?_set, hi2]
  · have h2 : ¬ i = i2 := fun e => h e.symm
    simp [List.getD_eq_getElem?_getD, List.getElem?_set, h, h2]

theorem rect_set2 {r c : Nat} {m : Mat} (hm : Rect r c m) {i : Nat} (hi : i < r) (j : Nat)
    (a : ℚ) : Rect r c (set2 m i j a) :=
  rect_set hm i _ (by rw [List.length_set]; exact rect_row hm hi)

theorem ent_set2 {r c : Nat} {m : Mat} (hm : Rect r c m) {i j : Nat} (hi : i < r) (hj : j < c)
    (a : ℚ) (i2 j2 : Nat) :
    ent (set2 m i j a) i2 j2 = if i2 = i ∧ j2 = j then a else ent m i2 j2 := by
  unfold set2
  rw [ent_set hm hi]
  have hlen := rect_row hm hi
  by_cases h : i2 = i
  · subst h
    by_cases h2 : j2 = j
    · subst h2
      have hj2 : j2 < (m[i2]?.getD []).length := by
        rw [← List.getD_eq_getElem?_getD, hlen]; exact hj
      simp [List.getD_eq_getElem?_getD, List.getElem?_set, hj2]
    · have h3 : ¬ j = j2 := fun e => h2 e.symm
      simp [List.getD_eq_getElem?_getD, List.getElem?_set, h2, h3, ent]
  · simp [h]

theorem rect_replicate (r c : Nat) : Rect r c (List.replicate r (List.replicate c 0)) := by
  refine ⟨List.length_replicate _ _, fun row hrow => ?_⟩
  rw [List.eq_of_mem_replicate hrow, List.length_replicate]

theorem ent_replicate (r c i j : Nat) : ent (List.replicate r (List.replicate c 0)) i j = 0 := by
  unfold ent
  by_cases hi : i < r
  · by_cases hj : j < c
    · simp [List.getD_eq_getElem?_getD, List.getElem?_replicate, hi, hj]
    · simp [List.getD_eq_getElem?_getD, List.getElem?_replicate, hi, hj]
  · simp [List.getD_eq_getElem?_getD, List.getElem?_replicate, hi]

/-! ## Gaussian elimination: pivot search, row swap, row elimination -/

theorem findPivot_spec {n : Nat} {m : Mat} (hm : Rect n (n + 1) m) {i : Nat} (hi : i < n) :
    ∃ p, findPivot m n i = Except.ok p ∧ i ≤ p ∧ p < n ∧
      ∀ k, i ≤ k → k < n → |ent m k i| ≤ |ent m p i| := by
  have h := foldlM_post
    (fun maxRow k => do
      let a ← rd2 m k i
      let b ← rd2 m maxRow i
      pure (if |a| > |b| then k else maxRow))
    (fun k p => i ≤ p ∧ p < k ∧ ∀ k2, i ≤ k2 → k2 < k → |ent m k2 i| ≤ |ent m p i|)
    (fun _ => False) (n - (i + 1)) (i + 1) i
    ⟨le_rfl, by omega, fun k2 h1 h2 => by
      have : k2 = i := by omega
      rw [this]⟩
    (by
      intro k p hk1 hk2 ⟨hp1, hp2, hp3⟩
      beta_reduce
      rw [rd2_ok hm (by omega) (by omega), ok_bind, rd2_ok hm (by omega) (by omega), ok_bind]
      simp only [pure_eq_ok, post_ok]
      by_cases hgt : |ent m k i| > |ent m p i|
      · rw [if_pos hgt]
        refine ⟨by omega, by omega, fun k2 h1 h2 => ?_⟩
        by_cases hk : k2 = k
        · rw [hk]
        · exact le_trans (hp3 k2 h1 (by omega)) (le_of_lt hgt)
      · rw [if_neg hgt]
        refine ⟨hp1, by omega, fun k2 h1 h2 => ?_⟩
        by_cases hk : k2 = k
        · rw [hk]; exact not_lt.mp hgt
        · exact hp3 k2 h1 (by omega))
  obtain ⟨p, hp, h1, h2, h3⟩ := post_ok_of h
  rw [show i + 1 + (n - (i + 1)) = n by omega] at h2 h3
  exact ⟨p, hp, h1, h2, h3⟩

theorem swapRows_spec {n c : Nat} {m : Mat} (hm : Rect n c m) {a b : Nat} (ha : a < n)
    (hb : b < n) :
    ∃ m2, swapRows m a b = Except.ok m2 ∧ Rect n c m2 ∧
      ∀ r j, ent m2 r j = if r = b then ent m a j else if r = a then ent m b j else ent m r j := by
  unfold swapRows
  rw [rd_row hm ha, ok_bind, rd_row hm hb, ok_bind, wr_ok _ (by rw [hm.1]; exact ha), ok_bind]
  have hm1 : Rect n c (m.set a (m.getD b [])) := rect_set hm a _ (rect_row hm hb)
  rw [wr_ok _ (by rw [hm1.1]; exact hb)]
  refine ⟨_, rfl, rect_set hm1 b _ (rect_row hm ha), fun r j => ?_⟩
  rw [ent_set hm1 hb, ent_set hm ha]
  rfl

theorem eliminateRow_zero {n : Nat} {m : Mat} (hm : Rect n (n + 1) m) {i k : Nat} (hi : i < n)
    (hk : k < n) (hz : ent m i i = 0) :
    eliminateRow m n i k = Except.error Fault.divByZero := by
  unfold eliminateRow
  rw [rd2_ok hm hk (by omega), ok_bind, rd2_ok hm hi (by omega), ok_bind]
  unfold fdiv
  rw [if_pos hz]
  rfl

theorem eliminateRow_spec {n : Nat} {m : Mat} (hm : Rect n (n + 1) m) {i k : Nat} (hi : i < n)
    (hk : k < n) (hik : k ≠ i) (hz : ent m i i ≠ 0) :
    ∃ m2, eliminateRow m n i k = Except.ok m2 ∧ Rect n (n + 1) m2 ∧
      ∀ r j, ent m2 r j =
        if r = k ∧ i ≤ j ∧ j ≤ n then ent m k j - ent m k i / ent m i i * ent m i j
        else ent m r j := by
  unfold eliminateRow
  rw [rd2_ok hm hk (by omega), ok_bind, rd2_ok hm hi (by omega), ok_bind]
  unfold fdiv
  rw [if_neg hz, ok_bind]
  have h := foldlM_post
    (fun m2 j => do
      let mkj ← rd2 m2 k j
      let mij ← rd2 m2 i j
      wr2 m2 k j (mkj - ent m k i / ent m i i * mij))
    (fun j m2 => Rect n (n + 1) m2 ∧ ∀ r j2, ent m2 r j2 =
        if r = k ∧ i ≤ j2 ∧ j2 < j then ent m k j2 - ent m k i / ent m i i * ent m i j2
        else ent m r j2)
    (fun _ => False) (n + 1 - i) i m
    ⟨hm, fun r j2 => by rw [if_neg (by omega)]⟩
    (by
      intro j m2 hj1 hj2 ⟨hm2, he⟩
      beta_reduce
      rw [rd2_ok hm2 hk (by omega), ok_bind, rd2_ok hm2 hi (by omega), ok_bind,
        wr2_ok hm2 hk (by omega)]
      refine ⟨rect_set2 hm2 hk _ _, fun r j2 => ?_⟩
      rw [ent_set2 hm2 hk (by omega)]
      by_cases h1 : r = k ∧ j2 = j
      · obtain ⟨rfl, rfl⟩ := h1
        rw [if_pos ⟨rfl, rfl⟩, if_pos ⟨rfl, hj1, by omega⟩, he, he, if_neg (by omega),
          if_neg (by omega)]
      · rw [if_neg h1, he]
        by_cases h2 : r = k ∧ i ≤ j2 ∧ j2 < j
        · rw [if_pos h2, if_pos ⟨h2.1, h2.2.1, by omega⟩]
        · rw [if_neg h2, if_neg (by omega)])
  obtain ⟨m2, hm2, hr, he⟩ := post_ok_of h
  refine ⟨m2, hm2, hr, fun r j => ?_⟩
  rw [he]
  by_cases h2 : r = k ∧ i ≤ j ∧ j ≤ n
  · rw [if_pos h2, if_pos ⟨h2.1, h2.2.1, by omega⟩]
  · rw [if_neg h2, if_neg (by omega)]

/-! ## Row operations keep the solutions of the system -/

theorem sameSol_refl (n : Nat) (m : Mat) : SameSol n m m := fun _ _ => Iff.rfl

theorem sameSol_trans {n : Nat} {a b c : Mat} (h1 : SameSol n a b) (h2 : SameSol n b c) :
    SameSol n a c := fun s t => (h1 s t).trans (h2 s t)

theorem lin_congr {n : Nat} {m m2 : Mat} {r r2 : Nat} (h : ∀ j, ent m2 r j = ent m r2 j)
    (s : Nat → ℚ) (t : ℚ) : lin n m2 r s t = lin n m r2 s t := by
  unfold lin
  rw [h n]
  congr 1
  exact Finset.sum_congr rfl (fun j _ => by rw [h j])

theorem sameSol_swap {n : Nat} {m m2 : Mat} {a b : Nat} (ha : a < n) (hb : b < n)
    (h : ∀ r j, ent m2 r j = if r = b then ent m a j else if r = a then ent m b j else ent m r j) :
    SameSol n m m2 := by
  have key : ∀ r s t, lin n m2 r s t =
      lin n m (if r = b then a else if r = a then b else r) s t := by
    intro r s t
    apply lin_congr
    intro j
    rw [h]
    split_ifs <;> rfl
  intro s t
  constructor
  · intro hs k hk
    rw [key]
    apply hs
    split_ifs <;> assumption
  · intro hs k hk
    by_cases h1 : k = a
    · have := hs b hb
      rw [key, if_pos rfl] at this
      rw [h1]; exact this
    · by_cases h2 : k = b
      · have := hs a ha
        rw [key] at this
        by_cases h3 : a = b
        · rw [if_pos h3] at this
          rw [h2, ← h3]; exact this
        · rw [if_neg h3, if_pos rfl] at this
          rw [h2]; exact this
      · have := hs k hk
        rw [key, if_neg h2, if_neg h1] at this
        exact this

theorem sameSol_elim {n : Nat} {m m2 : Mat} {i k : Nat} (hi : i < n) (hk : k < n) (hik : k ≠ i)
    (f : ℚ) (hrow : ∀ j, j ≤ n → ent m2 k j = ent m k j - f * ent m i j)
    (hother : ∀ r j, r ≠ k → ent m2 r j = ent m r j) : SameSol n m m2 := by
  have key : ∀ s t, lin n m2 k s t = lin n m k s t - f * lin n m i s t := by
    intro s t
    unfold lin
    rw [hrow n le_rfl]
    have : ∑ j in Finset.range n, ent m2 k j * s j =
        ∑ j in Finset.range n, ent m k j * s j - f * ∑ j in Finset.range n, ent m i j * s j := by
      rw [Finset.mul_sum, ← Finset.sum_sub_distrib]
      refine Finset.sum_congr rfl (fun j hj => ?_)
      rw [hrow j (le_of_lt (Finset.mem_range.mp hj))]
      ring
    rw [this]
    ring
  have key2 : ∀ r s t, r ≠ k → lin n m2 r s t = lin n m r s t :=
    fun r s t hr => lin_congr (fun j => hother r j hr) s t
  intro s t
  constructor
  · intro hs r hr
    by_cases h1 : r = k
    · rw [h1, key, hs k hk, hs i hi]; ring
    · rw [key2 r s t h1]; exact hs r hr
  · intro hs r hr
    have hi2 : lin n m i s t = 0 := by
      rw [← key2 i s t (fun e => hik e.symm)]; exact hs i hi
    by_cases h1 : r = k
    · have := hs k hk
      rw [key, hi2] at this
      rw [h1]; linarith
    · rw [← key2 r s t h1]; exact hs r hr

/-! ## The forward elimination -/

theorem forwardStep_post {n : Nat} {m0 m : Mat} {i : Nat} (hi : i < n)
    (hinv : ElimInv n m0 i m) :
    Post (forwardStep n m i) (ElimInv n m0 (i + 1))
      (fun e => e = Fault.divByZero ∧ ∃ m1, SameSol n m0 m1 ∧ ZeroCol n i m1) := by
  obtain ⟨hm, hsol, hzero, hdiag⟩ := hinv
  unfold forwardStep
  obtain ⟨p, hp, hp1, hp2, hp3⟩ := findPivot_spec hm hi
  obtain ⟨m1, hsw, hm1, he1⟩ := swapRows_spec hm hp2 hi
  rw [hp, ok_bind, hsw, ok_bind]
  have hsol1 : SameSol n m0 m1 := sameSol_trans hsol (sameSol_swap hp2 hi he1)
  have hzero1 : ∀ j k, j < i → j < k → k < n → ent m1 k j = 0 := by
    intro j k hj hjk hk
    rw [he1]
    split_ifs
    · exact hzero j p hj (by omega) hp2
    · exact hzero j i hj (by omega) hi
    · exact hzero j k hj hjk hk
  have hdiag1 : ∀ j, j < i → j + 1 < n → ent m1 j j ≠ 0 := by
    intro j hj hjn
    rw [he1, if_neg (by omega), if_neg (by omega)]
    exact hdiag j hj hjn
  have hmax : ∀ k, i ≤ k → k < n → |ent m1 k i| ≤ |ent m1 i i| := by
    intro k hk1 hk2
    rw [he1 i, if_pos rfl, he1 k]
    split_ifs
    · exact le_rfl
    · exact hp3 i le_rfl hi
    · exact hp3 k hk1 hk2
  have hcol : ent m1 i i = 0 → ZeroCol n i m1 := by
    intro hz r c hc hr hrn
    by_cases hci : c = i
    · have := hmax r hr hrn
      rw [hz, abs_zero] at this
      rw [hci]
      exact abs_eq_zero.mp (le_antisymm this (abs_nonneg _))
    · exact hzero1 c r (by omega) (by omega) hrn
  have h := foldlM_post (fun m2 k => eliminateRow m2 n i k)
    (fun k m2 => Rect n (n + 1) m2 ∧ SameSol n m0 m2 ∧
      (∀ j k2, j < i → j < k2 → k2 < n → ent m2 k2 j = 0) ∧
      (∀ j, j < i → j + 1 < n → ent m2 j j ≠ 0) ∧
      (∀ j, ent m2 i j = ent m1 i j) ∧
      (∀ k2, i < k2 → k2 < k → ent m2 k2 i = 0) ∧
      (i + 1 < k → ent m1 i i ≠ 0))
    (fun e => e = Fault.divByZero ∧ ent m1 i i = 0) (n - (i + 1)) (i + 1) m1
    ⟨hm1, hsol1, hzero1, hdiag1, fun _ => rfl, fun k2 h1 h2 => by omega, fun h => by omega⟩
    (by
      intro k m2 hk1 hk2 ⟨hm2, hsol2, hzero2, hdiag2, hrow2, hcol2, _⟩
      beta_reduce
      have hkn : k < n := by omega
      by_cases hz : ent m1 i i = 0
      · rw [eliminateRow_zero hm2 hi hkn (by rw [hrow2]; exact hz)]
        exact ⟨rfl, hz⟩
      · have hz2 : ent m2 i i ≠ 0 := by rw [hrow2]; exact hz
        obtain ⟨m3, h3, hm3, he3⟩ := eliminateRow_spec hm2 hi hkn (by omega) hz2
        rw [h3]
        have hother : ∀ r j, r ≠ k → ent m3 r j = ent m2 r j := by
          intro r j hr
          rw [he3, if_neg (fun h => hr h.1)]
        have hrowk : ∀ j, j ≤ n → ent m3 k j = ent m2 k j - ent m2 k i / ent m2 i i * ent m2 i j := by
          intro j hj
          rw [he3]
          by_cases hij : i ≤ j
          · rw [if_pos ⟨rfl, hij, hj⟩]
          · rw [if_neg (fun h => hij h.2.1), hzero2 j i (by omega) (by omega) hi]
            ring
        refine ⟨hm3, sameSol_trans hsol2 (sameSol_elim hi hkn (by omega) _ hrowk hother),
          ?_, ?_, ?_, ?_, fun _ => hz⟩
        · intro j k2 hj hjk hk2n
          by_cases hk2 : k2 = k
          · rw [hk2, he3, if_neg (by omega)]
            exact hzero2 j k hj (by omega) hkn
          · rw [hother k2 j hk2]
            exact hzero2 j k2 hj hjk hk2n
        · intro j hj hjn
          rw [hother j j (by omega)]
          exact hdiag2 j hj hjn
        · intro j
          rw [hother i j (by omega)]
          exact hrow2 j
        · intro k2 h1 h2
          by_cases hk2 : k2 = k
          · rw [hk2, hrowk i (by omega)]
            field_simp
          · rw [hother k2 i hk2]
            exact hcol2 k2 h1 (by omega))
  rw [show i + 1 + (n - (i + 1)) = n by omega] at h
  refine post_mono h ?_ ?_
  · rintro m2 ⟨hm2, hsol2, hzero2, hdiag2, hrow2, hcol2, hpiv⟩
    refine ⟨hm2, hsol2, ?_, ?_⟩
    · intro j k hj hjk hk
      by_cases hji : j = i
      · rw [hji]; exact hcol2 k (by omega) hk
      · exact hzero2 j k (by omega) hjk hk
    · intro j hj hjn
      by_cases hji : j = i
      · rw [hji, hrow2]; exact hpiv (by omega)
      · exact hdiag2 j (by omega) hjn
  · rintro e ⟨he, hz⟩
    exact ⟨he, m1, hsol1, hcol hz⟩

theorem forwardElimination_post {n : Nat} {m0 : Mat} (hm : Rect n (n + 1) m0) :
    Post (forwardElimination m0) (ElimInv n m0 n)
      (fun e => e = Fault.divByZero ∧ ∃ i m1, i < n ∧ SameSol n m0 m1 ∧ ZeroCol n i m1) := by
  unfold forwardElimination
  rw [hm.1, List.range_eq_range']
  have h := foldlM_post (forwardStep n) (fun i m => ElimInv n m0 i m)
    (fun e => e = Fault.divByZero ∧ ∃ i m1, i < n ∧ SameSol n m0 m1 ∧ ZeroCol n i m1) n 0 m0
    ⟨hm, sameSol_refl n m0, fun j k hj => by omega, fun j hj => by omega⟩
    (by
      intro i m _ hi hinv
      refine post_mono (forwardStep_post (by omega) hinv) (fun _ h => h) ?_
      rintro e ⟨he, m1, h1, h2⟩
      exact ⟨he, i, m1, by omega, h1, h2⟩)
  rwa [Nat.zero_add] at h

/-! ## The back substitution -/

theorem getD_set {v : List ℚ} {i : Nat} (hi : i < v.length) (a : ℚ) (j : Nat) :
    (v.set i a).getD j 0 = if j = i then a else v.getD j 0 := by
  by_cases h : j = i
  · subst h
    simp [List.getD_eq_getElem?_getD, List.getElem?_set, hi]
  · have h2 : ¬ i = j := fun e => h e.symm
    simp [List.getD_eq_getElem?_getD, List.getElem?_set, h, h2]

/-- The inner loop of the back substitution (lines 65-67). -/
theorem backInner_spec {n : Nat} {u : Mat} (hu : Rect n (n + 1) u) {sol : List ℚ}
    (hsol : sol.length = n) {i : Nat} (hi : i < n) :
    ∃ sol2, (List.range' (i + 1) (n - (i + 1))).foldlM (fun sol j => do
        let mij ← rd2 u i j
        let sj ← rd sol j
        let si ← rd sol i
        wr sol i (si - mij * sj)) sol = Except.ok sol2 ∧ sol2.length = n ∧
      (∀ r, r ≠ i → sol2.getD r 0 = sol.getD r 0) ∧
      sol2.getD i 0 = sol.getD i 0 - ∑ j in Finset.Ico (i + 1) n, ent u i j * sol.getD j 0 := by
  have h := foldlM_post
    (fun sol j => do
        let mij ← rd2 u i j
        let sj ← rd sol j
        let si ← rd sol i
        wr sol i (si - mij * sj))
    (fun k sol2 => sol2.length = n ∧ (∀ r, r ≠ i → sol2.getD r 0 = sol.getD r 0) ∧
      sol2.getD i 0 = sol.getD i 0 - ∑ j in Finset.Ico (i + 1) k, ent u i j * sol.getD j 0)
    (fun _ => False) (n - (i + 1)) (i + 1) sol
    ⟨hsol, fun _ _ => rfl, by simp⟩
    (by
      intro k s2 hk1 hk2 ⟨hlen, hoth, hacc⟩
      beta_reduce
      rw [rd2_ok hu hi (by omega), ok_bind, rd_ok_getD (by omega), ok_bind,
        rd_ok_getD (by omega), ok_bind, wr_ok _ (by omega)]
      refine ⟨by rw [List.length_set]; exact hlen, fun r hr => ?_, ?_⟩
      · rw [getD_set (by omega), if_neg hr]
        exact hoth r hr
      · rw [getD_set (by omega), if_pos rfl, hacc, hoth k (by omega),
          Finset.sum_Ico_succ_top (by omega)]
        ring)
  rw [show i + 1 + (n - (i + 1)) = n by omega] at h
  exact post_ok_of h

theorem backStep_zero {n : Nat} {u : Mat} (hu : Rect n (n + 1) u) {sol : List ℚ}
    (hsol : sol.length = n) {i : Nat} (hi : i < n) (hz : ent u i i = 0) :
    backStep u n sol i = Except.error Fault.divByZero := by
  unfold backStep
  rw [rd2_ok hu hi (by omega), ok_bind, wr_ok _ (by omega), ok_bind]
  obtain ⟨sol2, h2, hlen2, -, -⟩ :=
    backInner_spec hu (show (sol.set i (ent u i n)).length = n by rw [List.length_set]; exact hsol) hi
  rw [h2, ok_bind, rd_ok_getD (by omega), ok_bind, rd2_ok hu hi (by omega), ok_bind]
  unfold fdiv
  rw [if_pos hz]
  rfl

theorem backStep_spec {n : Nat} {u : Mat} (hu : Rect n (n + 1) u) {sol : List ℚ}
    (hsol : sol.length = n) {i : Nat} (hi : i < n) (hz : ent u i i ≠ 0) :
    ∃ sol2, backStep u n sol i = Except.ok sol2 ∧ sol2.length = n ∧
      (∀ r, r ≠ i → sol2.getD r 0 = sol.getD r 0) ∧
      sol2.getD i 0 =
        (ent u i n - ∑ j in Finset.Ico (i + 1) n, ent u i j * sol.getD j 0) / ent u i i := by
  unfold backStep
  rw [rd2_ok hu hi (by omega), ok_bind, wr_ok _ (by omega), ok_bind]
  obtain ⟨sol2, h2, hlen2, hoth2, hacc2⟩ :=
    backInner_spec hu (show (sol.set i (ent u i n)).length = n by rw [List.length_set]; exact hsol) hi
  rw [h2, ok_bind, rd_ok_getD (by omega), ok_bind, rd2_ok hu hi (by omega), ok_bind]
  unfold fdiv
  rw [if_neg hz, ok_bind, wr_ok _ (by omega)]
  refine ⟨_, rfl, by rw [List.length_set]; exact hlen2, fun r hr => ?_, ?_⟩
  · rw [getD_set (by omega), if_neg hr, hoth2 r hr, getD_set (by omega), if_neg hr]
  · rw [getD_set (by omega), if_pos rfl, hacc2, getD_set (by omega), if_pos rfl]
    congr 2
    refine Finset.sum_congr rfl (fun j hj => ?_)
    rw [getD_set (by omega), if_neg (by have := (Finset.mem_Ico.mp hj).1; omega)]

theorem lin_upper {n : Nat} {u : Mat} {i : Nat} (hi : i < n)
    (hup : ∀ j, j < i → ent u i j = 0) (s : Nat → ℚ) (t : ℚ) :
    lin n u i s t = ent u i i * s i + ∑ j in Finset.Ico (i + 1) n, ent u i j * s j
      - t * ent u i n := by
  unfold lin
  congr 1
  rw [Finset.range_eq_Ico, ← Finset.sum_Ico_consecutive _ (Nat.zero_le i) (le_of_lt hi),
    Finset.sum_eq_sum_Ico_succ_bot hi,
    Finset.sum_eq_zero (fun j hj => by rw [hup j (Finset.mem_Ico.mp hj).2, zero_mul]), zero_add]

theorem backSubstitution_post {n : Nat} {u : Mat} (hu : Rect n (n + 1) u)
    (hup : ∀ j k, j < k → k < n → ent u k j = 0) :
    Post (backSubstitution u)
      (fun s => s.length = n ∧ (∀ r, r < n → lin n u r (fun j => s.getD j 0) 1 = 0) ∧
        ∀ r, r < n → ent u r r ≠ 0)
      (fun e => e = Fault.divByZero ∧ ∃ i, i < n ∧ ent u i i = 0) := by
  unfold backSubstitution
  rw [hu.1]
  refine foldlM_reverse_post (backStep u n)
    (fun k s => s.length = n ∧ (∀ r, k ≤ r → r < n → lin n u r (fun j => s.getD j 0) 1 = 0) ∧
        ∀ r, k ≤ r → r < n → ent u r r ≠ 0) _ n (List.replicate n 0)
    ⟨List.length_replicate _ _, fun r h1 h2 => by omega, fun r h1 h2 => by omega⟩ ?_
    |> fun h => post_mono h
      (fun s ⟨h1, h2, h3⟩ => ⟨h1, fun r hr => h2 r (Nat.zero_le r) hr,
        fun r hr => h3 r (Nat.zero_le r) hr⟩) (fun e he => he)
  intro k s hk ⟨hlen, hrows, hdiag⟩
  by_cases hz : ent u k k = 0
  · rw [backStep_zero hu hlen hk hz]
    exact ⟨rfl, k, hk, hz⟩
  · obtain ⟨s2, h2, hlen2, hoth2, hval2⟩ := backStep_spec hu hlen hk hz
    rw [h2]
    refine ⟨hlen2, fun r hr1 hr2 => ?_, fun r hr1 hr2 => ?_⟩
    · by_cases hrk : r = k
      · subst hrk
        rw [lin_upper hr2 (fun j hj => hup j r hj hr2)]
        rw [hval2]
        have : ∑ j in Finset.Ico (r + 1) n, ent u r j * s2.getD j 0
            = ∑ j in Finset.Ico (r + 1) n, ent u r j * s.getD j 0 := by
          refine Finset.sum_congr rfl (fun j hj => ?_)
          rw [hoth2 j (by have := (Finset.mem_Ico.mp hj).1; omega)]
        rw [this]
        field_simp
      · refine Eq.trans ?_ (hrows r (by omega) hr2)
        unfold lin
        congr 1
        refine Finset.sum_congr rfl (fun j _ => ?_)
        by_cases hjk : j = k
        · rw [hjk, hup k r (by omega) hr2, zero_mul, zero_mul]
        · beta_reduce
          rw [hoth2 j hjk]
    · by_cases hrk : r = k
      · rw [hrk]; exact hz
      · exact hdiag r (by omega) hr2

/-! ## Determinants and the run of the whole routine -/

theorem lin_eq_mulVec (n : Nat) (m : Mat) (s : Nat → ℚ) (t : ℚ) (k : Fin n) :
    lin n m k s t = (squarePart n m).mulVec (fun j : Fin n => s j) k - t * rhsPart n m k := by
  unfold lin squarePart rhsPart Matrix.mulVec Matrix.dotProduct
  rw [← Fin.sum_univ_eq_sum_range (fun j => ent m k j * s j) n]

theorem sameSol_symm {n : Nat} {a b : Mat} (h : SameSol n a b) : SameSol n b a :=
  fun s t => (h s t).symm

theorem sameSol_det {n : Nat} {a b : Mat} (h : SameSol n a b)
    (hdet : (squarePart n a).det = 0) : (squarePart n b).det = 0 := by
  obtain ⟨v, hv, hker⟩ := Matrix.exists_mulVec_eq_zero_iff.mpr hdet
  refine Matrix.exists_mulVec_eq_zero_iff.mp ⟨v, hv, ?_⟩
  let s : Nat → ℚ := fun j => if hj : j < n then v ⟨j, hj⟩ else 0
  have hs : (fun j : Fin n => s j) = v := by
    funext j
    simp [s]
  have h1 : ∀ k, k < n → lin n a k s 0 = 0 := by
    intro k hk
    have := lin_eq_mulVec n a s 0 ⟨k, hk⟩
    rw [hs, hker] at this
    simpa using this
  have h2 := (h s 0).mp h1
  funext k
  have := lin_eq_mulVec n b s 0 k
  rw [hs, h2 k k.2] at this
  simpa using this.symm

theorem zeroCol_det {n i : Nat} {m : Mat} (hi : i < n) (hz : ZeroCol n i m) :
    (squarePart n m).det = 0 := by
  rw [Matrix.det_apply]
  refine Finset.sum_eq_zero (fun σ _ => ?_)
  have hex : ∃ c : Fin n, c.val ≤ i ∧ i ≤ (σ c).val := by
    by_contra hne
    push_neg at hne
    let g : Fin (i + 1) → Fin i := fun c => ⟨(σ ⟨c.val, by omega⟩).val, hne _ (by
      have := c.2
      show c.val ≤ i
      omega)⟩
    have hg : Function.Injective g := by
      intro a b hab
      have h1 : (σ ⟨a.val, by omega⟩).val = (σ ⟨b.val, by omega⟩).val := by
        simpa [g] using congrArg Fin.val hab
      have h2 := σ.injective (Fin.ext h1)
      exact Fin.ext (by simpa using congrArg Fin.val h2)
    have := Fintype.card_le_of_injective g hg
    simp at this
  obtain ⟨c, hc1, hc2⟩ := hex
  have : ∏ x : Fin n, squarePart n m (σ x) x = 0 :=
    Finset.prod_eq_zero (Finset.mem_univ c) (hz _ _ hc1 hc2 (σ c).2)
  rw [this, smul_zero]

theorem upper_det {n : Nat} {u : Mat} (hup : ∀ j k, j < k → k < n → ent u k j = 0) :
    (squarePart n u).det = ∏ i : Fin n, ent u i i := by
  rw [Matrix.det_of_upperTriangular]
  · rfl
  · intro a b hab
    exact hup b a hab a.2

/-- The run of `gaussianElimination` on an `n x (n+1)` matrix: it returns the solution when
the square part is non-singular, and divides by zero when it is singular. -/
theorem gaussianElimination_post {n : Nat} {m0 : Mat} (hm : Rect n (n + 1) m0) :
    Post (gaussianElimination m0)
      (fun s => s.length = n ∧ (squarePart n m0).det ≠ 0 ∧
        (squarePart n m0).mulVec (vecOf n s) = rhsPart n m0)
      (fun e => e = Fault.divByZero ∧ (squarePart n m0).det = 0) := by
  unfold gaussianElimination
  have hfwd : Post (forwardElimination m0) (ElimInv n m0 n)
      (fun e => e = Fault.divByZero ∧ (squarePart n m0).det = 0) := by
    refine post_mono (forwardElimination_post hm) (fun _ h => h) ?_
    rintro e ⟨he, i, m1, hi, hsol, hz⟩
    exact ⟨he, sameSol_det (sameSol_symm hsol) (zeroCol_det hi hz)⟩
  refine post_bind hfwd ?_
  intro u ⟨hu, hsol, hup, _⟩
  have hup2 : ∀ j k, j < k → k < n → ent u k j = 0 := fun j k hjk hk => hup j k (by omega) hjk hk
  refine post_mono (backSubstitution_post hu hup2) ?_ ?_
  · rintro s ⟨hlen, hrows, hdiag⟩
    refine ⟨hlen, ?_, ?_⟩
    · intro hdet
      have := sameSol_det hsol hdet
      rw [upper_det hup2, Finset.prod_eq_zero_iff] at this
      obtain ⟨r, -, hr⟩ := this
      exact hdiag r r.2 hr
    · have h0 := (hsol (fun j => s.getD j 0) 1).mpr hrows
      funext k
      have := lin_eq_mulVec n m0 (fun j => s.getD j 0) 1 k
      rw [h0 k k.2] at this
      have h2 : (fun j : Fin n => (fun j => s.getD j 0) (j : Nat)) = vecOf n s := rfl
      rw [h2] at this
      linarith
  · rintro e ⟨he, i, hi, hz⟩
    refine ⟨he, sameSol_det (sameSol_symm hsol) ?_⟩
    rw [upper_det hup2]
    exact Finset.prod_eq_zero (Finset.mem_univ ⟨i, hi⟩) hz

/-! ## The Vandermonde matrix -/

theorem rd_point {points : Points} {i : Nat} (h : i < points.length) :
    rd points i = Except.ok (points.getD i (0, 0)) := by
  rw [rd_ok h]
  congr 1
  simp [List.getD_eq_getElem?_getD, List.getElem?_eq_getElem h]

theorem fillRow_spec {points : Points} {m : Mat}
    (hm : Rect points.length (points.length + 1) m) {i : Nat} (hi : i < points.length) :
    ∃ m2, fillRow points m i = Except.ok m2 ∧ Rect points.length (points.length + 1) m2 ∧
      ∀ r j, ent m2 r j =
        if r = i ∧ j ≤ points.length then
          (if j < points.length then xAt points i ^ j else yAt points i)
        else ent m r j := by
  unfold fillRow
  rw [rd_point hi, ok_bind, List.range_eq_range']
  have h := foldlM_post
    (fun m2 j => wr2 m2 i j ((((points.getD i (0, 0)).1 : Int) : ℚ) ^ j))
    (fun j m2 => Rect points.length (points.length + 1) m2 ∧ ∀ r j2, ent m2 r j2 =
        if r = i ∧ j2 < j then xAt points i ^ j2 else ent m r j2)
    (fun _ => False) points.length 0 m
    ⟨hm, fun r j2 => by rw [if_neg (by omega)]⟩
    (by
      intro j m2 _ hj ⟨hm2, he⟩
      beta_reduce
      rw [wr2_ok hm2 hi (by omega)]
      refine ⟨rect_set2 hm2 hi _ _, fun r j2 => ?_⟩
      rw [ent_set2 hm2 hi (by omega)]
      by_cases h1 : r = i ∧ j2 = j
      · obtain ⟨rfl, rfl⟩ := h1
        rw [if_pos ⟨rfl, rfl⟩, if_pos ⟨rfl, by omega⟩]
        rfl
      · rw [if_neg h1, he]
        by_cases h2 : r = i ∧ j2 < j
        · rw [if_pos h2, if_pos ⟨h2.1, by omega⟩]
        · rw [if_neg h2, if_neg (by omega)])
  obtain ⟨m2, h2, hm2, he2⟩ := post_ok_of h
  rw [h2, ok_bind, wr2_ok hm2 hi (by omega)]
  refine ⟨_, rfl, rect_set2 hm2 hi _ _, fun r j => ?_⟩
  rw [ent_set2 hm2 hi (by omega), he2]
  by_cases h1 : r = i ∧ j = points.length
  · obtain ⟨rfl, rfl⟩ := h1
    rw [if_pos ⟨rfl, rfl⟩, if_pos ⟨rfl, le_rfl⟩, if_neg (by omega)]
    rfl
  · rw [if_neg h1]
    by_cases h2 : r = i ∧ 0 + j < 0 + points.length
    · rw [if_pos (by omega), if_pos ⟨h2.1, by omega⟩, if_pos (by omega)]
    · rw [if_neg (by omega), if_neg (by omega)]

theorem buildVandermonde_spec (points : Points) :
    ∃ m, buildVandermonde points = Except.ok m ∧ Rect points.length (points.length + 1) m ∧
      ∀ i, i < points.length →
        (∀ j, j < points.length → ent m i j = xAt points i ^ j) ∧
        ent m i points.length = yAt points i := by
  unfold buildVandermonde
  rw [List.range_eq_range']
  have h := foldlM_post (fillRow points)
    (fun i m => Rect points.length (points.length + 1) m ∧ ∀ r, r < i →
        (∀ j, j < points.length → ent m r j = xAt points r ^ j) ∧
        ent m r points.length = yAt points r)
    (fun _ => False) points.length 0
    (List.replicate points.length (List.replicate (points.length + 1) 0))
    ⟨rect_replicate _ _, fun r hr => by omega⟩
    (by
      intro i m _ hi ⟨hm, he⟩
      obtain ⟨m2, h2, hm2, he2⟩ := fillRow_spec hm (show i < points.length by omega)
      rw [h2]
      refine ⟨hm2, fun r hr => ?_⟩
      by_cases hri : r = i
      · subst hri
        refine ⟨fun j hj => ?_, ?_⟩
        · rw [he2, if_pos ⟨rfl, by omega⟩, if_pos hj]
        · rw [he2, if_pos ⟨rfl, le_rfl⟩, if_neg (by omega)]
      · refine ⟨fun j hj => ?_, ?_⟩
        · rw [he2, if_neg (fun h => hri h.1)]
          exact (he r (by omega)).1 j hj
        · rw [he2, if_neg (fun h => hri h.1)]
          exact (he r (by omega)).2)
  rw [Nat.zero_add] at h
  exact post_ok_of h

theorem nodup_iff_xAt_injective (points : Points) :
    (xs points).Nodup ↔ Function.Injective (fun i : Fin points.length => xAt points i) := by
  unfold xs
  rw [List.nodup_iff_injective_get]
  have key : ∀ (i : Fin points.length),
      xAt points i = (((points.map Prod.fst).get ⟨i.val, by rw [List.length_map]; exact i.2⟩ : Int) : ℚ) := by
    intro i
    unfold xAt
    simp [List.getD_eq_getElem?_getD, List.getElem?_eq_getElem i.2]
  constructor
  · intro h a b hab
    have hab2 : xAt points a = xAt points b := hab
    rw [key, key] at hab2
    have := h (Int.cast_injective hab2)
    exact Fin.ext (by simpa using congrArg Fin.val this)
  · intro h a b hab
    have ha : a.val < points.length := by simpa using a.2
    have hb : b.val < points.length := by simpa using b.2
    have : (⟨a.val, ha⟩ : Fin points.length) = ⟨b.val, hb⟩ := by
      apply h
      show xAt points a.val = xAt points b.val
      rw [key ⟨a.val, ha⟩, key ⟨b.val, hb⟩]
      exact congrArg _ hab
    exact Fin.ext (by simpa using congrArg Fin.val this)

/-! ## The Vandermonde fit -/

theorem squarePart_vandermonde {points : Points} {m : Mat}
    (he : ∀ i, i < points.length →
        (∀ j, j < points.length → ent m i j = xAt points i ^ j) ∧
        ent m i points.length = yAt points i) :
    squarePart points.length m = Matrix.vandermonde (fun i : Fin points.length => xAt points i) := by
  funext i j
  exact (he i i.2).1 j j.2

theorem vandermonde_det_ne_zero_iff (points : Points) :
    (Matrix.vandermonde (fun i : Fin points.length => xAt points i)).det ≠ 0 ↔
      (xs points).Nodup := by
  rw [Matrix.det_vandermonde_ne_zero_iff, nodup_iff_xAt_injective]

theorem mem_points_iff {points : Points} {p : Int × Int} :
    p ∈ points ↔ ∃ i, i < points.length ∧ points.getD i (0, 0) = p := by
  rw [List.mem_iff_getElem]
  constructor
  · rintro ⟨i, hi, h⟩
    exact ⟨i, hi, by simp [List.getD_eq_getElem?_getD, List.getElem?_eq_getElem hi, h]⟩
  · rintro ⟨i, hi, h⟩
    refine ⟨i, hi, ?_⟩
    simpa [List.getD_eq_getElem?_getD, List.getElem?_eq_getElem hi] using h

/-- The run of the Vandermonde fit: it returns the coefficients of a polynomial through the
points when the x-coordinates are pairwise distinct, and divides by zero when they are not. -/
theorem solveVandermondeCoefficients_post (points : Points) :
    Post (solveVandermondeCoefficients points)
      (fun c => c.length = points.length ∧ (xs points).Nodup ∧
        ∀ p ∈ points, polyValue c (p.1 : ℚ) = (p.2 : ℚ))
      (fun e => e = Fault.divByZero ∧ ¬ (xs points).Nodup) := by
  unfold solveVandermondeCoefficients
  obtain ⟨m, hb, hm, he⟩ := buildVandermonde_spec points
  rw [hb, ok_bind]
  refine post_mono (gaussianElimination_post hm) ?_ ?_
  · rintro c ⟨hlen, hdet, hsol⟩
    rw [squarePart_vandermonde he] at hdet hsol
    refine ⟨hlen, (vandermonde_det_ne_zero_iff points).mp hdet, fun p hp => ?_⟩
    obtain ⟨i, hi, hpi⟩ := mem_points_iff.mp hp
    have := congrFun hsol ⟨i, hi⟩
    unfold Matrix.mulVec Matrix.dotProduct Matrix.vandermonde vecOf rhsPart at this
    simp only [Matrix.of_apply] at this
    rw [Fin.sum_univ_eq_sum_range (fun j => xAt points i ^ j * c.getD j 0) points.length,
      (he i hi).2] at this
    unfold polyValue
    rw [hlen, ← hpi]
    rw [show (((points.getD i (0, 0)).2 : Int) : ℚ) = yAt points i from rfl, ← this]
    refine Finset.sum_congr rfl (fun j _ => ?_)
    rw [mul_comm]
    rfl
  · rintro e ⟨he1, hdet⟩
    rw [squarePart_vandermonde he] at hdet
    refine ⟨he1, fun hnd => ?_⟩
    exact (vandermonde_det_ne_zero_iff points).mpr hnd hdet

/-- Two coefficient lists of length `n` whose polynomials agree at `n` distinct points are
equal. -/
theorem coeffs_unique {points : Points} (hnd : (xs points).Nodup) {c d : List ℚ}
    (hc : c.length = points.length) (hd : d.length = points.length)
    (h : ∀ p ∈ points, polyValue c (p.1 : ℚ) = polyValue d (p.1 : ℚ)) : c = d := by
  have hdet := (vandermonde_det_ne_zero_iff points).mpr hnd
  have hinj := Matrix.mulVec_injective_iff_isUnit.mpr
    ((Matrix.isUnit_iff_isUnit_det _).mpr (IsUnit.mk0 _ hdet))
  have hv : vecOf points.length c = vecOf points.length d := by
    apply hinj
    funext i
    have hp : points.getD i (0, 0) ∈ points := mem_points_iff.mpr ⟨i, i.2, rfl⟩
    have := h _ hp
    unfold polyValue at this
    rw [hc, hd] at this
    unfold Matrix.mulVec Matrix.dotProduct Matrix.vandermonde vecOf
    simp only [Matrix.of_apply]
    rw [Fin.sum_univ_eq_sum_range (fun j => xAt points i ^ j * c.getD j 0) points.length,
      Fin.sum_univ_eq_sum_range (fun j => xAt points i ^ j * d.getD j 0) points.length]
    simp only [mul_comm (xAt points _ ^ _)]
    exact this
  apply List.ext_getElem (by rw [hc, hd])
  intro j h1 h2
  have := congrFun hv ⟨j, by omega⟩
  unfold vecOf at this
  simpa [List.getD_eq_getElem?_getD, List.getElem?_eq_getElem h1, List.getElem?_eq_getElem h2]
    using this

/-! ## The Vandermonde fit, the solver and the verification: main properties -/

theorem evalCoeffs_eq (c : List ℚ) (x : Int) :
    evalCoeffs c x = Except.ok (polyValue c (x : ℚ)) := by
  unfold evalCoeffs
  rw [List.range_eq_range']
  have h := foldlM_post
    (fun calculated i => do
      let a ← rd c i
      pure (calculated + a * (x : ℚ) ^ i))
    (fun k acc => acc = ∑ j in Finset.range k, c.getD j 0 * (x : ℚ) ^ j)
    (fun _ => False) c.length 0 0 (by simp)
    (by
      intro k acc _ hk hacc
      beta_reduce
      rw [rd_ok_getD (by omega), ok_bind]
      simp only [pure_eq_ok, post_ok]
      rw [Finset.sum_range_succ, hacc])
  rw [Nat.zero_add] at h
  obtain ⟨v, hv, he⟩ := post_ok_of h
  rw [hv, he]
  rfl

theorem verifyPolynomial_eq (points : Points) (c : List ℚ) :
    verifyPolynomial points c = Except.ok (points.map (fun p =>
      ⟨p.1, polyValue c (p.1 : ℚ), p.2,
        decide (|polyValue c (p.1 : ℚ) - (p.2 : ℚ)| < 1 / 1000000000)⟩)) := by
  unfold verifyPolynomial
  have key : ∀ (l : Points) (out : List VerifyLine),
      l.foldlM (fun out point => do
        let calculated ← evalCoeffs c point.1
        pure (out ++ [⟨point.1, calculated, point.2,
          decide (|calculated - (point.2 : ℚ)| < 1 / 1000000000)⟩])) out
      = Except.ok (out ++ l.map (fun p =>
      ⟨p.1, polyValue c (p.1 : ℚ), p.2,
        decide (|polyValue c (p.1 : ℚ) - (p.2 : ℚ)| < 1 / 1000000000)⟩)) := by
    intro l
    induction l with
    | nil => intro out; simp
    | cons p t ih =>
      intro out
      rw [List.foldlM_cons, evalCoeffs_eq, ok_bind, pure_eq_ok, ok_bind, ih]
      simp
  simpa using key points []

theorem polyValue_map_coeff (P : Polynomial ℚ) (n : Nat) (hdeg : P.natDegree < n) (x : ℚ) :
    polyValue ((List.range n).map P.coeff) x = P.eval x := by
  unfold polyValue
  rw [List.length_map, List.length_range, Polynomial.eval_eq_sum_range' hdeg]
  refine Finset.sum_congr rfl (fun j hj => ?_)
  have hj2 : j < n := Finset.mem_range.mp hj
  congr 1
  simp [List.getD_eq_getElem?_getD, List.getElem?_map, List.getElem?_range hj2]

theorem solveVandermonde_of_coeffs {points : Points} {c : List ℚ}
    (h : solveVandermondeCoefficients points = Except.ok c) (hc : 0 < c.length) :
    solveVandermonde points = Except.ok (c.getD 0 0) := by
  unfold solveVandermonde
  rw [h, ok_bind, rd_ok_getD hc]

/-- C3: with exact arithmetic, for `n >= 1` points with pairwise distinct x-coordinates taken
from a polynomial `P` of degree at most `n - 1`, the coefficient vector of `solveVandermonde`
is the list of the coefficients of `P` (index `i` holds the coefficient of `x^i`) and the
returned value is the constant term of `P`; for (1,4), (2,7), (3,12) the coefficients are
[3, 0, 1] and the value is 3. -/
theorem solveVandermonde_recovers :
    (∀ (points : Points) (P : Polynomial ℚ), 1 ≤ points.length →
      P.natDegree ≤ points.length - 1 → (xs points).Nodup →
      (∀ p ∈ points, P.eval (p.1 : ℚ) = (p.2 : ℚ)) →
      solveVandermondeCoefficients points = Except.ok ((List.range points.length).map P.coeff) ∧
      solveVandermonde points = Except.ok (P.coeff 0)) ∧
    solveVandermondeCoefficients [(1, 4), (2, 7), (3, 12)] = Except.ok [3, 0, 1] ∧
    solveVandermonde [(1, 4), (2, 7), (3, 12)] = Except.ok 3 := by
  have gen : ∀ (points : Points) (d : List ℚ), 1 ≤ points.length → d.length = points.length →
      (xs points).Nodup → (∀ p ∈ points, polyValue d (p.1 : ℚ) = (p.2 : ℚ)) →
      solveVandermondeCoefficients points = Except.ok d ∧
      solveVandermonde points = Except.ok (d.getD 0 0) := by
    intro points d hn hd hnd hP
    have hpost := solveVandermondeCoefficients_post points
    cases hres : solveVandermondeCoefficients points with
    | error e =>
      rw [hres] at hpost
      exact absurd hnd hpost.2
    | ok c =>
      rw [hres] at hpost
      obtain ⟨hlen, -, hc⟩ := hpost
      have hcd : c = d := coeffs_unique hnd hlen hd (fun p hp => by rw [hc p hp, hP p hp])
      subst hcd
      exact ⟨rfl, solveVandermonde_of_coeffs hres (by omega)⟩
  refine ⟨fun points P hn hdeg hnd hP => ?_, ?_, ?_⟩
  · have := gen points ((List.range points.length).map P.coeff) hn (by simp) hnd
      (fun p hp => by rw [polyValue_map_coeff P _ (by omega), hP p hp])
    refine ⟨this.1, ?_⟩
    rw [this.2]
    congr 1
    simp [List.getD_eq_getElem?_getD, List.getElem?_map, List.getElem?_range hn]
  · refine (gen [(1, 4), (2, 7), (3, 12)] [3, 0, 1] (by decide) rfl (by decide) ?_).1
    intro p hp
    simp only [List.mem_cons, List.mem_singleton, List.not_mem_nil, or_false] at hp
    rcases hp with rfl | rfl | rfl <;> norm_num [polyValue, Finset.sum_range_succ]
  · refine (gen [(1, 4), (2, 7), (3, 12)] [3, 0, 1] (by decide) rfl (by decide) ?_).2
    intro p hp
    simp only [List.mem_cons, List.mem_singleton, List.not_mem_nil, or_false] at hp
    rcases hp with rfl | rfl | rfl <;> norm_num [polyValue, Finset.sum_range_succ]

/-- C3 at the points (0,1), (2,5) of the polynomial `2 x + 1`. -/
theorem solveVandermonde_recovers_witness :
    solveVandermondeCoefficients [(0, 1), (2, 5)]
      = Except.ok ((List.range 2).map (Polynomial.C 2 * Polynomial.X + Polynomial.C 1 :
          Polynomial ℚ).coeff) ∧
    solveVandermonde [(0, 1), (2, 5)]
      = Except.ok ((Polynomial.C 2 * Polynomial.X + Polynomial.C 1 : Polynomial ℚ).coeff 0) :=
  solveVandermonde_recovers.1 [(0, 1), (2, 5)] (Polynomial.C 2 * Polynomial.X + Polynomial.C 1)
    (by decide)
    (by
      show (Polynomial.C 2 * Polynomial.X + Polynomial.C 1 : Polynomial ℚ).natDegree ≤ 1
      compute_degree)
    (by decide)
    (by
      intro p hp
      simp only [List.mem_cons, List.mem_singleton, List.not_mem_nil, or_false] at hp
      rcases hp with rfl | rfl <;> norm_num)

/-- C6: with exact arithmetic, for `n >= 1` and an `n x (n+1)` augmented matrix `[A | b]` with
non-singular `A`, `gaussianElimination` returns a vector `s` of length `n` with `A s = b` for
the matrix as it was passed, and `s` is the only solution of the system. -/
theorem gaussianElimination_solves (n : Nat) (matrix : Mat) (_hn : 1 ≤ n)
    (hrows : matrix.length = n) (hcols : ∀ row ∈ matrix, row.length = n + 1)
    (hdet : (squarePart n matrix).det ≠ 0) :
    ∃ s, gaussianElimination matrix = Except.ok s ∧ s.length = n ∧
      (squarePart n matrix).mulVec (vecOf n s) = rhsPart n matrix ∧
      ∀ v, (squarePart n matrix).mulVec v = rhsPart n matrix → v = vecOf n s := by
  have hrect : Rect n (n + 1) matrix := ⟨hrows, hcols⟩
  have hpost := gaussianElimination_post hrect
  cases hres : gaussianElimination matrix with
  | error e =>
    rw [hres] at hpost
    exact absurd hpost.2 hdet
  | ok s =>
    rw [hres] at hpost
    obtain ⟨hlen, -, hsol⟩ := hpost
    refine ⟨s, rfl, hlen, hsol, fun v hv => ?_⟩
    have hinj := Matrix.mulVec_injective_iff_isUnit.mpr
      ((Matrix.isUnit_iff_isUnit_det _).mpr (IsUnit.mk0 _ hdet))
    exact hinj (hv.trans hsol.symm)

/-- C6 at the system `y = 2, x = 3`, whose first pivot is found in the second row. -/
theorem gaussianElimination_solves_witness :
    ∃ s, gaussianElimination [[0, 1, 2], [1, 0, 3]] = Except.ok s ∧ s.length = 2 ∧
      (squarePart 2 [[0, 1, 2], [1, 0, 3]]).mulVec (vecOf 2 s) = rhsPart 2 [[0, 1, 2], [1, 0, 3]] ∧
      ∀ v, (squarePart 2 [[0, 1, 2], [1, 0, 3]]).mulVec v = rhsPart 2 [[0, 1, 2], [1, 0, 3]] →
        v = vecOf 2 s :=
  gaussianElimination_solves 2 [[0, 1, 2], [1, 0, 3]] (by decide) rfl (by decide)
    (by simp [Matrix.det_fin_two, squarePart, ent])

/-- C7: with exact arithmetic, for a non-empty list of points with pairwise distinct
x-coordinates, the Vandermonde fit returns a coefficient vector `c`, and
`verifyPolynomial points c` reports one line for each point, with `calculated` equal to the
point's `y` and the match flag set. -/
theorem verifyPolynomial_roundtrip (points : Points) (_hne : points ≠ [])
    (hnd : (xs points).Nodup) :
    ∃ c, solveVandermondeCoefficients points = Except.ok c ∧
      verifyPolynomial points c
        = Except.ok (points.map (fun p => ⟨p.1, (p.2 : ℚ), p.2, true⟩)) := by
  have hpost := solveVandermondeCoefficients_post points
  cases hres : solveVandermondeCoefficients points with
  | error e =>
    rw [hres] at hpost
    exact absurd hnd hpost.2
  | ok c =>
    rw [hres] at hpost
    obtain ⟨-, -, hc⟩ := hpost
    refine ⟨c, rfl, ?_⟩
    rw [verifyPolynomial_eq]
    congr 1
    refine List.map_congr_left (fun p hp => ?_)
    rw [hc p hp]
    simp

/-- C7 at the points (1,4), (2,7), (3,12). -/
theorem verifyPolynomial_roundtrip_witness :
    ∃ c, solveVandermondeCoefficients [(1, 4), (2, 7), (3, 12)] = Except.ok c ∧
      verifyPolynomial [(1, 4), (2, 7), (3, 12)] c
        = Except.ok (([(1, 4), (2, 7), (3, 12)] : Points).map
            (fun p => ⟨p.1, (p.2 : ℚ), p.2, true⟩)) :=
  verifyPolynomial_roundtrip [(1, 4), (2, 7), (3, 12)] (by decide) (by decide)

/-! ## The divided-difference table -/

theorem xAt_ne_of_nodup {points : Points} (hnd : (xs points).Nodup) {p q : Nat}
    (hp : p < points.length) (hq : q < points.length) (hpq : p ≠ q) :
    xAt points p ≠ xAt points q := by
  intro h
  have := (nodup_iff_xAt_injective points).mp hnd
  have h2 : (⟨p, hp⟩ : Fin points.length) = ⟨q, hq⟩ := this h
  exact hpq (by simpa using congrArg Fin.val h2)

theorem nodup_of_xAt_ne {points : Points}
    (h : ∀ p q, p < q → q < points.length → xAt points p ≠ xAt points q) :
    (xs points).Nodup := by
  rw [nodup_iff_xAt_injective]
  intro a b hab
  by_contra hne
  rcases Nat.lt_or_gt_of_ne (fun e => hne (Fin.ext e)) with hlt | hgt
  · exact h a b hlt b.2 hab
  · exact h b a hgt a.2 hab.symm

theorem tableInit_spec (points : Points) :
    ∃ t, (List.range points.length).foldlM (fun t i => do
        let p ← rd points i
        wr2 t i 0 (p.2 : ℚ))
        (List.replicate points.length (List.replicate points.length 0)) = Except.ok t ∧
      Rect points.length points.length t ∧
      ∀ r c, ent t r c = if c = 0 ∧ r < points.length then yAt points r else 0 := by
  rw [List.range_eq_range']
  have h := foldlM_post
    (fun t i => do
        let p ← rd points i
        wr2 t i 0 (p.2 : ℚ))
    (fun i t => Rect points.length points.length t ∧
      ∀ r c, ent t r c = if c = 0 ∧ r < i then yAt points r else 0)
    (fun _ => False) points.length 0
    (List.replicate points.length (List.replicate points.length 0))
    ⟨rect_replicate _ _, fun r c => by rw [ent_replicate, if_neg (by omega)]⟩
    (by
      intro i t _ hi ⟨ht, he⟩
      beta_reduce
      have hi2 : i < points.length := by omega
      rw [rd_point hi2, ok_bind, wr2_ok ht hi2 (by omega)]
      refine ⟨rect_set2 ht hi2 _ _, fun r c => ?_⟩
      rw [ent_set2 ht hi2 (by omega), he]
      by_cases h1 : r = i ∧ c = 0
      · obtain ⟨rfl, rfl⟩ := h1
        rw [if_pos ⟨rfl, rfl⟩, if_pos ⟨rfl, by omega⟩]
        rfl
      · rw [if_neg h1]
        by_cases h2 : c = 0 ∧ r < i
        · rw [if_pos h2, if_pos ⟨h2.1, by omega⟩]
        · rw [if_neg h2, if_neg (by omega)])
  rw [Nat.zero_add] at h
  exact post_ok_of h

theorem tableStep_zero {points : Points} {t : Mat} (ht : Rect points.length points.length t)
    {i j : Nat} (hj : 1 ≤ j) (hij : i + j < points.length)
    (hz : xAt points (i + j) = xAt points i) :
    tableStep points j t i = Except.error Fault.divByZero := by
  unfold tableStep
  rw [rd2_ok ht (by omega) (by omega), ok_bind, rd2_ok ht (by omega) (by omega), ok_bind,
    rd_point hij, ok_bind, rd_point (by omega), ok_bind]
  unfold fdiv
  rw [if_pos]
  · rfl
  · rw [Int.cast_sub]
    exact sub_eq_zero.mpr hz

theorem tableStep_spec {points : Points} {t : Mat} (ht : Rect points.length points.length t)
    {i j : Nat} (hj : 1 ≤ j) (hij : i + j < points.length)
    (hz : xAt points (i + j) ≠ xAt points i) :
    tableStep points j t i = Except.ok (set2 t i j
      ((ent t (i + 1) (j - 1) - ent t i (j - 1)) / (xAt points (i + j) - xAt points i))) := by
  unfold tableStep
  rw [rd2_ok ht (by omega) (by omega), ok_bind, rd2_ok ht (by omega) (by omega), ok_bind,
    rd_point hij, ok_bind, rd_point (by omega), ok_bind]
  unfold fdiv
  rw [if_neg, ok_bind, wr2_ok ht (by omega) (by omega), Int.cast_sub]
  · rfl
  · rw [Int.cast_sub]
    exact fun h => hz (sub_eq_zero.mp h)

/-- The inner loop of lines 123-126, for column `j`. -/
theorem tableColumn_post {points : Points} {t : Mat} {j : Nat} (hj : 1 ≤ j)
    (hjn : j < points.length) (ht : Rect points.length points.length t)
    (he : ∀ r c, c < j → r + c < points.length →
      ent t r c = divDiff (xAt points) (yAt points) c r) :
    Post ((List.range (points.length - j)).foldlM (tableStep points j) t)
      (fun t2 => Rect points.length points.length t2 ∧
        (∀ p, p + j < points.length → xAt points p ≠ xAt points (p + j)) ∧
        ∀ r c, c < j + 1 → r + c < points.length →
          ent t2 r c = divDiff (xAt points) (yAt points) c r)
      (fun e => e = Fault.divByZero ∧ ¬ (xs points).Nodup) := by
  rw [List.range_eq_range']
  have h := foldlM_post (tableStep points j)
    (fun i t2 => Rect points.length points.length t2 ∧
        (∀ p, p < i → xAt points p ≠ xAt points (p + j)) ∧
        (∀ r c, c < j → r + c < points.length →
          ent t2 r c = divDiff (xAt points) (yAt points) c r) ∧
        ∀ r, r < i → ent t2 r j = divDiff (xAt points) (yAt points) j r)
    (fun e => e = Fault.divByZero ∧ ¬ (xs points).Nodup) (points.length - j) 0 t
    ⟨ht, fun p hp => by omega, he, fun r hr => by omega⟩
    (by
      intro i t2 _ hi ⟨ht2, hd2, he2, hc2⟩
      have hij : i + j < points.length := by omega
      by_cases hz : xAt points (i + j) = xAt points i
      · rw [tableStep_zero ht2 hj hij hz]
        exact ⟨rfl, fun hnd => xAt_ne_of_nodup hnd hij (by omega) (by omega) hz⟩
      · rw [tableStep_spec ht2 hj hij hz]
        refine ⟨rect_set2 ht2 (by omega) _ _, fun p hp => ?_, fun r c hc hrc => ?_,
          fun r hr => ?_⟩
        · by_cases hpi : p = i
          · rw [hpi]; exact fun h => hz h.symm
          · exact hd2 p (by omega)
        · rw [ent_set2 ht2 (by omega) (by omega), if_neg (by omega)]
          exact he2 r c hc hrc
        · rw [ent_set2 ht2 (by omega) (by omega)]
          by_cases hri : r = i
          · rw [if_pos ⟨hri, rfl⟩, hri, he2 (i + 1) (j - 1) (by omega) (by omega),
              he2 i (j - 1) (by omega) (by omega)]
            obtain ⟨j2, rfl⟩ : ∃ j2, j = j2 + 1 := ⟨j - 1, by omega⟩
            rfl
          · rw [if_neg (fun h => hri h.1)]
            exact hc2 r (by omega))
  rw [Nat.zero_add] at h
  refine post_mono h ?_ (fun e he => he)
  rintro t2 ⟨ht2, hd2, he2, hc2⟩
  refine ⟨ht2, fun p hp => hd2 p (by omega), fun r c hc hrc => ?_⟩
  by_cases hcj : c = j
  · rw [hcj]; exact hc2 r (by omega)
  · exact he2 r c (by omega) hrc

/-- The table of lines 112-127: its entries are the divided differences when the
x-coordinates are pairwise distinct, and a division by zero is made when they are not. -/
theorem newtonTable_post (points : Points) :
    Post (newtonTable points)
      (fun t => Rect points.length points.length t ∧ (xs points).Nodup ∧
        ∀ r c, r + c < points.length → ent t r c = divDiff (xAt points) (yAt points) c r)
      (fun e => e = Fault.divByZero ∧ ¬ (xs points).Nodup) := by
  unfold newtonTable
  obtain ⟨t0, h0, ht0, he0⟩ := tableInit_spec points
  dsimp only
  rw [h0, ok_bind]
  have h := foldlM_post
    (fun t j => (List.range (points.length - j)).foldlM (tableStep points j) t)
    (fun j t => Rect points.length points.length t ∧
      (∀ p q, p < q → q < points.length → q - p < j → xAt points p ≠ xAt points q) ∧
      ∀ r c, c < j → r + c < points.length →
        ent t r c = divDiff (xAt points) (yAt points) c r)
    (fun e => e = Fault.divByZero ∧ ¬ (xs points).Nodup) (points.length - 1) 1 t0
    ⟨ht0, fun p q h1 h2 h3 => by omega, fun r c hc hrc => by
      have : c = 0 := by omega
      rw [he0, this, if_pos ⟨rfl, by omega⟩]
      rfl⟩
    (by
      intro j t hj1 hj2 ⟨ht, hd, he⟩
      refine post_mono (tableColumn_post hj1 (by omega) ht he) ?_ (fun e h => h)
      rintro t2 ⟨ht2, hd2, he2⟩
      refine ⟨ht2, fun p q h1 h2 h3 => ?_, he2⟩
      by_cases hq : q - p < j
      · exact hd p q h1 h2 hq
      · have : q = p + j := by omega
        rw [this]
        exact hd2 p (by omega))
  refine post_mono h ?_ (fun e h => h)
  rintro t ⟨ht, hd, he⟩
  exact ⟨ht, nodup_of_xAt_ne (fun p q h1 h2 => hd p q h1 h2 (by omega)),
    fun r c hrc => he r c (by omega) hrc⟩

/-! ## The Newton form at zero -/

theorem newtonEval_spec {points : Points} {t : Mat} (ht : Rect points.length points.length t)
    (he : ∀ r c, r + c < points.length → ent t r c = divDiff (xAt points) (yAt points) c r)
    (hn : 0 < points.length) :
    ∃ st, (List.range' 1 (points.length - 1)).foldlM (newtonEvalStep points t) (ent t 0 0, 1)
        = Except.ok st ∧
      st.1 = newtonValue (xAt points) (yAt points) points.length := by
  have h := foldlM_post (newtonEvalStep points t)
    (fun i st => st.1 = newtonValue (xAt points) (yAt points) i ∧
      st.2 = ∏ l in Finset.range (i - 1), (0 - xAt points l))
    (fun _ => False) (points.length - 1) 1 (ent t 0 0, 1)
    ⟨by simp [newtonValue, he 0 0 hn], by simp⟩
    (by
      intro i st hi1 hi2 ⟨h1, h2⟩
      unfold newtonEvalStep
      rw [rd_point (by omega), ok_bind]
      dsimp only
      rw [rd2_ok ht hn (by omega), ok_bind]
      simp only [pure_eq_ok, post_ok]
      have hprod : st.2 * (((0 - (points.getD (i - 1) (0, 0)).1 : Int)) : ℚ)
          = ∏ l in Finset.range i, (0 - xAt points l) := by
        obtain ⟨i2, rfl⟩ : ∃ i2, i = i2 + 1 := ⟨i - 1, by omega⟩
        rw [h2, Finset.prod_range_succ, Int.cast_sub, Int.cast_zero]
        rfl
      refine ⟨?_, ?_⟩
      · rw [hprod, h1, he 0 i (by omega)]
        unfold newtonValue
        rw [Finset.sum_range_succ]
      · rw [hprod]
        rfl)
  rw [show 1 + (points.length - 1) = points.length by omega] at h
  obtain ⟨st, hst, h1, -⟩ := post_ok_of h
  exact ⟨st, hst, h1⟩

/-- The run of `newtonDividedDifference`: the Newton form at `0` for pairwise distinct
x-coordinates, a division by zero for a repeated x-coordinate, and a read outside the empty
table for the empty list. -/
theorem newtonDividedDifference_post (points : Points) :
    Post (newtonDividedDifference points)
      (fun v => points ≠ [] ∧ (xs points).Nodup ∧
        v = newtonValue (xAt points) (yAt points) points.length)
      (fun e => (e = Fault.divByZero ∧ ¬ (xs points).Nodup) ∨
        (e = Fault.outOfBounds ∧ points = [])) := by
  unfold newtonDividedDifference
  refine post_bind (post_mono (newtonTable_post points) (fun _ h => h) (fun e h => Or.inl h)) ?_
  rintro t ⟨ht, hnd, he⟩
  by_cases hn : points.length = 0
  · have ht0 : t.length ≤ 0 := by rw [ht.1, hn]
    unfold rd2
    rw [rd_oob ht0]
    exact Or.inr ⟨rfl, List.length_eq_zero.mp hn⟩
  · have hn2 : 0 < points.length := Nat.pos_of_ne_zero hn
    rw [rd2_ok ht hn2 hn2, ok_bind]
    obtain ⟨st, hst, hv⟩ := newtonEval_spec ht he hn2
    rw [hst, ok_bind]
    exact ⟨fun h => hn (by rw [h]; rfl), hnd, hv⟩

/-! ## Divided differences and the interpolation polynomial -/

theorem coeff_mul_basisDivisor (Q : Polynomial ℚ) (a b : ℚ) (j : Nat) (hQ : Q.degree < (j + 1 : Nat)) :
    (Q * Lagrange.basisDivisor a b).coeff (j + 1) = (a - b)⁻¹ * Q.coeff j := by
  unfold Lagrange.basisDivisor
  have h0 : Q.coeff (j + 1) = 0 := Polynomial.coeff_eq_zero_of_degree_lt hQ
  rw [show Q * (Polynomial.C (a - b)⁻¹ * (Polynomial.X - Polynomial.C b))
      = Polynomial.C (a - b)⁻¹ * (Q * (Polynomial.X - Polynomial.C b)) by ring,
    Polynomial.coeff_C_mul, Polynomial.coeff_mul_X_sub_C, h0]
  ring

/-- The divided difference of order `j` at `i` is the leading coefficient of the
interpolation polynomial of the samples `i .. i + j`. -/
theorem divDiff_eq_coeff (x y : Nat → ℚ) :
    ∀ (j i : Nat), Set.InjOn x (Finset.Icc i (i + j) : Finset Nat) →
      divDiff x y j i = (Lagrange.interpolate (Finset.Icc i (i + j)) x y).coeff j := by
  intro j
  induction j with
  | zero =>
    intro i _
    rw [Nat.add_zero, Finset.Icc_self, Lagrange.interpolate_singleton, Polynomial.coeff_C_zero]
    rfl
  | succ j ih =>
    intro i hinj
    have hmem1 : i ∈ Finset.Icc i (i + (j + 1)) := Finset.mem_Icc.mpr ⟨le_rfl, by omega⟩
    have hmem2 : i + (j + 1) ∈ Finset.Icc i (i + (j + 1)) := Finset.mem_Icc.mpr ⟨by omega, le_rfl⟩
    have hne : x (i + (j + 1)) ≠ x i := by
      intro h
      have := hinj (Finset.mem_coe.mpr hmem2) (Finset.mem_coe.mpr hmem1) h
      omega
    have he1 : (Finset.Icc i (i + (j + 1))).erase (i + (j + 1)) = Finset.Icc i (i + j) := by
      ext a
      simp only [Finset.mem_erase, Finset.mem_Icc]
      omega
    have he2 : (Finset.Icc i (i + (j + 1))).erase i = Finset.Icc (i + 1) (i + 1 + j) := by
      ext a
      simp only [Finset.mem_erase, Finset.mem_Icc]
      omega
    have hsub1 : Set.InjOn x (Finset.Icc i (i + j) : Finset Nat) := by
      refine hinj.mono ?_
      intro a ha
      simp only [Finset.coe_Icc, Set.mem_Icc] at ha ⊢
      omega
    have hsub2 : Set.InjOn x (Finset.Icc (i + 1) (i + 1 + j) : Finset Nat) := by
      refine hinj.mono ?_
      intro a ha
      simp only [Finset.coe_Icc, Set.mem_Icc] at ha ⊢
      omega
    have hd1 : (Lagrange.interpolate (Finset.Icc i (i + j)) x y).degree < ((j + 1 : Nat) : WithBot Nat) := by
      have := Lagrange.degree_interpolate_lt y hsub1
      rwa [Nat.card_Icc, show i + j + 1 - i = j + 1 by omega] at this
    have hd2 : (Lagrange.interpolate (Finset.Icc (i + 1) (i + 1 + j)) x y).degree
        < ((j + 1 : Nat) : WithBot Nat) := by
      have := Lagrange.degree_interpolate_lt y hsub2
      rwa [Nat.card_Icc, show i + 1 + j + 1 - (i + 1) = j + 1 by omega] at this
    rw [Lagrange.interpolate_eq_add_interpolate_erase y hinj hmem1 hmem2 (by omega), he1, he2,
      Polynomial.coeff_add, coeff_mul_basisDivisor _ _ _ _ hd1,
      coeff_mul_basisDivisor _ _ _ _ hd2, ← ih i hsub1, ← ih (i + 1) hsub2]
    show (divDiff x y j (i + 1) - divDiff x y j i) / (x (i + (j + 1)) - x i) = _
    have h1 : x (i + (j + 1)) - x i ≠ 0 := sub_ne_zero.mpr hne
    have h2 : x i - x (i + (j + 1)) ≠ 0 := sub_ne_zero.mpr (Ne.symm hne)
    field_simp
    ring

theorem prodXsubC_monic (x : Nat → ℚ) (k : Nat) :
    (∏ l in Finset.range k, (Polynomial.X - Polynomial.C (x l)) : Polynomial ℚ).Monic :=
  Polynomial.monic_prod_of_monic _ _ (fun l _ => Polynomial.monic_X_sub_C (x l))

theorem prodXsubC_natDegree (x : Nat → ℚ) (k : Nat) :
    (∏ l in Finset.range k, (Polynomial.X - Polynomial.C (x l)) : Polynomial ℚ).natDegree = k := by
  rw [Polynomial.natDegree_prod_of_monic _ _ (fun l _ => Polynomial.monic_X_sub_C (x l))]
  simp

/-- Newton's form: the interpolation polynomial of the first `k + 1` samples is the one of
the first `k` samples plus the divided difference times the product of the factors `X - x l`. -/
theorem interpolate_succ (x y : Nat → ℚ) (k : Nat)
    (hinj : Set.InjOn x (Finset.range (k + 1) : Finset Nat)) :
    Lagrange.interpolate (Finset.range (k + 1)) x y
      = Lagrange.interpolate (Finset.range k) x y
        + Polynomial.C (divDiff x y k 0)
          * ∏ l in Finset.range k, (Polynomial.X - Polynomial.C (x l)) := by
  have hsub : Set.InjOn x (Finset.range k : Finset Nat) := by
    refine hinj.mono ?_
    intro a ha
    simp only [Finset.coe_range, Set.mem_Iio] at ha ⊢
    omega
  have hIcc : Finset.range (k + 1) = Finset.Icc 0 (0 + k) := by
    ext a
    simp only [Finset.mem_range, Finset.mem_Icc]
    omega
  have hdd : divDiff x y k 0 = (Lagrange.interpolate (Finset.range (k + 1)) x y).coeff k := by
    rw [hIcc]
    exact divDiff_eq_coeff x y k 0 (by rw [← hIcc]; exact hinj)
  have hdeg1 : (Lagrange.interpolate (Finset.range (k + 1)) x y).degree < ((k + 1 : Nat) : WithBot Nat) := by
    have := Lagrange.degree_interpolate_lt y hinj
    rwa [Finset.card_range] at this
  have hdeg0 : (Lagrange.interpolate (Finset.range k) x y).degree < ((k : Nat) : WithBot Nat) := by
    have := Lagrange.degree_interpolate_lt y hsub
    rwa [Finset.card_range] at this
  refine Polynomial.eq_of_degree_sub_lt_of_eval_finset_eq ((Finset.range k).image x) ?_ ?_
  · rw [Finset.card_image_of_injOn hsub, Finset.card_range, Polynomial.degree_lt_iff_coeff_zero]
    intro m hm
    rw [Polynomial.coeff_sub, Polynomial.coeff_add, Polynomial.coeff_C_mul]
    rcases Nat.eq_or_lt_of_le hm with h | h
    · subst h
      have h3 : (∏ l in Finset.range k, (Polynomial.X - Polynomial.C (x l)) :
          Polynomial ℚ).coeff k = 1 := by
        have := (prodXsubC_monic x k).coeff_natDegree
        rwa [prodXsubC_natDegree] at this
      rw [h3, Polynomial.coeff_eq_zero_of_degree_lt hdeg0, ← hdd]
      ring
    · have h1 : (Lagrange.interpolate (Finset.range (k + 1)) x y).coeff m = 0 :=
        Polynomial.coeff_eq_zero_of_degree_lt
          (lt_of_lt_of_le hdeg1 (by exact_mod_cast (show k + 1 ≤ m by omega)))
      have h2 : (Lagrange.interpolate (Finset.range k) x y).coeff m = 0 :=
        Polynomial.coeff_eq_zero_of_degree_lt
          (lt_of_lt_of_le hdeg0 (by exact_mod_cast (show k ≤ m by omega)))
      have h3 : (∏ l in Finset.range k, (Polynomial.X - Polynomial.C (x l)) :
          Polynomial ℚ).coeff m = 0 :=
        Polynomial.coeff_eq_zero_of_natDegree_lt (by rw [prodXsubC_natDegree]; exact h)
      rw [h1, h2, h3]
      ring
  · intro a ha
    obtain ⟨l, hl, rfl⟩ := Finset.mem_image.mp ha
    have hl2 : l ∈ Finset.range (k + 1) := Finset.mem_range.mpr (by
      have := Finset.mem_range.mp hl
      omega)
    rw [Lagrange.eval_interpolate_at_node y hinj hl2, Polynomial.eval_add,
      Lagrange.eval_interpolate_at_node y hsub hl, Polynomial.eval_mul, Polynomial.eval_prod,
      Finset.prod_eq_zero hl (by simp)]
    ring

/-- The value of `newtonValue` is the value at `0` of the interpolation polynomial. -/
theorem newtonValue_eq_eval (x y : Nat → ℚ) :
    ∀ n, Set.InjOn x (Finset.range n : Finset Nat) →
      newtonValue x y n = (Lagrange.interpolate (Finset.range n) x y).eval 0 := by
  intro n
  induction n with
  | zero =>
    intro _
    simp [newtonValue]
  | succ n ih =>
    intro hinj
    have hsub : Set.InjOn x (Finset.range n : Finset Nat) := by
      refine hinj.mono ?_
      intro a ha
      simp only [Finset.coe_range, Set.mem_Iio] at ha ⊢
      omega
    have h1 : newtonValue x y (n + 1)
        = newtonValue x y n + divDiff x y n 0 * ∏ l in Finset.range n, (0 - x l) := by
      unfold newtonValue
      rw [Finset.sum_range_succ]
    rw [h1, ih hsub, interpolate_succ x y n hinj, Polynomial.eval_add, Polynomial.eval_mul,
      Polynomial.eval_C, Polynomial.eval_prod]
    simp

/-! ## Both methods and the interpolation polynomial -/

theorem injOn_xAt {points : Points} (hnd : (xs points).Nodup) :
    Set.InjOn (xAt points) (Finset.range points.length : Finset Nat) := by
  intro a ha b hb hab
  simp only [Finset.coe_range, Set.mem_Iio] at ha hb
  by_contra hne
  exact xAt_ne_of_nodup hnd ha hb hne hab

theorem eval_interp_point {points : Points} (hnd : (xs points).Nodup) {p : Int × Int}
    (hp : p ∈ points) :
    (Lagrange.interpolate (Finset.range points.length) (xAt points) (yAt points)).eval (p.1 : ℚ)
      = (p.2 : ℚ) := by
  obtain ⟨i, hi, hpi⟩ := mem_points_iff.mp hp
  have := Lagrange.eval_interpolate_at_node (yAt points) (injOn_xAt hnd) (Finset.mem_range.mpr hi)
  unfold xAt yAt at this ⊢
  rw [hpi] at this
  exact this

theorem natDegree_interp_lt {points : Points} (hnd : (xs points).Nodup)
    (hn : 0 < points.length) :
    (Lagrange.interpolate (Finset.range points.length) (xAt points) (yAt points)).natDegree
      < points.length := by
  have hdeg := Lagrange.degree_interpolate_lt (yAt points) (injOn_xAt hnd)
  rw [Finset.card_range] at hdeg
  by_cases h0 : Lagrange.interpolate (Finset.range points.length) (xAt points) (yAt points) = 0
  · rw [h0, Polynomial.natDegree_zero]; exact hn
  · exact (Polynomial.natDegree_lt_iff_degree_lt h0).mpr hdeg

/-- Both methods return the value at `0` of the interpolation polynomial of the points. -/
theorem both_eq_interp {points : Points} (hne : points ≠ []) (hnd : (xs points).Nodup) :
    solveVandermondeCoefficients points = Except.ok ((List.range points.length).map
      (Lagrange.interpolate (Finset.range points.length) (xAt points) (yAt points)).coeff) ∧
    solveVandermonde points = Except.ok
      ((Lagrange.interpolate (Finset.range points.length) (xAt points) (yAt points)).eval 0) ∧
    newtonDividedDifference points = Except.ok
      ((Lagrange.interpolate (Finset.range points.length) (xAt points) (yAt points)).eval 0) := by
  have hn : 0 < points.length := List.length_pos.mpr hne
  have hv : solveVandermondeCoefficients points = Except.ok ((List.range points.length).map
      (Lagrange.interpolate (Finset.range points.length) (xAt points) (yAt points)).coeff) := by
    have hpost := solveVandermondeCoefficients_post points
    cases hres : solveVandermondeCoefficients points with
    | error e =>
      rw [hres] at hpost
      exact absurd hnd hpost.2
    | ok c =>
      rw [hres] at hpost
      obtain ⟨hlen, -, hc⟩ := hpost
      congr 1
      refine coeffs_unique hnd hlen (by simp) (fun p hp => ?_)
      rw [hc p hp, polyValue_map_coeff _ _ (natDegree_interp_lt hnd hn),
        eval_interp_point hnd hp]
  refine ⟨hv, ?_, ?_⟩
  · rw [solveVandermonde_of_coeffs hv (by simpa using hn)]
    congr 1
    rw [← Polynomial.coeff_zero_eq_eval_zero]
    simp [List.getD_eq_getElem?_getD, List.getElem?_map, List.getElem?_range hn]
  · have hpost := newtonDividedDifference_post points
    cases hres : newtonDividedDifference points with
    | error e =>
      rw [hres] at hpost
      rcases hpost with ⟨-, h⟩ | ⟨-, h⟩
      · exact absurd hnd h
      · exact absurd h hne
    | ok v =>
      rw [hres] at hpost
      obtain ⟨-, -, hv2⟩ := hpost
      rw [hv2, newtonValue_eq_eval _ _ _ (injOn_xAt hnd)]

theorem interp_eq_of_sampled {points : Points} (hnd : (xs points).Nodup)
    (hn : 1 ≤ points.length) {P : Polynomial ℚ} (hdeg : P.natDegree ≤ points.length - 1)
    (hP : ∀ p ∈ points, P.eval (p.1 : ℚ) = (p.2 : ℚ)) :
    Lagrange.interpolate (Finset.range points.length) (xAt points) (yAt points) = P := by
  symm
  refine Lagrange.eq_interpolate_of_eval_eq (yAt points) (injOn_xAt hnd) ?_ ?_
  · rw [Finset.card_range]
    refine lt_of_le_of_lt Polynomial.degree_le_natDegree ?_
    exact_mod_cast (show P.natDegree < points.length by omega)
  · intro i hi
    have hi2 := Finset.mem_range.mp hi
    exact hP _ (mem_points_iff.mpr ⟨i, hi2, rfl⟩)

/-! ## Repeated x-coordinates and the empty list -/

theorem solveVandermonde_of_duplicate {points : Points} (hdup : ¬ (xs points).Nodup) :
    solveVandermonde points = Except.error Fault.divByZero := by
  have hpost := solveVandermondeCoefficients_post points
  unfold solveVandermonde
  cases hres : solveVandermondeCoefficients points with
  | error e =>
    rw [hres] at hpost
    rw [hpost.1]
    rfl
  | ok c =>
    rw [hres] at hpost
    exact absurd hpost.2.1 hdup

theorem newton_of_duplicate {points : Points} (hdup : ¬ (xs points).Nodup) :
    newtonDividedDifference points = Except.error Fault.divByZero := by
  have hpost := newtonDividedDifference_post points
  cases hres : newtonDividedDifference points with
  | error e =>
    rw [hres] at hpost
    rcases hpost with ⟨h, -⟩ | ⟨-, h⟩
    · rw [h]
    · rw [h] at hdup
      exact absurd List.nodup_nil hdup
  | ok v =>
    rw [hres] at hpost
    exact absurd hpost.2.1 hdup

/-- C9, as stated, fails at the points (1,1), (1,2), which share the x-coordinate 1: both
routines reach a division by zero that `cat.cpp` does not test for, and neither reports a
SingularMatrix failure. -/
theorem duplicate_x_not_reported :
    ¬ (xs [(1, 1), (1, 2)]).Nodup ∧
    solveVandermonde [(1, 1), (1, 2)] ≠ Except.error (Fault.raised FitError.singularMatrix) ∧
    newtonDividedDifference [(1, 1), (1, 2)]
      ≠ Except.error (Fault.raised FitError.singularMatrix) := by
  have hdup : ¬ (xs [(1, 1), (1, 2)]).Nodup := by decide
  refine ⟨hdup, ?_, ?_⟩
  · rw [solveVandermonde_of_duplicate hdup]
    simp
  · rw [newton_of_duplicate hdup]
    simp

/-- C9, amended: with exact arithmetic, for every list of points in which two points have
equal x-coordinates, `solveVandermonde` and `newtonDividedDifference` each execute a division
by zero (a zero pivot in `gaussianElimination`, a zero denominator in the divided-difference
table). That is where the run ends in the exact model: no routine reports an error. -/
theorem duplicate_x_divides_by_zero (points : Points) (hdup : ¬ (xs points).Nodup) :
    solveVandermonde points = Except.error Fault.divByZero ∧
    newtonDividedDifference points = Except.error Fault.divByZero ∧
    ∀ e, solveVandermonde points ≠ Except.error (Fault.raised e) ∧
      newtonDividedDifference points ≠ Except.error (Fault.raised e) := by
  refine ⟨solveVandermonde_of_duplicate hdup, newton_of_duplicate hdup, fun e => ?_⟩
  rw [solveVandermonde_of_duplicate hdup, newton_of_duplicate hdup]
  simp

/-- C9, amended, at the points (1,4), (2,7), (1,9). -/
theorem duplicate_x_divides_by_zero_witness :
    solveVandermonde [(1, 4), (2, 7), (1, 9)] = Except.error Fault.divByZero ∧
    newtonDividedDifference [(1, 4), (2, 7), (1, 9)] = Except.error Fault.divByZero ∧
    ∀ e, solveVandermonde [(1, 4), (2, 7), (1, 9)] ≠ Except.error (Fault.raised e) ∧
      newtonDividedDifference [(1, 4), (2, 7), (1, 9)] ≠ Except.error (Fault.raised e) :=
  duplicate_x_divides_by_zero [(1, 4), (2, 7), (1, 9)] (by decide)

/-- C10, as stated, fails: on the empty list neither routine reports a DimensionMismatch
failure. -/
theorem empty_points_not_reported :
    solveVandermonde [] ≠ Except.error (Fault.raised FitError.dimensionMismatch) ∧
    newtonDividedDifference [] ≠ Except.error (Fault.raised FitError.dimensionMismatch) := by
  constructor <;> intro h <;> cases h

/-- C10, amended: on the empty list `gaussianElimination` returns the empty vector and the
table is empty; `solveVandermonde` then reads `coefficients[0]` and `newtonDividedDifference`
reads `table[0][0]`, both outside an empty container. `cat.cpp` checks neither the size of
the list nor the index, so no failure is reported. -/
theorem empty_points_out_of_bounds :
    solveVandermondeCoefficients [] = Except.ok [] ∧
    solveVandermonde [] = Except.error Fault.outOfBounds ∧
    newtonTable [] = Except.ok [] ∧
    newtonDividedDifference [] = Except.error Fault.outOfBounds :=
  ⟨rfl, rfl, rfl, rfl⟩

/-! ## The rows of the Vandermonde matrix -/

theorem mat_ext {r c : Nat} {m m2 : Mat} (hm : Rect r c m) (hm2 : Rect r c m2)
    (h : ∀ i j, i < r → j < c → ent m i j = ent m2 i j) : m = m2 := by
  apply List.ext_getElem (by rw [hm.1, hm2.1])
  intro i h1 h2
  have hi : i < r := by rw [← hm.1]; exact h1
  have hr1 : (m[i]).length = c := hm.2 _ (List.getElem_mem _)
  have hr2 : (m2[i]).length = c := hm2.2 _ (List.getElem_mem _)
  apply List.ext_getElem (by rw [hr1, hr2])
  intro j k1 k2
  have := h i j hi (by rw [← hr1]; exact k1)
  unfold ent at this
  simpa [List.getD_eq_getElem?_getD, List.getElem?_eq_getElem h1, List.getElem?_eq_getElem h2,
    List.getElem?_eq_getElem k1, List.getElem?_eq_getElem k2] using this

theorem rect_vandermondeRows (points : Points) :
    Rect points.length (points.length + 1) (points.map (vandermondeRow points.length)) := by
  refine ⟨List.length_map _ _, fun row hrow => ?_⟩
  obtain ⟨p, -, rfl⟩ := List.mem_map.mp hrow
  simp [vandermondeRow]

theorem ent_vandermondeRows (points : Points) {i j : Nat} (hi : i < points.length)
    (hj : j < points.length + 1) :
    ent (points.map (vandermondeRow points.length)) i j
      = if j < points.length then xAt points i ^ j else yAt points i := by
  have h1 : (points.map (vandermondeRow points.length)).getD i []
      = vandermondeRow points.length (points.getD i (0, 0)) := by
    simp [List.getD_eq_getElem?_getD, List.getElem?_map, List.getElem?_eq_getElem hi]
  unfold ent
  rw [h1]
  unfold xAt yAt vandermondeRow
  rw [List.getD_eq_getElem?_getD]
  by_cases hjn : j < points.length
  · rw [if_pos hjn, List.getElem?_append_left (by simpa using hjn)]
    simp [List.getElem?_map, List.getElem?_range hjn]
  · have hj2 : j = points.length := by omega
    rw [if_neg hjn, hj2, List.getElem?_append_right (by simp)]
    simp

theorem buildVandermonde_eq (points : Points) :
    buildVandermonde points = Except.ok (points.map (vandermondeRow points.length)) := by
  obtain ⟨m, hm, hr, he⟩ := buildVandermonde_spec points
  rw [hm]
  congr 1
  refine mat_ext hr (rect_vandermondeRows points) (fun i j hi hj => ?_)
  rw [ent_vandermondeRows points hi hj]
  by_cases hjn : j < points.length
  · rw [if_pos hjn]; exact (he i hi).1 j hjn
  · have hj2 : j = points.length := by omega
    rw [if_neg hjn, hj2]; exact (he i hi).2

/-! ## The unused entries of the divided-difference table -/

/-- The entries of the table that lie on or below the anti-diagonal `i + j = n` are never
written: they keep the `0` of line 112. -/
theorem newtonTable_unused (points : Points) :
    Post (newtonTable points)
      (fun t => ∀ r c, points.length ≤ r + c → ent t r c = 0) (fun _ => True) := by
  unfold newtonTable
  obtain ⟨t0, h0, ht0, he0⟩ := tableInit_spec points
  dsimp only
  rw [h0, ok_bind]
  have h := foldlM_post
    (fun t j => (List.range (points.length - j)).foldlM (tableStep points j) t)
    (fun _ t => Rect points.length points.length t ∧
      ∀ r c, points.length ≤ r + c → ent t r c = 0)
    (fun _ => True) (points.length - 1) 1 t0
    ⟨ht0, fun r c hrc => by rw [he0, if_neg (by omega)]⟩
    (by
      intro j t hj1 hj2 ⟨ht, hz⟩
      beta_reduce
      rw [List.range_eq_range']
      have h2 := foldlM_post (tableStep points j)
        (fun _ t2 => Rect points.length points.length t2 ∧
          ∀ r c, points.length ≤ r + c → ent t2 r c = 0)
        (fun _ => True) (points.length - j) 0 t ⟨ht, hz⟩
        (by
          intro i t2 _ hi ⟨ht2, hz2⟩
          have hij : i + j < points.length := by omega
          by_cases hx : xAt points (i + j) = xAt points i
          · rw [tableStep_zero ht2 hj1 hij hx]
            trivial
          · rw [tableStep_spec ht2 hj1 hij hx]
            refine ⟨rect_set2 ht2 (by omega) _ _, fun r c hrc => ?_⟩
            rw [ent_set2 ht2 (by omega) (by omega), if_neg (by omega)]
            exact hz2 r c hrc)
      exact h2)
  exact post_mono h (fun t ht => ht.2) (fun _ _ => trivial)

/-! ## Partial pivoting and the eliminated matrix -/

/-- The pivot search returns the first row, from row `i` on, whose entry in column `i` has the
largest absolute value. -/
theorem findPivot_first_max {n : Nat} {m : Mat} (hm : Rect n (n + 1) m) {i : Nat} (hi : i < n) :
    ∃ p, findPivot m n i = Except.ok p ∧ i ≤ p ∧ p < n ∧
      (∀ k, i ≤ k → k < n → |ent m k i| ≤ |ent m p i|) ∧
      (∀ k, i ≤ k → k < p → |ent m k i| < |ent m p i|) := by
  have h := foldlM_post
    (fun maxRow k => do
      let a ← rd2 m k i
      let b ← rd2 m maxRow i
      pure (if |a| > |b| then k else maxRow))
    (fun k p => i ≤ p ∧ p < k ∧ (∀ k2, i ≤ k2 → k2 < k → |ent m k2 i| ≤ |ent m p i|) ∧
      ∀ k2, i ≤ k2 → k2 < p → |ent m k2 i| < |ent m p i|)
    (fun _ => False) (n - (i + 1)) (i + 1) i
    ⟨le_rfl, by omega, fun k2 h1 h2 => by
      have : k2 = i := by omega
      rw [this], fun k2 h1 h2 => by omega⟩
    (by
      intro k p hk1 hk2 ⟨hp1, hp2, hp3, hp4⟩
      beta_reduce
      rw [rd2_ok hm (by omega) (by omega), ok_bind, rd2_ok hm (by omega) (by omega), ok_bind]
      simp only [pure_eq_ok, post_ok]
      by_cases hgt : |ent m k i| > |ent m p i|
      · rw [if_pos hgt]
        refine ⟨by omega, by omega, fun k2 h1 h2 => ?_, fun k2 h1 h2 => ?_⟩
        · by_cases hk : k2 = k
          · rw [hk]
          · exact le_trans (hp3 k2 h1 (by omega)) (le_of_lt hgt)
        · exact lt_of_le_of_lt (hp3 k2 h1 h2) hgt
      · rw [if_neg hgt]
        refine ⟨hp1, by omega, fun k2 h1 h2 => ?_, hp4⟩
        by_cases hk : k2 = k
        · rw [hk]; exact not_lt.mp hgt
        · exact hp3 k2 h1 (by omega))
  obtain ⟨p, hp, h1, h2, h3, h4⟩ := post_ok_of h
  rw [show i + 1 + (n - (i + 1)) = n by omega] at h2 h3
  exact ⟨p, hp, h1, h2, h3, h4⟩

/-- C15: in `gaussianElimination` on an `n x (n+1)` matrix, the step for column `i` searches
the pivot row `p` among the rows `i .. n-1` of the current matrix, swaps it into position `i`
and then eliminates: the entry of row `p` in column `i` has the largest absolute value, every
earlier row from `i` on has a strictly smaller one (the smallest row index among the maxima
is taken, so row `i` is kept and the matrix is unchanged if row `i` attains the maximum), and
after the swap `|matrix[i][i]| >= |matrix[k][i]|` for every `k > i`. -/
theorem forwardStep_partial_pivot (n : Nat) (matrix : Mat) (i : Nat)
    (hrows : matrix.length = n) (hcols : ∀ row ∈ matrix, row.length = n + 1) (hi : i < n) :
    ∃ p m1, findPivot matrix n i = Except.ok p ∧ swapRows matrix p i = Except.ok m1 ∧
      forwardStep n matrix i
        = (List.range' (i + 1) (n - (i + 1))).foldlM (fun m k => eliminateRow m n i k) m1 ∧
      i ≤ p ∧ p < n ∧
      (∀ k, i ≤ k → k < n → |ent matrix k i| ≤ |ent matrix p i|) ∧
      (∀ k, i ≤ k → k < p → |ent matrix k i| < |ent matrix p i|) ∧
      ((∀ k, i ≤ k → k < n → |ent matrix k i| ≤ |ent matrix i i|) → p = i ∧ m1 = matrix) ∧
      (∀ j, ent m1 i j = ent matrix p j) ∧ (∀ j, ent m1 p j = ent matrix i j) ∧
      (∀ k, i < k → k < n → |ent m1 k i| ≤ |ent m1 i i|) := by
  have hm : Rect n (n + 1) matrix := ⟨hrows, hcols⟩
  obtain ⟨p, hp, hp1, hp2, hp3, hp4⟩ := findPivot_first_max hm hi
  obtain ⟨m1, hsw, hm1, he1⟩ := swapRows_spec hm hp2 hi
  have hpi : (∀ k, i ≤ k → k < n → |ent matrix k i| ≤ |ent matrix i i|) → p = i := by
    intro hmax
    by_contra hne
    exact absurd (hp4 i le_rfl (by omega)) (not_lt.mpr (hmax p hp1 hp2))
  refine ⟨p, m1, hp, hsw, ?_, hp1, hp2, hp3, hp4, fun hmax => ⟨hpi hmax, ?_⟩, fun j => ?_,
    fun j => ?_, fun k hk1 hk2 => ?_⟩
  · unfold forwardStep
    rw [hp, ok_bind, hsw, ok_bind]
  · refine mat_ext hm1 hm (fun r j _ _ => ?_)
    rw [he1, hpi hmax]
    split_ifs with h1
    · rw [h1]
    · rfl
  · rw [he1, if_pos rfl]
  · rw [he1]
    by_cases h1 : p = i
    · rw [if_pos h1, h1]
    · rw [if_neg h1, if_pos rfl]
  · rw [he1 i, if_pos rfl, he1 k, if_neg (by omega)]
    split_ifs
    · exact hp3 i le_rfl hi
    · exact hp3 k (by omega) hk2

/-- C15 at a matrix whose first column is 1, -2, 2: the step for column 0 finds its pivot in
row 1, the first of the two rows with absolute value 2. -/
theorem forwardStep_partial_pivot_witness :
    ∃ p m1, findPivot [[1, 0, 0, 1], [-2, 1, 0, 1], [2, 0, 1, 1]] 3 0 = Except.ok p ∧
      swapRows [[1, 0, 0, 1], [-2, 1, 0, 1], [2, 0, 1, 1]] p 0 = Except.ok m1 ∧
      forwardStep 3 [[1, 0, 0, 1], [-2, 1, 0, 1], [2, 0, 1, 1]] 0
        = (List.range' (0 + 1) (3 - (0 + 1))).foldlM (fun m k => eliminateRow m 3 0 k) m1 ∧
      0 ≤ p ∧ p < 3 ∧
      (∀ k, 0 ≤ k → k < 3 → |ent [[1, 0, 0, 1], [-2, 1, 0, 1], [2, 0, 1, 1]] k 0|
        ≤ |ent [[1, 0, 0, 1], [-2, 1, 0, 1], [2, 0, 1, 1]] p 0|) ∧
      (∀ k, 0 ≤ k → k < p → |ent [[1, 0, 0, 1], [-2, 1, 0, 1], [2, 0, 1, 1]] k 0|
        < |ent [[1, 0, 0, 1], [-2, 1, 0, 1], [2, 0, 1, 1]] p 0|) ∧
      ((∀ k, 0 ≤ k → k < 3 → |ent [[1, 0, 0, 1], [-2, 1, 0, 1], [2, 0, 1, 1]] k 0|
        ≤ |ent [[1, 0, 0, 1], [-2, 1, 0, 1], [2, 0, 1, 1]] 0 0|) →
        p = 0 ∧ m1 = [[1, 0, 0, 1], [-2, 1, 0, 1], [2, 0, 1, 1]]) ∧
      (∀ j, ent m1 0 j = ent [[1, 0, 0, 1], [-2, 1, 0, 1], [2, 0, 1, 1]] p j) ∧
      (∀ j, ent m1 p j = ent [[1, 0, 0, 1], [-2, 1, 0, 1], [2, 0, 1, 1]] 0 j) ∧
      (∀ k, 0 < k → k < 3 → |ent m1 k 0| ≤ |ent m1 0 0|) :=
  forwardStep_partial_pivot 3 [[1, 0, 0, 1], [-2, 1, 0, 1], [2, 0, 1, 1]] 0 rfl (by decide)
    (by decide)

theorem sameSol_mulVec {n : Nat} {a b : Mat} (h : SameSol n a b) (v : Fin n → ℚ) :
    (squarePart n a).mulVec v = rhsPart n a ↔ (squarePart n b).mulVec v = rhsPart n b := by
  let s : Nat → ℚ := fun j => if hj : j < n then v ⟨j, hj⟩ else 0
  have hs : (fun j : Fin n => s j) = v := by
    funext j
    simp [s]
  have key : ∀ c : Mat, (squarePart n c).mulVec v = rhsPart n c ↔
      ∀ k, k < n → lin n c k s 1 = 0 := by
    intro c
    constructor
    · intro hc k hk
      have := lin_eq_mulVec n c s 1 ⟨k, hk⟩
      rw [hs, hc] at this
      simpa using this
    · intro hc
      funext k
      have := lin_eq_mulVec n c s 1 k
      rw [hs, hc k k.2] at this
      linarith
  rw [key a, key b]
  exact h s 1

/-- C16: with exact arithmetic, for an `n x (n+1)` augmented matrix with non-singular square
part, the forward elimination of `gaussianElimination` ends with an `n x (n+1)` matrix that
is upper triangular (`matrix[k][i] = 0` for `i < k < n`) with `matrix[i][i] != 0` for every
`i < n`, and whose system has the same solutions as the system that was passed; the back
substitution is run on that matrix. -/
theorem forwardElimination_triangular (n : Nat) (matrix : Mat)
    (hrows : matrix.length = n) (hcols : ∀ row ∈ matrix, row.length = n + 1)
    (hdet : (squarePart n matrix).det ≠ 0) :
    ∃ u, forwardElimination matrix = Except.ok u ∧
      u.length = n ∧ (∀ row ∈ u, row.length = n + 1) ∧
      (∀ i k, i < k → k < n → ent u k i = 0) ∧
      (∀ i, i < n → ent u i i ≠ 0) ∧
      (∀ v : Fin n → ℚ, (squarePart n u).mulVec v = rhsPart n u ↔
        (squarePart n matrix).mulVec v = rhsPart n matrix) ∧
      gaussianElimination matrix = backSubstitution u := by
  have hm : Rect n (n + 1) matrix := ⟨hrows, hcols⟩
  have hpost := forwardElimination_post hm
  cases hres : forwardElimination matrix with
  | error e =>
    rw [hres] at hpost
    obtain ⟨-, i, m1, hi, hsol, hz⟩ := hpost
    exact absurd (sameSol_det (sameSol_symm hsol) (zeroCol_det hi hz)) hdet
  | ok u =>
    rw [hres] at hpost
    obtain ⟨hu, hsol, hup, -⟩ := hpost
    have hup2 : ∀ j k, j < k → k < n → ent u k j = 0 :=
      fun j k hjk hk => hup j k (by omega) hjk hk
    refine ⟨u, rfl, hu.1, hu.2, hup2, fun i hi hz => ?_, fun v => (sameSol_mulVec hsol v).symm,
      ?_⟩
    · apply hdet
      refine sameSol_det (sameSol_symm hsol) ?_
      rw [upper_det hup2]
      exact Finset.prod_eq_zero (Finset.mem_univ ⟨i, hi⟩) hz
    · unfold gaussianElimination
      rw [hres, ok_bind]

/-- C16 at the system `y = 2, x = 3`, whose first pivot is found in the second row. -/
theorem forwardElimination_triangular_witness :
    ∃ u, forwardElimination [[0, 1, 2], [1, 0, 3]] = Except.ok u ∧
      u.length = 2 ∧ (∀ row ∈ u, row.length = 2 + 1) ∧
      (∀ i k, i < k → k < 2 → ent u k i = 0) ∧
      (∀ i, i < 2 → ent u i i ≠ 0) ∧
      (∀ v : Fin 2 → ℚ, (squarePart 2 u).mulVec v = rhsPart 2 u ↔
        (squarePart 2 [[0, 1, 2], [1, 0, 3]]).mulVec v = rhsPart 2 [[0, 1, 2], [1, 0, 3]]) ∧
      gaussianElimination [[0, 1, 2], [1, 0, 3]] = backSubstitution u :=
  forwardElimination_triangular 2 [[0, 1, 2], [1, 0, 3]] rfl (by decide)
    (by simp [Matrix.det_fin_two, squarePart, ent])

/-! ## Divisors -/

theorem fdiv_error_iff (a b : ℚ) : fdiv a b = Except.error Fault.divByZero ↔ b = 0 := by
  unfold fdiv
  by_cases h : b = 0
  · rw [if_pos h]
    exact ⟨fun _ => h, fun _ => rfl⟩
  · rw [if_neg h]
    exact ⟨fun h2 => (by cases h2), fun h2 => absurd h2 h⟩

theorem eliminateRow_error_iff {n : Nat} {m : Mat} (hm : Rect n (n + 1) m) {i k : Nat}
    (hi : i < n) (hk : k < n) (hik : k ≠ i) :
    eliminateRow m n i k = Except.error Fault.divByZero ↔ ent m i i = 0 := by
  constructor
  · intro h
    by_contra hz
    obtain ⟨m2, h2, -⟩ := eliminateRow_spec hm hi hk hik hz
    rw [h2] at h
    cases h
  · exact eliminateRow_zero hm hi hk

theorem backStep_error_iff {n : Nat} {u : Mat} (hu : Rect n (n + 1) u) {sol : List ℚ}
    (hsol : sol.length = n) {i : Nat} (hi : i < n) :
    backStep u n sol i = Except.error Fault.divByZero ↔ ent u i i = 0 := by
  constructor
  · intro h
    by_contra hz
    obtain ⟨s2, h2, -⟩ := backStep_spec hu hsol hi hz
    rw [h2] at h
    cases h
  · exact backStep_zero hu hsol hi

theorem tableStep_error_iff {points : Points} {t : Mat}
    (ht : Rect points.length points.length t) {i j : Nat} (hj : 1 ≤ j)
    (hij : i + j < points.length) :
    tableStep points j t i = Except.error Fault.divByZero ↔
      xAt points (i + j) - xAt points i = 0 := by
  constructor
  · intro h
    by_contra hz
    rw [tableStep_spec ht hj hij (fun e => hz (sub_eq_zero.mpr e))] at h
    cases h
  · intro h
    exact tableStep_zero ht hj hij (sub_eq_zero.mp h)

/-- The run of the Vandermonde method on points with pairwise distinct x-coordinates, phase
by phase. -/
theorem vandermonde_phases {points : Points} (hne : points ≠ []) (hnd : (xs points).Nodup) :
    ∃ m u c, buildVandermonde points = Except.ok m ∧
      Rect points.length (points.length + 1) m ∧
      forwardElimination m = Except.ok u ∧ Rect points.length (points.length + 1) u ∧
      (∀ i, i < points.length → ent u i i ≠ 0) ∧
      backSubstitution u = Except.ok c ∧ c.length = points.length ∧
      solveVandermonde points = Except.ok (c.getD 0 0) := by
  have hn : 0 < points.length := List.length_pos.mpr hne
  obtain ⟨m, hb, hm, he⟩ := buildVandermonde_spec points
  have hdet : (squarePart points.length m).det ≠ 0 := by
    rw [squarePart_vandermonde he]
    exact (vandermonde_det_ne_zero_iff points).mpr hnd
  have hfw := forwardElimination_post hm
  cases hres : forwardElimination m with
  | error e =>
    rw [hres] at hfw
    obtain ⟨-, i, m1, hi, hsol, hz⟩ := hfw
    exact absurd (sameSol_det (sameSol_symm hsol) (zeroCol_det hi hz)) hdet
  | ok u =>
    rw [hres] at hfw
    obtain ⟨hu, hsol, hup, -⟩ := hfw
    have hup2 : ∀ j k, j < k → k < points.length → ent u k j = 0 :=
      fun j k hjk hk => hup j k (by omega) hjk hk
    have hdiag : ∀ i, i < points.length → ent u i i ≠ 0 := by
      intro i hi hz
      apply hdet
      refine sameSol_det (sameSol_symm hsol) ?_
      rw [upper_det hup2]
      exact Finset.prod_eq_zero (Finset.mem_univ ⟨i, hi⟩) hz
    have hbk := backSubstitution_post hu hup2
    cases hres2 : backSubstitution u with
    | error e =>
      rw [hres2] at hbk
      obtain ⟨-, i, hi, hz⟩ := hbk
      exact absurd hz (hdiag i hi)
    | ok c =>
      rw [hres2] at hbk
      have hcoef : solveVandermondeCoefficients points = Except.ok c := by
        unfold solveVandermondeCoefficients gaussianElimination
        rw [hb, ok_bind, hres, ok_bind, hres2]
      exact ⟨m, u, c, hb, hm, hres, hu, hdiag, hres2, hbk.1,
        solveVandermonde_of_coeffs hcoef (by rw [hbk.1]; exact hn)⟩

/-- C17: with exact arithmetic, for a non-empty list of points with pairwise distinct
x-coordinates no division by zero is made. The Vandermonde matrix is built, eliminated and
solved, and every pivot `matrix[i][i]` of the eliminated matrix is non-zero; every denominator
`x_{i+j} - x_i` of the divided-difference table is non-zero, the table is built and the Newton
form is evaluated; so neither routine ends in the division-by-zero branch. The divisions of
lines 54, 68 and 124 are the only places where that branch is entered, and it is entered
exactly when the divisor is zero. -/
theorem no_division_by_zero (points : Points) (hne : points ≠ []) (hnd : (xs points).Nodup) :
    (∃ m u c, buildVandermonde points = Except.ok m ∧ forwardElimination m = Except.ok u ∧
      (∀ i, i < points.length → ent u i i ≠ 0) ∧ backSubstitution u = Except.ok c ∧
      solveVandermonde points = Except.ok (c.getD 0 0)) ∧
    (∀ i j, 1 ≤ j → i + j < points.length → xAt points (i + j) - xAt points i ≠ 0) ∧
    (∃ t v, newtonTable points = Except.ok t ∧ newtonDividedDifference points = Except.ok v) ∧
    solveVandermonde points ≠ Except.error Fault.divByZero ∧
    newtonDividedDifference points ≠ Except.error Fault.divByZero ∧
    (∀ a b, fdiv a b = Except.error Fault.divByZero ↔ b = 0) ∧
    (∀ (m : Mat) (i k : Nat), Rect points.length (points.length + 1) m → i < points.length →
      k < points.length → k ≠ i →
      (eliminateRow m points.length i k = Except.error Fault.divByZero ↔ ent m i i = 0)) ∧
    (∀ (u : Mat) (sol : List ℚ) (i : Nat), Rect points.length (points.length + 1) u →
      sol.length = points.length → i < points.length →
      (backStep u points.length sol i = Except.error Fault.divByZero ↔ ent u i i = 0)) ∧
    (∀ (t : Mat) (i j : Nat), Rect points.length points.length t → 1 ≤ j →
      i + j < points.length →
      (tableStep points j t i = Except.error Fault.divByZero ↔
        xAt points (i + j) - xAt points i = 0)) := by
  obtain ⟨m, u, c, h1, -, h2, -, h3, h4, -, h5⟩ := vandermonde_phases hne hnd
  obtain ⟨-, -, h6⟩ := both_eq_interp hne hnd
  have h7 : ∃ t, newtonTable points = Except.ok t := by
    have hpost := newtonTable_post points
    cases hres : newtonTable points with
    | error e =>
      rw [hres] at hpost
      exact absurd hnd hpost.2
    | ok t => exact ⟨t, rfl⟩
  obtain ⟨t, h7⟩ := h7
  refine ⟨⟨m, u, c, h1, h2, h3, h4, h5⟩, fun i j hj hij => ?_, ⟨t, _, h7, h6⟩, ?_, ?_,
    fdiv_error_iff, fun m i k hm hi hk hik => eliminateRow_error_iff hm hi hk hik,
    fun u sol i hu hsol hi => backStep_error_iff hu hsol hi,
    fun t i j ht hj hij => tableStep_error_iff ht hj hij⟩
  · exact sub_ne_zero.mpr (xAt_ne_of_nodup hnd hij (by omega) (by omega))
  · rw [h5]
    intro h
    cases h
  · rw [h6]
    intro h
    cases h

/-- C17 at the points (1,4), (2,7), (3,12). -/
theorem no_division_by_zero_witness :
    solveVandermonde [(1, 4), (2, 7), (3, 12)] ≠ Except.error Fault.divByZero ∧
    newtonDividedDifference [(1, 4), (2, 7), (3, 12)] ≠ Except.error Fault.divByZero :=
  ⟨(no_division_by_zero [(1, 4), (2, 7), (3, 12)] (by decide) (by decide)).2.2.2.1,
    (no_division_by_zero [(1, 4), (2, 7), (3, 12)] (by decide) (by decide)).2.2.2.2.1⟩

/-! ## Rounding to double -/

theorem roundHalfEven_intCast (n : Int) : roundHalfEven (n : ℚ) = n := by
  unfold roundHalfEven
  rw [Int.floor_intCast, sub_self, if_pos (by norm_num)]

theorem roundHalfEven_tie (n : Int) (h : n % 2 = 0) : roundHalfEven ((n : ℚ) + 1 / 2) = n := by
  have hf : ⌊(n : ℚ) + 1 / 2⌋ = n := by
    rw [Int.floor_eq_iff]
    constructor <;> norm_num
  unfold roundHalfEven
  rw [hf, if_neg (by norm_num), if_neg (by norm_num), if_pos h]

theorem log_two_eq {q : ℚ} {e : Int} (h1 : (2 : ℚ) ^ e ≤ q) (h2 : q < 2 ^ (e + 1)) :
    Int.log 2 q = e := by
  have hq : 0 < q := lt_of_lt_of_le (by positivity) h1
  apply le_antisymm
  · have h : q < ((2 : Nat) : ℚ) ^ (e + 1) := by exact_mod_cast h2
    have := (Int.lt_zpow_iff_log_lt (by norm_num) hq).mp h
    omega
  · have h : ((2 : Nat) : ℚ) ^ e ≤ q := by exact_mod_cast h1
    exact (Int.zpow_le_iff_le_log (by norm_num) hq).mp h

/-- The rounding of `q`, from the binade `[2^e, 2^(e+1))` of its absolute value. -/
theorem roundDouble_of_binade (q : ℚ) (e : Int) (h1 : (2 : ℚ) ^ e ≤ |q|)
    (h2 : |q| < 2 ^ (e + 1)) :
    roundDouble q = roundHalfEven (q / 2 ^ (e - 52)) * 2 ^ (e - 52) := by
  have hq : q ≠ 0 := by
    intro h
    rw [h, abs_zero] at h1
    exact absurd h1 (not_le.mpr (by positivity))
  unfold roundDouble
  rw [if_neg hq, log_two_eq h1 h2]

theorem roundDouble_zero : roundDouble 0 = 0 := by
  unfold roundDouble
  rw [if_pos rfl]

theorem roundDouble_one : roundDouble 1 = 1 := by
  rw [roundDouble_of_binade 1 0 (by norm_num) (by norm_num)]
  have : (1 : ℚ) / 2 ^ ((0 : Int) - 52) = ((2 ^ 52 : Int) : ℚ) := by norm_num
  rw [this, roundHalfEven_intCast]
  norm_num

theorem roundDouble_two_pow_53 : roundDouble 9007199254740992 = 9007199254740992 := by
  rw [roundDouble_of_binade _ 53 (by norm_num) (by norm_num)]
  have : (9007199254740992 : ℚ) / 2 ^ ((53 : Int) - 52) = ((2 ^ 52 : Int) : ℚ) := by norm_num
  rw [this, roundHalfEven_intCast]
  norm_num

theorem roundDouble_two_pow_53_succ : roundDouble 9007199254740993 = 9007199254740992 := by
  rw [roundDouble_of_binade _ 53 (by norm_num) (by norm_num)]
  have : (9007199254740993 : ℚ) / 2 ^ ((53 : Int) - 52) = ((2 ^ 52 : Int) : ℚ) + 1 / 2 := by
    norm_num
  rw [this, roundHalfEven_tie _ (by decide)]
  norm_num

theorem roundDouble_tolerance_pos : 0 < roundDouble (1 / 1000000000) := by
  rw [roundDouble_of_binade _ (-30) (by rw [abs_of_pos (by norm_num)]; norm_num)
    (by rw [abs_of_pos (by norm_num)]; norm_num)]
  apply mul_pos _ (by positivity)
  have : (0 : ℚ) < ((roundHalfEven (1 / 1000000000 / 2 ^ ((-30 : Int) - 52)) : Int) : ℚ) := by
    have h : roundHalfEven (1 / 1000000000 / 2 ^ ((-30 : Int) - 52)) = 4835703278458517 := by
      unfold roundHalfEven
      have hf : ⌊(1 : ℚ) / 1000000000 / 2 ^ ((-30 : Int) - 52)⌋ = 4835703278458516 := by
        rw [Int.floor_eq_iff]
        constructor <;> norm_num
      rw [hf, if_neg (by norm_num), if_pos (by norm_num)]
      norm_num
    rw [h]
    norm_num
  exact this

/-! ## Indices: every access of the routines is in bounds -/

/-- A loop whose body returns and keeps `I` returns, and `I` holds at its end. -/
theorem foldlM_ok {β : Type} (f : β → Nat → Except Fault β) (I : β → Prop) :
    ∀ (l : List Nat) (b : β), I b →
      (∀ k ∈ l, ∀ b, I b → ∃ b2, f b k = Except.ok b2 ∧ I b2) →
      ∃ b2, l.foldlM f b = Except.ok b2 ∧ I b2 := by
  intro l
  induction l with
  | nil => intro b hb _; exact ⟨b, rfl, hb⟩
  | cons k t ih =>
    intro b hb hstep
    obtain ⟨b1, h1, hI1⟩ := hstep k (List.mem_cons_self _ _) b hb
    rw [List.foldlM_cons, h1, ok_bind]
    exact ih b1 hI1 (fun k2 hk2 => hstep k2 (List.mem_cons_of_mem _ hk2))

theorem readAll_ok {α : Type} (idx : List Nat) (f : Nat → Except Fault α)
    (h : ∀ i ∈ idx, ∃ a, f i = Except.ok a) : readAll idx f = Except.ok () := by
  unfold readAll
  obtain ⟨u, hu, -⟩ := foldlM_ok (fun (_ : Unit) i => do
      let _a ← f i
      pure ()) (fun _ => True) idx () trivial (fun k hk b _ => by
    obtain ⟨a, ha⟩ := h k hk
    exact ⟨(), by beta_reduce; rw [ha]; rfl, trivial⟩)
  rw [hu]

theorem rdRowG_ok {D : Type} {r c : Nat} {m : MatG D} (hm : RectG r c m) {i : Nat}
    (hi : i < r) : ∃ row, rd m i = Except.ok row ∧ row.length = c := by
  have hi2 : i < m.length := hm.1 ▸ hi
  exact ⟨_, rd_ok hi2, hm.2 _ (List.get_mem _ _ _)⟩

theorem rd2G_ok {D : Type} {r c : Nat} {m : MatG D} (hm : RectG r c m) {i j : Nat}
    (hi : i < r) (hj : j < c) : ∃ a, rd2G m i j = Except.ok a := by
  obtain ⟨row, hrow, hlen⟩ := rdRowG_ok hm hi
  unfold rd2G
  rw [hrow, ok_bind]
  exact ⟨_, rd_ok (by rw [hlen]; exact hj)⟩

theorem rectG_set {D : Type} {r c : Nat} {m : MatG D} (hm : RectG r c m) (i : Nat)
    (row : List D) (hrow : row.length = c) : RectG r c (m.set i row) := by
  refine ⟨by rw [List.length_set]; exact hm.1, fun x hx => ?_⟩
  rcases List.mem_or_eq_of_mem_set hx with h | h
  · exact hm.2 x h
  · rw [h]; exact hrow

theorem wr2G_ok {D : Type} {r c : Nat} {m : MatG D} (hm : RectG r c m) {i j : Nat}
    (hi : i < r) (hj : j < c) (a : D) :
    ∃ m2, wr2G m i j a = Except.ok m2 ∧ RectG r c m2 := by
  obtain ⟨row, hrow, hlen⟩ := rdRowG_ok hm hi
  unfold wr2G
  rw [hrow, ok_bind, wr_ok a (by rw [hlen]; exact hj), ok_bind,
    wr_ok _ (by rw [hm.1]; exact hi)]
  exact ⟨_, rfl, rectG_set hm i _ (by rw [List.length_set]; exact hlen)⟩

theorem rectG_replicate {D : Type} (r c : Nat) (d : D) :
    RectG r c (List.replicate r (List.replicate c d)) := by
  refine ⟨List.length_replicate _ _, fun row hrow => ?_⟩
  rw [List.eq_of_mem_replicate hrow, List.length_replicate]

theorem findPivotG_ok {D : Type} (A : Arith D) {n : Nat} {m : MatG D}
    (hm : RectG n (n + 1) m) {i : Nat} (hi : i < n) :
    ∃ r, findPivotG A m n i = Except.ok r ∧ r < n := by
  unfold findPivotG
  refine foldlM_ok _ (fun r => r < n) _ i hi (fun k hk r hr => ?_)
  rw [List.mem_range'_1] at hk
  obtain ⟨a, ha⟩ := rd2G_ok hm (show k < n by omega) (show i < n + 1 by omega)
  obtain ⟨b, hb⟩ := rd2G_ok hm hr (show i < n + 1 by omega)
  beta_reduce
  rw [ha, ok_bind, hb, ok_bind]
  refine ⟨_, rfl, ?_⟩
  split
  · omega
  · exact hr

theorem swapRowsG_ok {D : Type} {r c : Nat} {m : MatG D} (hm : RectG r c m) {a b : Nat}
    (ha : a < r) (hb : b < r) : ∃ m2, swapRowsG m a b = Except.ok m2 ∧ RectG r c m2 := by
  obtain ⟨ra, hra, hla⟩ := rdRowG_ok hm ha
  obtain ⟨rb, hrb, hlb⟩ := rdRowG_ok hm hb
  unfold swapRowsG
  rw [hra, ok_bind, hrb, ok_bind, wr_ok rb (by rw [hm.1]; exact ha), ok_bind,
    wr_ok ra (by rw [List.length_set, hm.1]; exact hb)]
  exact ⟨_, rfl, rectG_set (rectG_set hm a rb hlb) b ra hla⟩

theorem eliminateRowG_ok {D : Type} (A : Arith D) (hdiv : ∀ a b, ∃ q, A.div a b = Except.ok q)
    {n : Nat} {m : MatG D} (hm : RectG n (n + 1) m) {i k : Nat} (hi : i < n) (hk : k < n) :
    ∃ m2, eliminateRowG A m n i k = Except.ok m2 ∧ RectG n (n + 1) m2 := by
  obtain ⟨mki, h1⟩ := rd2G_ok hm hk (show i < n + 1 by omega)
  obtain ⟨mii, h2⟩ := rd2G_ok hm hi (show i < n + 1 by omega)
  obtain ⟨factor, h3⟩ := hdiv mki mii
  unfold eliminateRowG
  rw [h1, ok_bind, h2, ok_bind, h3, ok_bind]
  refine foldlM_ok _ (RectG n (n + 1)) _ m hm (fun j hj m1 hm1 => ?_)
  rw [List.mem_range'_1] at hj
  obtain ⟨mkj, h4⟩ := rd2G_ok hm1 hk (show j < n + 1 by omega)
  obtain ⟨mij, h5⟩ := rd2G_ok hm1 hi (show j < n + 1 by omega)
  rw [h4, ok_bind, h5, ok_bind]
  exact wr2G_ok hm1 hk (by omega) _

theorem forwardStepG_ok {D : Type} (A : Arith D) (hdiv : ∀ a b, ∃ q, A.div a b = Except.ok q)
    {n : Nat} {m : MatG D} (hm : RectG n (n + 1) m) {i : Nat} (hi : i < n) :
    ∃ m2, forwardStepG A n m i = Except.ok m2 ∧ RectG n (n + 1) m2 := by
  obtain ⟨r, h1, hr⟩ := findPivotG_ok A hm hi
  obtain ⟨m1, h2, hm1⟩ := swapRowsG_ok hm hr hi
  unfold forwardStepG
  rw [h1, ok_bind, h2, ok_bind]
  refine foldlM_ok _ (RectG n (n + 1)) _ m1 hm1 (fun k hk m2 hm2 => ?_)
  rw [List.mem_range'_1] at hk
  exact eliminateRowG_ok A hdiv hm2 hi (by omega)

theorem forwardEliminationG_ok {D : Type} (A : Arith D)
    (hdiv : ∀ a b, ∃ q, A.div a b = Except.ok q) {n : Nat} {m : MatG D}
    (hm : RectG n (n + 1) m) :
    ∃ m2, forwardEliminationG A m = Except.ok m2 ∧ RectG n (n + 1) m2 := by
  unfold forwardEliminationG
  rw [hm.1]
  refine foldlM_ok _ (RectG n (n + 1)) _ m hm (fun i hi m1 hm1 => ?_)
  exact forwardStepG_ok A hdiv hm1 (List.mem_range.mp hi)

theorem backStepG_ok {D : Type} (A : Arith D) (hdiv : ∀ a b, ∃ q, A.div a b = Except.ok q)
    {n : Nat} {m : MatG D} (hm : RectG n (n + 1) m) {sol : List D} (hsol : sol.length = n)
    {i : Nat} (hi : i < n) :
    ∃ s2, backStepG A m n sol i = Except.ok s2 ∧ s2.length = n := by
  obtain ⟨b, h1⟩ := rd2G_ok hm hi (show n < n + 1 by omega)
  unfold backStepG
  rw [h1, ok_bind, wr_ok b (by rw [hsol]; exact hi), ok_bind]
  obtain ⟨s1, h2, hs1⟩ := foldlM_ok (fun (sol : List D) j => do
      let mij ← rd2G m i j
      let sj ← rd sol j
      let si ← rd sol i
      wr sol i (A.sub si (A.mul mij sj))) (fun s => s.length = n)
    (List.range' (i + 1) (n - (i + 1))) (sol.set i b)
    (by beta_reduce; rw [List.length_set]; exact hsol)
    (fun j hj s (hs : s.length = n) => by
      rw [List.mem_range'_1] at hj
      obtain ⟨mij, h3⟩ := rd2G_ok hm hi (show j < n + 1 by omega)
      beta_reduce
      rw [h3, ok_bind, rd_ok (show j < s.length by omega), ok_bind,
        rd_ok (show i < s.length by omega), ok_bind, wr_ok _ (show i < s.length by omega)]
      exact ⟨_, rfl, by rw [List.length_set]; exact hs⟩)
  rw [h2, ok_bind, rd_ok (show i < s1.length by omega), ok_bind]
  obtain ⟨mii, h4⟩ := rd2G_ok hm hi (show i < n + 1 by omega)
  rw [h4, ok_bind]
  obtain ⟨q, h5⟩ := hdiv (s1.get ⟨i, by omega⟩) mii
  rw [h5, ok_bind, wr_ok _ (show i < s1.length by omega)]
  exact ⟨_, rfl, by rw [List.length_set]; exact hs1⟩

theorem backSubstitutionG_ok {D : Type} (A : Arith D)
    (hdiv : ∀ a b, ∃ q, A.div a b = Except.ok q) {n : Nat} {m : MatG D}
    (hm : RectG n (n + 1) m) :
    ∃ s, backSubstitutionG A m = Except.ok s ∧ s.length = n := by
  unfold backSubstitutionG
  rw [hm.1]
  refine foldlM_ok _ (fun (s : List D) => s.length = n) _ _ (List.length_replicate _ _)
    (fun i hi s hs => ?_)
  rw [List.mem_reverse, List.mem_range] at hi
  exact backStepG_ok A hdiv hm hs hi

theorem gaussianEliminationG_ok {D : Type} (A : Arith D)
    (hdiv : ∀ a b, ∃ q, A.div a b = Except.ok q) {n : Nat} {m : MatG D}
    (hm : RectG n (n + 1) m) :
    ∃ s, gaussianEliminationG A m = Except.ok s ∧ s.length = n := by
  obtain ⟨u, h1, hu⟩ := forwardEliminationG_ok A hdiv hm
  unfold gaussianEliminationG
  rw [h1, ok_bind]
  exact backSubstitutionG_ok A hdiv hu

theorem fillRowG_ok {D : Type} (A : Arith D) {points : Points} {m : MatG D}
    (hm : RectG points.length (points.length + 1) m) {i : Nat} (hi : i < points.length) :
    ∃ m2, fillRowG A points m i = Except.ok m2 ∧
      RectG points.length (points.length + 1) m2 := by
  unfold fillRowG
  dsimp only
  rw [rd_ok hi, ok_bind]
  obtain ⟨m1, h1, hm1⟩ := foldlM_ok
    (fun (m : MatG D) j => wr2G m i j (A.pow (points.get ⟨i, hi⟩).1 j))
    (RectG points.length (points.length + 1)) (List.range points.length) m hm
    (fun j hj m1 hm1 => wr2G_ok hm1 hi (by rw [List.mem_range] at hj; omega) _)
  rw [h1, ok_bind]
  obtain ⟨m2, h2, hm2⟩ := wr2G_ok hm1 hi (show points.length < points.length + 1 by omega)
    (A.ofInt (points.get ⟨i, hi⟩).2)
  rw [h2, ok_bind, readAll_ok _ _ (fun j hj =>
    rd2G_ok hm2 hi (by rw [List.mem_range] at hj; omega)), ok_bind]
  exact ⟨m2, rfl, hm2⟩

theorem buildVandermondeG_ok {D : Type} (A : Arith D) (points : Points) :
    ∃ m, buildVandermondeG A points = Except.ok m ∧
      RectG points.length (points.length + 1) m := by
  unfold buildVandermondeG
  exact foldlM_ok _ (RectG points.length (points.length + 1)) _ _ (rectG_replicate _ _ _)
    (fun i hi m hm => fillRowG_ok A hm (List.mem_range.mp hi))

theorem solveVandermondeG_ok {D : Type} (A : Arith D)
    (hdiv : ∀ a b, ∃ q, A.div a b = Except.ok q) {points : Points}
    (hn : 1 ≤ points.length) : ∃ v, solveVandermondeG A points = Except.ok v := by
  obtain ⟨m, h1, hm⟩ := buildVandermondeG_ok A points
  obtain ⟨c, h2, hc⟩ := gaussianEliminationG_ok A hdiv hm
  unfold solveVandermondeG
  rw [h1, ok_bind, h2, ok_bind, readAll_ok _ _ (fun i hi =>
    ⟨_, rd_ok (show i < c.length by rw [List.mem_range] at hi; omega)⟩), ok_bind]
  exact ⟨_, rd_ok (show 0 < c.length by omega)⟩

theorem tableStepG_ok {D : Type} (A : Arith D) (hdiv : ∀ a b, ∃ q, A.div a b = Except.ok q)
    {points : Points} {t : MatG D} (ht : RectG points.length points.length t) {i j : Nat}
    (hj : 1 ≤ j) (hij : i + j < points.length) :
    ∃ t2, tableStepG A points j t i = Except.ok t2 ∧
      RectG points.length points.length t2 := by
  obtain ⟨a, h1⟩ := rd2G_ok ht (show i + 1 < points.length by omega)
    (show j - 1 < points.length by omega)
  obtain ⟨b, h2⟩ := rd2G_ok ht (show i < points.length by omega)
    (show j - 1 < points.length by omega)
  unfold tableStepG
  rw [h1, ok_bind, h2, ok_bind, rd_ok hij, ok_bind,
    rd_ok (show i < points.length by omega), ok_bind]
  obtain ⟨q, h3⟩ := hdiv (A.sub a b)
    (A.ofInt (A.isub (points.get ⟨i + j, hij⟩).1 (points.get ⟨i, by omega⟩).1))
  rw [h3, ok_bind]
  exact wr2G_ok ht (by omega) (by omega) q

theorem newtonTableG_ok {D : Type} (A : Arith D) (hdiv : ∀ a b, ∃ q, A.div a b = Except.ok q)
    (points : Points) :
    ∃ t, newtonTableG A points = Except.ok t ∧ RectG points.length points.length t := by
  unfold newtonTableG
  dsimp only
  obtain ⟨t0, h1, ht0⟩ := foldlM_ok (fun (t : MatG D) i => do
      let p ← rd points i
      wr2G t i 0 (A.ofInt p.2)) (RectG points.length points.length)
    (List.range points.length)
    (List.replicate points.length (List.replicate points.length (A.ofInt 0)))
    (rectG_replicate _ _ _) (fun i hi t ht => by
      rw [List.mem_range] at hi
      beta_reduce
      rw [rd_ok hi, ok_bind]
      exact wr2G_ok ht hi (by omega) _)
  rw [h1, ok_bind]
  refine foldlM_ok _ (RectG points.length points.length) _ t0 ht0 (fun j hj t ht => ?_)
  rw [List.mem_range'_1] at hj
  refine foldlM_ok _ (RectG points.length points.length) _ t ht (fun i hi t1 ht1 => ?_)
  rw [List.mem_range] at hi
  exact tableStepG_ok A hdiv ht1 hj.1 (by omega)

theorem newtonDividedDifferenceG_ok {D : Type} (A : Arith D)
    (hdiv : ∀ a b, ∃ q, A.div a b = Except.ok q) {points : Points}
    (hn : 1 ≤ points.length) : ∃ v, newtonDividedDifferenceG A points = Except.ok v := by
  obtain ⟨t, h1, ht⟩ := newtonTableG_ok A hdiv points
  unfold newtonDividedDifferenceG
  dsimp only
  rw [h1, ok_bind, readAll_ok _ _ (fun i hi => ⟨(), readAll_ok _ _ (fun j hj =>
    rd2G_ok ht (List.mem_range.mp hi) (by rw [List.mem_range] at hi hj; omega))⟩), ok_bind]
  obtain ⟨r, h2⟩ := rd2G_ok ht (show 0 < points.length by omega)
    (show 0 < points.length by omega)
  rw [h2, ok_bind]
  obtain ⟨st, h3, -⟩ := foldlM_ok (newtonEvalStepG A points t) (fun _ => True)
    (List.range' 1 (points.length - 1)) (r, A.ofInt 1) trivial (fun i hi st _ => by
      rw [List.mem_range'_1] at hi
      obtain ⟨e, h4⟩ := rd2G_ok ht (show 0 < points.length by omega)
        (show i < points.length by omega)
      unfold newtonEvalStepG
      rw [rd_ok (show i - 1 < points.length by omega), ok_bind]
      dsimp only
      rw [h4, ok_bind]
      exact ⟨_, rfl, trivial⟩)
  rw [h3, ok_bind, ok_bind, readAll_ok _ _ (fun i hi => by
    rw [List.mem_range'_1] at hi
    rw [rd_ok (show i - 1 < points.length by omega), ok_bind]
    exact rd2G_ok ht (show 0 < points.length by omega) (show i < points.length by omega)),
    ok_bind]
  exact ⟨_, rfl⟩

/-- C18: for `n >= 1` and every arithmetic in which a division always gives a value (as the
division of doubles does, a zero divisor giving an infinity or a NaN), every access is inside
its container: `gaussianElimination` on a matrix of `n` rows with `n + 1` entries each,
`solveVandermonde` and `newtonDividedDifference` on any list of `n` points, repeated
x-coordinates and singular matrices included, run to their `return` with every read and write
of the routine (those of the printing loops too) in bounds, whatever the values are. -/
theorem accesses_in_bounds {D : Type} (A : Arith D) (n : Nat) (matrix : MatG D)
    (points : Points) (hdiv : ∀ a b, ∃ q, A.div a b = Except.ok q) (hn : 1 ≤ n)
    (hrows : matrix.length = n) (hcols : ∀ row ∈ matrix, row.length = n + 1)
    (hlen : points.length = n) :
    (∃ s, gaussianEliminationG A matrix = Except.ok s ∧ s.length = n) ∧
    (∃ v, solveVandermondeG A points = Except.ok v) ∧
    (∃ v, newtonDividedDifferenceG A points = Except.ok v) :=
  ⟨gaussianEliminationG_ok A hdiv ⟨hrows, hcols⟩,
    solveVandermondeG_ok A hdiv (by omega), newtonDividedDifferenceG_ok A hdiv (by omega)⟩

/-- C18 at a singular `2 x 3` matrix and at two points with the same x-coordinate, in an
arithmetic where a division by zero gives a value. -/
theorem accesses_in_bounds_witness :
    (∃ s, gaussianEliminationG totalArith
      [[some 0, some 1, some 2], [some 0, some 0, some 3]] = Except.ok s ∧ s.length = 2) ∧
    (∃ v, solveVandermondeG totalArith [(1, 1), (1, 2)] = Except.ok v) ∧
    (∃ v, newtonDividedDifferenceG totalArith [(1, 1), (1, 2)] = Except.ok v) :=
  accesses_in_bounds totalArith 2 [[some 0, some 1, some 2], [some 0, some 0, some 3]]
    [(1, 1), (1, 2)] (fun _ _ => ⟨_, rfl⟩) (by decide) rfl (by simp) rfl

/-! ## The exact arithmetic: agreement with the routines over the rationals -/

theorem wrap32_of_range {z : Int} (h1 : -2 ^ 31 ≤ z) (h2 : z < 2 ^ 31) : wrap32 z = z := by
  unfold wrap32
  omega

theorem rd2G_eq (m : Mat) (i j : Nat) : rd2G m i j = rd2 m i j := rfl

theorem wr2G_eq (m : Mat) (i j : Nat) (a : ℚ) : wr2G m i j a = wr2 m i j a := rfl

theorem rectG_iff {r c : Nat} {m : Mat} : RectG r c m ↔ Rect r c m := Iff.rfl

/-- Two loops whose bodies agree on the indices run agree. -/
theorem foldlM_congr {β : Type} {f g : β → Nat → Except Fault β} :
    ∀ (l : List Nat), (∀ k ∈ l, ∀ b, f b k = g b k) →
      ∀ b, l.foldlM f b = l.foldlM g b := by
  intro l
  induction l with
  | nil => intro _ b; rfl
  | cons k t ih =>
    intro h b
    rw [List.foldlM_cons, List.foldlM_cons, h k (List.mem_cons_self _ _) b]
    cases g b k with
    | error e => rfl
    | ok b1 => exact ih (fun k2 hk2 => h k2 (List.mem_cons_of_mem _ hk2)) b1

theorem findPivotG_exact (m : Mat) (n i : Nat) :
    findPivotG exactArith m n i = findPivot m n i := by
  unfold findPivotG findPivot
  simp only [exactArith, rd2G_eq, decide_eq_true_eq]

theorem eliminateRowG_exact (m : Mat) (n i k : Nat) :
    eliminateRowG exactArith m n i k = eliminateRow m n i k := rfl

theorem forwardEliminationG_exact (m : Mat) :
    forwardEliminationG exactArith m = forwardElimination m := by
  unfold forwardEliminationG forwardElimination
  refine foldlM_congr _ (fun i _ m1 => ?_) m
  unfold forwardStepG forwardStep
  rw [findPivotG_exact]
  rfl

theorem backSubstitutionG_exact (m : Mat) :
    backSubstitutionG exactArith m = backSubstitution m := by
  unfold backSubstitutionG backSubstitution
  have : exactArith.ofInt 0 = (0 : ℚ) := Int.cast_zero
  rw [this]
  rfl

theorem gaussianEliminationG_exact (m : Mat) :
    gaussianEliminationG exactArith m = gaussianElimination m := by
  unfold gaussianEliminationG gaussianElimination
  rw [forwardEliminationG_exact]
  cases forwardElimination m with
  | error e => rfl
  | ok u => exact backSubstitutionG_exact u

/-- Two loops on states that keep `I` agree when their bodies agree on such states. -/
theorem foldlM_congr_inv {β : Type} {f g : β → Nat → Except Fault β} (I : β → Prop) :
    ∀ (l : List Nat), (∀ k ∈ l, ∀ b, I b → f b k = g b k ∧ ∀ b2, g b k = Except.ok b2 → I b2) →
      ∀ b, I b → l.foldlM f b = l.foldlM g b := by
  intro l
  induction l with
  | nil => intro _ b _; rfl
  | cons k t ih =>
    intro h b hb
    obtain ⟨h1, h2⟩ := h k (List.mem_cons_self _ _) b hb
    rw [List.foldlM_cons, List.foldlM_cons, h1]
    cases hres : g b k with
    | error e => rfl
    | ok b1 => exact ih (fun k2 hk2 => h k2 (List.mem_cons_of_mem _ hk2)) b1 (h2 b1 hres)

theorem fillRowG_exact {points : Points} {m : Mat}
    (hm : Rect points.length (points.length + 1) m) {i : Nat} (hi : i < points.length) :
    fillRowG exactArith points m i = fillRow points m i := by
  obtain ⟨m2, h2, hm2, -⟩ := fillRow_spec hm hi
  have h3 : fillRowG exactArith points m i = (do
      let matrix ← fillRow points m i
      readAll (List.range points.length) (fun j => rd2G matrix i j)
      pure matrix) := by
    unfold fillRowG fillRow
    simp only [bind_assoc]
    rfl
  rw [h3, h2, ok_bind, readAll_ok _ _ (fun j hj =>
    rd2G_ok (rectG_iff.mpr hm2) hi (by rw [List.mem_range] at hj; omega))]
  rfl

theorem buildVandermondeG_exact (points : Points) :
    buildVandermondeG exactArith points = buildVandermonde points := by
  unfold buildVandermondeG buildVandermonde
  have : exactArith.ofInt 0 = (0 : ℚ) := Int.cast_zero
  rw [this]
  refine foldlM_congr_inv (Rect points.length (points.length + 1)) _ (fun i hi m hm => ?_) _
    (rect_replicate _ _)
  rw [List.mem_range] at hi
  refine ⟨fillRowG_exact hm hi, fun m2 h2 => ?_⟩
  obtain ⟨m3, h3, hm3, -⟩ := fillRow_spec hm hi
  rw [h3] at h2
  cases h2
  exact hm3

/-- In the exact arithmetic the Vandermonde method with its printing loops returns what
`solveVandermonde` returns. -/
theorem solveVandermondeG_exact (points : Points) :
    solveVandermondeG exactArith points = solveVandermonde points := by
  have hpost := solveVandermondeCoefficients_post points
  unfold solveVandermondeG solveVandermonde
  unfold solveVandermondeCoefficients at hpost ⊢
  rw [buildVandermondeG_exact]
  cases hb : buildVandermonde points with
  | error e => rfl
  | ok m =>
    rw [hb] at hpost
    rw [ok_bind, ok_bind, gaussianEliminationG_exact]
    rw [ok_bind] at hpost
    cases hc : gaussianElimination m with
    | error e => rfl
    | ok c =>
      rw [hc] at hpost
      rw [ok_bind, ok_bind, readAll_ok _ _ (fun i hi =>
        ⟨_, rd_ok (show i < c.length by rw [List.mem_range] at hi; rw [hpost.1]; exact hi)⟩),
        ok_bind]

theorem tableStepG_exact {points : Points}
    (hfit : ∀ p ∈ points, ∀ q ∈ points, -2 ^ 31 ≤ q.1 - p.1 ∧ q.1 - p.1 < 2 ^ 31)
    (t : Mat) {i j : Nat} (hij : i + j < points.length) :
    tableStepG exactArith points j t i = tableStep points j t i := by
  have hi : i < points.length := by omega
  have hp := mem_points_iff.mpr ⟨i, hi, rfl⟩
  have hq := mem_points_iff.mpr ⟨i + j, hij, rfl⟩
  have hw := wrap32_of_range (hfit _ hp _ hq).1 (hfit _ hp _ hq).2
  unfold tableStepG tableStep
  rw [rd_point hij, rd_point hi]
  simp only [exactArith, rd2G_eq, wr2G_eq, ok_bind, hw]

/-- In the exact arithmetic, when no difference of two x-coordinates overflows an `int`, the
table is the one computed with the differences taken over the integers. -/
theorem newtonTableG_exact {points : Points}
    (hfit : ∀ p ∈ points, ∀ q ∈ points, -2 ^ 31 ≤ q.1 - p.1 ∧ q.1 - p.1 < 2 ^ 31) :
    newtonTableG exactArith points = newtonTable points := by
  unfold newtonTableG newtonTable
  dsimp only
  have : exactArith.ofInt 0 = (0 : ℚ) := Int.cast_zero
  rw [this]
  have h0 : (List.range points.length).foldlM (fun t i => do
        let p ← rd points i
        wr2G t i 0 (exactArith.ofInt p.2))
        (List.replicate points.length (List.replicate points.length (0 : ℚ)))
      = (List.range points.length).foldlM (fun t i => do
        let p ← rd points i
        wr2 t i 0 (p.2 : ℚ))
        (List.replicate points.length (List.replicate points.length 0)) := rfl
  rw [h0]
  cases (List.range points.length).foldlM (fun t i => do
        let p ← rd points i
        wr2 t i 0 (p.2 : ℚ))
        (List.replicate points.length (List.replicate points.length 0)) with
  | error e => rfl
  | ok t0 =>
    rw [ok_bind, ok_bind]
    refine foldlM_congr _ (fun j hj t => ?_) t0
    rw [List.mem_range'_1] at hj
    refine foldlM_congr _ (fun i hi t1 => ?_) t
    rw [List.mem_range] at hi
    exact tableStepG_exact hfit t1 (by omega)

theorem newtonEvalStepG_exact {points : Points}
    (hneg : ∀ p ∈ points, -2 ^ 31 ≤ 0 - p.1 ∧ 0 - p.1 < 2 ^ 31)
    (t : Mat) (st : ℚ × ℚ) {i : Nat} (h1 : 1 ≤ i) (hi : i < points.length) :
    newtonEvalStepG exactArith points t st i = newtonEvalStep points t st i := by
  have hi2 : i - 1 < points.length := by omega
  have hp := mem_points_iff.mpr ⟨i - 1, hi2, rfl⟩
  have hw := wrap32_of_range (hneg _ hp).1 (hneg _ hp).2
  unfold newtonEvalStepG newtonEvalStep
  rw [rd_point hi2]
  simp only [exactArith, rd2G_eq, ok_bind, hw]

/-- In the exact arithmetic, when no `int` subtraction of the routine overflows, the Newton
method with its printing loops returns what `newtonDividedDifference` returns. -/
theorem newtonDividedDifferenceG_exact {points : Points}
    (hfit : ∀ p ∈ points, ∀ q ∈ points, -2 ^ 31 ≤ q.1 - p.1 ∧ q.1 - p.1 < 2 ^ 31)
    (hneg : ∀ p ∈ points, -2 ^ 31 ≤ 0 - p.1 ∧ 0 - p.1 < 2 ^ 31) :
    newtonDividedDifferenceG exactArith points = newtonDividedDifference points := by
  have hpost := newtonTable_post points
  unfold newtonDividedDifferenceG newtonDividedDifference
  dsimp only
  rw [newtonTableG_exact hfit]
  cases ht : newtonTable points with
  | error e => rfl
  | ok t =>
    rw [ht] at hpost
    have hrect : RectG points.length points.length t := rectG_iff.mpr hpost.1
    rw [ok_bind, ok_bind, readAll_ok _ _ (fun i hi => ⟨(), readAll_ok _ _ (fun j hj =>
      rd2G_ok hrect (List.mem_range.mp hi) (by rw [List.mem_range] at hi hj; omega))⟩),
      ok_bind, rd2G_eq]
    cases hr : rd2 t 0 0 with
    | error e => rfl
    | ok r =>
      rw [ok_bind, ok_bind]
      have h1 : exactArith.ofInt 1 = (1 : ℚ) := Int.cast_one
      have h2 : ∀ i ∈ List.range' 1 (points.length - 1), ∀ st,
          newtonEvalStepG exactArith points t st i = newtonEvalStep points t st i := by
        intro i hi st
        rw [List.mem_range'_1] at hi
        exact newtonEvalStepG_exact hneg t st hi.1 (by omega)
      rw [h1, foldlM_congr _ h2 (r, 1)]
      cases (List.range' 1 (points.length - 1)).foldlM (newtonEvalStep points t) (r, 1) with
      | error e => rfl
      | ok st =>
        by_cases hn : points.length = 0
        · exfalso
          unfold rd2 at hr
          rw [rd_oob (by rw [hpost.1.1, hn])] at hr
          cases hr
        · rw [ok_bind, ok_bind, readAll_ok _ _ (fun i hi => by
            rw [List.mem_range'_1] at hi
            rw [rd_ok (show i - 1 < points.length by omega), ok_bind]
            exact rd2G_ok hrect (show 0 < points.length by omega)
              (show i < points.length by omega)), ok_bind]
          rfl

/-! ## The Newton method with `int` subtraction -/

theorem newtonG_overflow_value :
    newtonDividedDifferenceG exactArith [(-1500000000, 1), (1500000000, 3000000001)]
      = Except.ok (-8789062497470767 / 2529233) := by
  simp [newtonDividedDifferenceG, newtonTableG, tableStepG, newtonEvalStepG, readAll, rd2G,
    wr2G, rd, wr, exactArith, fdiv, List.range, List.range.loop, List.range', wrap32]
  norm_num

theorem newtonG_overflow_value_swapped :
    newtonDividedDifferenceG exactArith [(1500000000, 3000000001), (-1500000000, 1)]
      = Except.ok (16376761502529233 / 2529233) := by
  simp [newtonDividedDifferenceG, newtonTableG, tableStepG, newtonEvalStepG, readAll, rd2G,
    wr2G, rd, wr, exactArith, fdiv, List.range, List.range.loop, List.range', wrap32]
  norm_num

theorem newtonTableG_overflow_table :
    newtonTableG exactArith [(-1500000000, 1), (1500000000, 3000000001)]
      = Except.ok [[1, -5859375 / 2529233], [3000000001, 0]] := by
  simp [newtonTableG, tableStepG, rd2G, wr2G, rd, wr, exactArith, fdiv, List.range,
    List.range.loop, List.range', wrap32]
  norm_num

theorem overflow_points_sampled (points : Points)
    (h : ∀ p ∈ points, p = (-1500000000, 1) ∨ p = (1500000000, 3000000001)) :
    ∀ p ∈ points,
      (Polynomial.X + Polynomial.C 1500000001 : Polynomial ℚ).eval (p.1 : ℚ) = (p.2 : ℚ) := by
  intro p hp
  rcases h p hp with rfl | rfl <;> norm_num

theorem overflow_poly_degree :
    (Polynomial.X + Polynomial.C 1500000001 : Polynomial ℚ).natDegree ≤ 2 - 1 := by
  show (Polynomial.X + Polynomial.C 1500000001 : Polynomial ℚ).natDegree ≤ 1
  compute_degree

theorem vandermonde_overflow_coeffs :
    solveVandermondeCoefficients [(-1500000000, 1), (1500000000, 3000000001)]
      = Except.ok [1500000001, 1] := by
  rw [(both_eq_interp (by decide) (by decide)).1,
    @interp_eq_of_sampled [(-1500000000, 1), (1500000000, 3000000001)] (by decide) (by decide)
      _ overflow_poly_degree (overflow_points_sampled _ (by simp))]
  simp [List.range_succ, Polynomial.coeff_X, Polynomial.coeff_C]

theorem vandermonde_overflow_coeffs_swapped :
    solveVandermondeCoefficients [(1500000000, 3000000001), (-1500000000, 1)]
      = Except.ok [1500000001, 1] := by
  rw [(both_eq_interp (by decide) (by decide)).1,
    @interp_eq_of_sampled [(1500000000, 3000000001), (-1500000000, 1)] (by decide) (by decide)
      _ overflow_poly_degree (overflow_points_sampled _ (by simp))]
  simp [List.range_succ, Polynomial.coeff_X, Polynomial.coeff_C]

theorem vandermondeG_overflow_value :
    solveVandermondeG exactArith [(-1500000000, 1), (1500000000, 3000000001)]
      = Except.ok 1500000001 := by
  rw [solveVandermondeG_exact, solveVandermonde_of_coeffs vandermonde_overflow_coeffs (by simp)]
  rfl

/-- In the exact arithmetic, where no `int` subtraction overflows, both methods, run with
their printing loops, return the value at `0` of the interpolation polynomial. -/
theorem bothG_eq_interp {points : Points} (hne : points ≠ []) (hnd : (xs points).Nodup)
    (hfit : ∀ p ∈ points, ∀ q ∈ points, -2 ^ 31 ≤ q.1 - p.1 ∧ q.1 - p.1 < 2 ^ 31)
    (hneg : ∀ p ∈ points, -2 ^ 31 ≤ 0 - p.1 ∧ 0 - p.1 < 2 ^ 31) :
    solveVandermondeG exactArith points = Except.ok
      ((Lagrange.interpolate (Finset.range points.length) (xAt points) (yAt points)).eval 0) ∧
    newtonDividedDifferenceG exactArith points = Except.ok
      ((Lagrange.interpolate (Finset.range points.length) (xAt points) (yAt points)).eval 0) := by
  rw [solveVandermondeG_exact, newtonDividedDifferenceG_exact hfit hneg]
  exact (both_eq_interp hne hnd).2

theorem newtonG_single (x y : Int) :
    newtonDividedDifferenceG exactArith [(x, y)] = Except.ok (y : ℚ) := by
  simp [newtonDividedDifferenceG, newtonTableG, readAll, rd2G, wr2G, rd, wr, exactArith,
    List.range, List.range.loop, List.range']

theorem newtonG_parabola :
    newtonDividedDifferenceG exactArith [(1, 4), (2, 7), (3, 12)] = Except.ok 3 := by
  rw [newtonDividedDifferenceG_exact (by decide) (by decide)]
  have h := (both_eq_interp (show ([(1, 4), (2, 7), (3, 12)] : Points) ≠ [] by decide)
    (by decide)).2.2
  rw [h, @interp_eq_of_sampled [(1, 4), (2, 7), (3, 12)] (by decide) (by decide)
    (Polynomial.X ^ 2 + Polynomial.C 3)
    (by
      show (Polynomial.X ^ 2 + Polynomial.C 3 : Polynomial ℚ).natDegree ≤ 2
      compute_degree)
    (by
      intro p hp
      simp only [List.mem_cons, List.mem_singleton, List.not_mem_nil, or_false] at hp
      rcases hp with rfl | rfl | rfl <;> norm_num)]
  norm_num

/-- C4 at the points (-1500000000, 1), (1500000000, 3000000001) of the polynomial
`P = x + 1500000001`, with exact doubles: the `int` difference `1500000000 - (-1500000000)`
of line 125 wraps to `-1294967296`, the entry `table[0][1]` is `3000000000 / -1294967296`
where the divided difference is 1, and the returned value is `-8789062497470767 / 2529233`,
about -3474991231.52, where `P(0) = 1500000001`. On lists of points for which no `int`
subtraction of lines 125 and 142 overflows the routine returns `P(0)`; for a single point
`(x, y)` it returns `y`, and for (1,4), (2,7), (3,12) it returns 3. -/
theorem newton_int_overflow :
    (xs [(-1500000000, 1), (1500000000, 3000000001)]).Nodup ∧
    (∀ p ∈ ([(-1500000000, 1), (1500000000, 3000000001)] : Points),
      (Polynomial.X + Polynomial.C 1500000001 : Polynomial ℚ).eval (p.1 : ℚ) = (p.2 : ℚ)) ∧
    (Polynomial.X + Polynomial.C 1500000001 : Polynomial ℚ).eval 0 = 1500000001 ∧
    exactArith.isub 1500000000 (-1500000000) = -1294967296 ∧
    newtonTableG exactArith [(-1500000000, 1), (1500000000, 3000000001)]
      = Except.ok [[1, -5859375 / 2529233], [3000000001, 0]] ∧
    newtonDividedDifferenceG exactArith [(-1500000000, 1), (1500000000, 3000000001)]
      = Except.ok (-8789062497470767 / 2529233) ∧
    newtonDividedDifferenceG exactArith [(-1500000000, 1), (1500000000, 3000000001)]
      ≠ Except.ok ((Polynomial.X + Polynomial.C 1500000001 : Polynomial ℚ).eval 0) ∧
    (∀ (points : Points) (P : Polynomial ℚ), 1 ≤ points.length →
      P.natDegree ≤ points.length - 1 → (xs points).Nodup →
      (∀ p ∈ points, P.eval (p.1 : ℚ) = (p.2 : ℚ)) →
      (∀ p ∈ points, ∀ q ∈ points, -2 ^ 31 ≤ q.1 - p.1 ∧ q.1 - p.1 < 2 ^ 31) →
      (∀ p ∈ points, -2 ^ 31 ≤ 0 - p.1 ∧ 0 - p.1 < 2 ^ 31) →
      newtonDividedDifferenceG exactArith points = Except.ok (P.eval 0)) ∧
    (∀ x y : Int, newtonDividedDifferenceG exactArith [(x, y)] = Except.ok (y : ℚ)) ∧
    newtonDividedDifferenceG exactArith [(1, 4), (2, 7), (3, 12)] = Except.ok 3 := by
  refine ⟨by decide, overflow_points_sampled _ (by simp), by simp, by decide,
    newtonTableG_overflow_table, newtonG_overflow_value, ?_, ?_, newtonG_single,
    newtonG_parabola⟩
  · rw [newtonG_overflow_value]
    intro h
    have := Except.ok.inj h
    norm_num at this
  · intro points P hn hdeg hnd hP hfit hneg
    have hne : points ≠ [] := List.length_pos.mp hn
    rw [(bothG_eq_interp hne hnd hfit hneg).2, interp_eq_of_sampled hnd hn hdeg hP]

/-- C5 at the points (-1500000000, 1), (1500000000, 3000000001), with exact doubles: the
x-coordinates are distinct, `solveVandermonde` returns 1500000001 and
`newtonDividedDifference`, whose `int` difference of line 125 wraps, returns
`-8789062497470767 / 2529233`, about -3474991231.52. On non-empty lists of points with
distinct x-coordinates for which no `int` subtraction of lines 125 and 142 overflows the two
returned values are equal. -/
theorem newton_ne_vandermonde_on_overflow :
    (xs [(-1500000000, 1), (1500000000, 3000000001)]).Nodup ∧
    solveVandermondeG exactArith [(-1500000000, 1), (1500000000, 3000000001)]
      = Except.ok 1500000001 ∧
    newtonDividedDifferenceG exactArith [(-1500000000, 1), (1500000000, 3000000001)]
      = Except.ok (-8789062497470767 / 2529233) ∧
    newtonDividedDifferenceG exactArith [(-1500000000, 1), (1500000000, 3000000001)]
      ≠ solveVandermondeG exactArith [(-1500000000, 1), (1500000000, 3000000001)] ∧
    (∀ points : Points, points ≠ [] → (xs points).Nodup →
      (∀ p ∈ points, ∀ q ∈ points, -2 ^ 31 ≤ q.1 - p.1 ∧ q.1 - p.1 < 2 ^ 31) →
      (∀ p ∈ points, -2 ^ 31 ≤ 0 - p.1 ∧ 0 - p.1 < 2 ^ 31) →
      newtonDividedDifferenceG exactArith points = solveVandermondeG exactArith points) := by
  refine ⟨by decide, vandermondeG_overflow_value, newtonG_overflow_value, ?_, ?_⟩
  · rw [newtonG_overflow_value, vandermondeG_overflow_value]
    intro h
    have := Except.ok.inj h
    norm_num at this
  · intro points hne hnd hfit hneg
    obtain ⟨h1, h2⟩ := bothG_eq_interp hne hnd hfit hneg
    rw [h1, h2]

/-- C8 at the points (-1500000000, 1), (1500000000, 3000000001) and the same points in the
other order, with exact doubles: the coefficient vector of the Vandermonde fit is
[1500000001, 1] for both orders, and `newtonDividedDifference`, whose `int` difference of
line 125 wraps, returns `-8789062497470767 / 2529233` for one order and
`16376761502529233 / 2529233` for the other, about -3474991231.52 and 6474991233.52. For
every list of points with distinct x-coordinates and every permutation of it the coefficient
vectors are equal, and so are the values of `newtonDividedDifference` when no `int`
subtraction of lines 125 and 142 overflows. -/
theorem newton_order_on_overflow :
    List.Perm [(1500000000, 3000000001), (-1500000000, 1)]
      ([(-1500000000, 1), (1500000000, 3000000001)] : Points) ∧
    (xs [(-1500000000, 1), (1500000000, 3000000001)]).Nodup ∧
    solveVandermondeCoefficients [(-1500000000, 1), (1500000000, 3000000001)]
      = Except.ok [1500000001, 1] ∧
    solveVandermondeCoefficients [(1500000000, 3000000001), (-1500000000, 1)]
      = Except.ok [1500000001, 1] ∧
    newtonDividedDifferenceG exactArith [(-1500000000, 1), (1500000000, 3000000001)]
      = Except.ok (-8789062497470767 / 2529233) ∧
    newtonDividedDifferenceG exactArith [(1500000000, 3000000001), (-1500000000, 1)]
      = Except.ok (16376761502529233 / 2529233) ∧
    newtonDividedDifferenceG exactArith [(1500000000, 3000000001), (-1500000000, 1)]
      ≠ newtonDividedDifferenceG exactArith [(-1500000000, 1), (1500000000, 3000000001)] ∧
    (∀ points points2 : Points, points2.Perm points → (xs points).Nodup →
      solveVandermondeCoefficients points2 = solveVandermondeCoefficients points ∧
      ((∀ p ∈ points, ∀ q ∈ points, -2 ^ 31 ≤ q.1 - p.1 ∧ q.1 - p.1 < 2 ^ 31) →
        (∀ p ∈ points, -2 ^ 31 ≤ 0 - p.1 ∧ 0 - p.1 < 2 ^ 31) →
        newtonDividedDifferenceG exactArith points2
          = newtonDividedDifferenceG exactArith points)) := by
  refine ⟨List.Perm.swap _ _ _, by decide, vandermonde_overflow_coeffs,
    vandermonde_overflow_coeffs_swapped, newtonG_overflow_value,
    newtonG_overflow_value_swapped, ?_, ?_⟩
  · rw [newtonG_overflow_value, newtonG_overflow_value_swapped]
    intro h
    have := Except.ok.inj h
    norm_num at this
  · intro points points2 hperm hnd
    by_cases hne : points = []
    · subst hne
      rw [List.perm_nil.mp hperm]
      exact ⟨rfl, fun _ _ => rfl⟩
    · have hne2 : points2 ≠ [] := fun h => hne (by
        rw [h] at hperm
        exact List.nil_perm.mp hperm)
      have hnd2 : (xs points2).Nodup := (List.Perm.nodup_iff (hperm.map Prod.fst)).mpr hnd
      obtain ⟨h1, -, -⟩ := both_eq_interp hne hnd
      obtain ⟨k1, -, -⟩ := both_eq_interp hne2 hnd2
      have hlen : points2.length = points.length := hperm.length_eq
      have hint : Lagrange.interpolate (Finset.range points2.length) (xAt points2)
          (yAt points2)
          = Lagrange.interpolate (Finset.range points.length) (xAt points) (yAt points) := by
        refine Lagrange.eq_interpolate_of_eval_eq (yAt points) (injOn_xAt hnd) ?_ ?_
        · have := Lagrange.degree_interpolate_lt (yAt points2) (injOn_xAt hnd2)
          rw [Finset.card_range] at this ⊢
          rw [← hlen]
          exact this
        · intro i hi
          have hi2 := Finset.mem_range.mp hi
          have hp : points.getD i (0, 0) ∈ points2 :=
            hperm.mem_iff.mpr (mem_points_iff.mpr ⟨i, hi2, rfl⟩)
          exact eval_interp_point hnd2 hp
      refine ⟨by rw [k1, h1, hint, hlen], fun hfit hneg => ?_⟩
      have hfit2 : ∀ p ∈ points2, ∀ q ∈ points2, -2 ^ 31 ≤ q.1 - p.1 ∧ q.1 - p.1 < 2 ^ 31 :=
        fun p hp q hq => hfit p (hperm.mem_iff.mp hp) q (hperm.mem_iff.mp hq)
      have hneg2 : ∀ p ∈ points2, -2 ^ 31 ≤ 0 - p.1 ∧ 0 - p.1 < 2 ^ 31 :=
        fun p hp => hneg p (hperm.mem_iff.mp hp)
      rw [(bothG_eq_interp hne hnd hfit hneg).2, (bothG_eq_interp hne2 hnd2 hfit2 hneg2).2,
        hint]

/-- C14, as stated, fails in two ways. At the single point (0, 2^53 + 1) the entry
`table[0][0]` is the double `2^53`, not `y_0`. And with exact doubles, at the points
(-1500000000, 1), (1500000000, 3000000001) the `int` difference `x_1 - x_0` of line 125
wraps to `-1294967296`, so that `table[0][1]` is `-5859375 / 2529233` where
`(table[1][0] - table[0][0]) / (x_1 - x_0)` is 1. -/
theorem newtonTable_rounds_and_wraps :
    (xs [(0, 9007199254740993)]).Nodup ∧
    newtonTableG roundedArith [(0, 9007199254740993)] = Except.ok [[9007199254740992]] ∧
    ent [[9007199254740992]] 0 0 ≠ yAt [(0, 9007199254740993)] 0 ∧
    (xs [(-1500000000, 1), (1500000000, 3000000001)]).Nodup ∧
    newtonTableG exactArith [(-1500000000, 1), (1500000000, 3000000001)]
      = Except.ok [[1, -5859375 / 2529233], [3000000001, 0]] ∧
    ent [[1, -5859375 / 2529233], [3000000001, 0]] 0 1
      ≠ (ent [[1, -5859375 / 2529233], [3000000001, 0]] 1 0
          - ent [[1, -5859375 / 2529233], [3000000001, 0]] 0 0)
        / (xAt [(-1500000000, 1), (1500000000, 3000000001)] 1
          - xAt [(-1500000000, 1), (1500000000, 3000000001)] 0) := by
  refine ⟨by decide, ?_, ?_, by decide, newtonTableG_overflow_table, ?_⟩
  · simp [newtonTableG, rd2G, wr2G, wr, rd, roundedArith, roundDouble_zero,
      roundDouble_two_pow_53_succ, List.range, List.range.loop]
  · norm_num [ent, yAt]
  · norm_num [ent, xAt]

/-- C14, amended: with exact arithmetic, for `n` points with pairwise distinct x-coordinates
whose differences all fit an `int` (no overflow in the subtraction of line 125), the table of
`newtonDividedDifference` has `n` rows of `n` entries with `table[i][0] = y_i` for `i < n`,
`table[i][j] = (table[i+1][j-1] - table[i][j-1]) / (x_{i+j} - x_i)` for `1 <= j < n` and
`i < n - j`, and `0` in every entry with `i + j >= n`. -/
theorem newtonTable_entries (points : Points) (hnd : (xs points).Nodup)
    (hfit : ∀ p ∈ points, ∀ q ∈ points, -2 ^ 31 ≤ q.1 - p.1 ∧ q.1 - p.1 < 2 ^ 31) :
    ∃ table, newtonTableG exactArith points = Except.ok table ∧
      table.length = points.length ∧ (∀ row ∈ table, row.length = points.length) ∧
      (∀ i, i < points.length → ent table i 0 = yAt points i) ∧
      (∀ i j, 1 ≤ j → j < points.length → i < points.length - j →
        ent table i j = (ent table (i + 1) (j - 1) - ent table i (j - 1))
          / (xAt points (i + j) - xAt points i)) ∧
      (∀ i j, i < points.length → j < points.length → points.length ≤ i + j →
        ent table i j = 0) := by
  have hpost := newtonTable_post points
  have hzero := newtonTable_unused points
  rw [newtonTableG_exact hfit]
  cases hres : newtonTable points with
  | error e =>
    rw [hres] at hpost
    exact absurd hnd hpost.2
  | ok t =>
    rw [hres] at hpost hzero
    obtain ⟨ht, -, he⟩ := hpost
    refine ⟨t, rfl, ht.1, ht.2, fun i hi => ?_, fun i j hj1 hj2 hi => ?_,
      fun i j _ _ hij => hzero i j hij⟩
    · rw [he i 0 (by omega)]
      rfl
    · rw [he i j (by omega), he (i + 1) (j - 1) (by omega), he i (j - 1) (by omega)]
      obtain ⟨j2, rfl⟩ : ∃ j2, j = j2 + 1 := ⟨j - 1, by omega⟩
      rfl

/-- C14, amended, at the points (1,4), (2,7), (3,12). -/
theorem newtonTable_entries_witness :
    ∃ table, newtonTableG exactArith [(1, 4), (2, 7), (3, 12)] = Except.ok table ∧
      table.length = 3 ∧ (∀ row ∈ table, row.length = 3) ∧
      (∀ i, i < 3 → ent table i 0 = yAt [(1, 4), (2, 7), (3, 12)] i) ∧
      (∀ i j, 1 ≤ j → j < 3 → i < 3 - j →
        ent table i j = (ent table (i + 1) (j - 1) - ent table i (j - 1))
          / (xAt [(1, 4), (2, 7), (3, 12)] (i + j) - xAt [(1, 4), (2, 7), (3, 12)] i)) ∧
      (∀ i j, i < 3 → j < 3 → 3 ≤ i + j → ent table i j = 0) :=
  newtonTable_entries [(1, 4), (2, 7), (3, 12)] (by decide) (by decide)

/-! ## Rounded doubles in the verification and in the Vandermonde matrix -/

theorem roundDouble_tolerance_pos_inv : 0 < roundDouble 1000000000⁻¹ := by
  rw [← one_div]
  exact roundDouble_tolerance_pos

theorem roundDouble_square_of_max_int :
    roundDouble 4611686014132420609 = 4611686014132420608 := by
  rw [roundDouble_of_binade _ 61 (by norm_num) (by norm_num)]
  have hf : ⌊(4611686014132420609 : ℚ) / 2 ^ ((61 : Int) - 52)⌋ = 9007199246352384 := by
    rw [Int.floor_eq_iff]
    constructor <;> norm_num
  unfold roundHalfEven
  rw [hf, if_pos (by norm_num)]
  norm_num

/-- C11, as stated, fails at the point (0, 2^53 + 1) with the coefficient vector [2^53]:
`calculated` is 2^53, `expected` is converted to the double 2^53 for the comparison of
line 185, and the record says YES where `|calculated - y|` is 1. -/
theorem verifyPolynomial_match_rounds :
    verifyPolynomialG roundedArith [(0, 9007199254740993)] [9007199254740992]
      = Except.ok [⟨0, 9007199254740992, 9007199254740993, true⟩] ∧
    ¬ (|(9007199254740992 : ℚ) - ((9007199254740993 : Int) : ℚ)| < 1 / 1000000000) := by
  constructor
  · simp [verifyPolynomialG, evalCoeffsG, readAll, rd, roundedArith, roundDouble_zero,
      roundDouble_one, roundDouble_two_pow_53, roundDouble_two_pow_53_succ,
      roundDouble_tolerance_pos_inv, List.range, List.range.loop]
  · norm_num

/-- C13, as stated, fails at the single point (0, 2^53 + 1): the entry `[0][1]` of the
matrix is the double nearest to `y_0`, which is 2^53. Also an entry `x_i^j` is rounded:
`pow(2147483647, 2)` is the double 4611686014132420608, one less than the square. -/
theorem buildVandermonde_rounds :
    buildVandermondeG roundedArith [(0, 9007199254740993)]
      = Except.ok [[1, 9007199254740992]] ∧
    ent [[1, 9007199254740992]] 0 1 ≠ yAt [(0, 9007199254740993)] 0 ∧
    roundedArith.pow 2147483647 2 = 4611686014132420608 ∧
    roundedArith.pow 2147483647 2 ≠ (2147483647 : ℚ) ^ 2 := by
  have hp : roundedArith.pow 2147483647 2 = 4611686014132420608 := by
    show roundDouble (((2147483647 : Int) : ℚ) ^ 2) = 4611686014132420608
    rw [show (((2147483647 : Int) : ℚ) ^ 2) = 4611686014132420609 by norm_num]
    exact roundDouble_square_of_max_int
  refine ⟨?_, ?_, hp, ?_⟩
  · simp [buildVandermondeG, fillRowG, rd2G, wr2G, wr, readAll, rd, roundedArith,
      roundDouble_zero, roundDouble_one, roundDouble_two_pow_53_succ, List.range,
      List.range.loop]
  · norm_num [ent, yAt]
  · rw [hp]
    norm_num

/-! ## The report of the verification and the rows of the Vandermonde matrix -/

theorem evalCoeffsG_ok {D : Type} (A : Arith D) (coeffs : List D) (x : Int) :
    ∃ c, evalCoeffsG A coeffs x = Except.ok c := by
  unfold evalCoeffsG
  obtain ⟨c, hc, -⟩ := foldlM_ok (fun calculated i => do
      let c ← rd coeffs i
      pure (A.add calculated (A.mul c (A.pow x i)))) (fun _ => True)
    (List.range coeffs.length) (A.ofInt 0) trivial (fun i hi acc _ => by
      rw [List.mem_range] at hi
      exact ⟨_, by beta_reduce; rw [rd_ok hi]; rfl, trivial⟩)
  exact ⟨c, hc⟩

/-- The loop of lines 174-186 from the records `out` on: one record is added for each point,
in order. -/
theorem verifyLoopG_records {D : Type} (A : Arith D) (coeffs : List D) :
    ∀ (l : Points) (out : List (VerifyLineG D)),
      ∃ lines, l.foldlM (fun out point => do
          let calculated ← evalCoeffsG A coeffs point.1
          pure (out ++ [⟨point.1, calculated, point.2,
            A.absLtTol (A.sub calculated (A.ofInt point.2))⟩])) out
          = Except.ok (out ++ lines) ∧
        lines.map (fun r => (r.x, r.expected)) = l ∧
        ∀ r ∈ lines, evalCoeffsG A coeffs r.x = Except.ok r.calculated ∧
          r.isMatch = A.absLtTol (A.sub r.calculated (A.ofInt r.expected)) := by
  intro l
  induction l with
  | nil => intro out; exact ⟨[], by simp, rfl, fun r hr => by cases hr⟩
  | cons p t ih =>
    intro out
    obtain ⟨c, hc⟩ := evalCoeffsG_ok A coeffs p.1
    obtain ⟨lines, h1, h2, h3⟩ := ih (out ++ [⟨p.1, c, p.2,
      A.absLtTol (A.sub c (A.ofInt p.2))⟩])
    refine ⟨⟨p.1, c, p.2, A.absLtTol (A.sub c (A.ofInt p.2))⟩ :: lines, ?_, ?_, ?_⟩
    · rw [List.foldlM_cons, hc, ok_bind, pure_eq_ok, ok_bind, h1, List.append_assoc]
      rfl
    · rw [List.map_cons, h2]
    · intro r hr
      rcases List.mem_cons.mp hr with rfl | hr2
      · exact ⟨hc, rfl⟩
      · exact h3 r hr2

theorem verifyPolynomialG_records {D : Type} (A : Arith D) (points : Points)
    (coeffs : List D) :
    ∃ lines, verifyPolynomialG A points coeffs = Except.ok lines ∧
      lines.map (fun r => (r.x, r.expected)) = points ∧
      ∀ r ∈ lines, evalCoeffsG A coeffs r.x = Except.ok r.calculated ∧
        r.isMatch = A.absLtTol (A.sub r.calculated (A.ofInt r.expected)) := by
  obtain ⟨lines, h1, h2, h3⟩ := verifyLoopG_records A coeffs points []
  refine ⟨lines, ?_, h2, h3⟩
  unfold verifyPolynomialG
  rw [readAll_ok _ _ (fun i hi => ⟨_, rd_ok (show i < coeffs.length by
    rw [List.mem_reverse, List.mem_range] at hi; exact hi)⟩), ok_bind, h1]
  rfl

theorem evalCoeffsG_exact (c : List ℚ) (x : Int) :
    evalCoeffsG exactArith c x = Except.ok (polyValue c (x : ℚ)) := by
  rw [← evalCoeffs_eq]
  unfold evalCoeffsG evalCoeffs
  have : exactArith.ofInt 0 = (0 : ℚ) := Int.cast_zero
  rw [this]
  rfl

theorem verifyPolynomialG_exact (points : Points) (c : List ℚ) :
    verifyPolynomialG exactArith points c = Except.ok (points.map (fun p =>
      ⟨p.1, polyValue c (p.1 : ℚ), p.2,
        decide (|polyValue c (p.1 : ℚ) - (p.2 : ℚ)| < 1 / 1000000000)⟩)) := by
  unfold verifyPolynomialG
  rw [readAll_ok _ _ (fun i hi => ⟨_, rd_ok (show i < c.length by
    rw [List.mem_reverse, List.mem_range] at hi; exact hi)⟩), ok_bind]
  have key : ∀ (l : Points) (out : List (VerifyLineG ℚ)),
      l.foldlM (fun out point => do
        let calculated ← evalCoeffsG exactArith c point.1
        pure (out ++ [⟨point.1, calculated, point.2,
          exactArith.absLtTol (exactArith.sub calculated (exactArith.ofInt point.2))⟩])) out
      = Except.ok (out ++ l.map (fun p =>
      ⟨p.1, polyValue c (p.1 : ℚ), p.2,
        decide (|polyValue c (p.1 : ℚ) - (p.2 : ℚ)| < 1 / 1000000000)⟩)) := by
    intro l
    induction l with
    | nil => intro out; simp
    | cons p t ih =>
      intro out
      rw [List.foldlM_cons, evalCoeffsG_exact, ok_bind, pure_eq_ok, ok_bind, ih]
      simp [exactArith]
  rw [key]
  rfl

/-- C11, amended: for every list of points and every coefficient vector, `verifyPolynomial`
produces exactly one record for each point, in the order of the points, whatever the
arithmetic of the doubles: the record of the point `(x, y)` carries `x` and `expected = y`,
its `calculated` is what lines 178-181 compute for `x`, and its match flag is the outcome of
the test `abs(calculated - expected) < 1e-9` on doubles; no record ends the run. With
arithmetic modelled exactly (rationals), `calculated` is the sum of `coeffs[i] * x^i` over
`i < len(coeffs)` and the match flag is set exactly when `|calculated - y| < 1e-9`. A mismatch
is a record like the others: for the points (1,4), (2,8), (3,12) and the coefficients
[3, 0, 1] the second record is a mismatch and the third one is still produced. -/
theorem verifyPolynomial_records (points : Points) :
    (∀ (D : Type) (A : Arith D) (coeffs : List D),
      ∃ lines, verifyPolynomialG A points coeffs = Except.ok lines ∧
        lines.map (fun r => (r.x, r.expected)) = points ∧
        ∀ r ∈ lines, evalCoeffsG A coeffs r.x = Except.ok r.calculated ∧
          r.isMatch = A.absLtTol (A.sub r.calculated (A.ofInt r.expected))) ∧
    (∀ coeffs : List ℚ, verifyPolynomialG exactArith points coeffs
      = Except.ok (points.map (fun p =>
        ⟨p.1, ∑ i in Finset.range coeffs.length, coeffs.getD i 0 * (p.1 : ℚ) ^ i, p.2,
          decide (|(∑ i in Finset.range coeffs.length, coeffs.getD i 0 * (p.1 : ℚ) ^ i)
            - (p.2 : ℚ)| < 1 / 1000000000)⟩))) ∧
    verifyPolynomialG exactArith [(1, 4), (2, 8), (3, 12)] [3, 0, 1]
      = Except.ok [⟨1, 4, 4, true⟩, ⟨2, 7, 8, false⟩, ⟨3, 12, 12, true⟩] := by
  refine ⟨fun D A coeffs => verifyPolynomialG_records A points coeffs,
    fun coeffs => verifyPolynomialG_exact points coeffs, ?_⟩
  rw [verifyPolynomialG_exact]
  norm_num [polyValue, Finset.sum_range_succ]

/-- C13, amended: for every list of `n` points, the matrix built by `solveVandermonde` before
solving has `n` rows of `n + 1` entries, whatever the arithmetic of the doubles. With
arithmetic modelled exactly (rationals), it has one row for each point in order, and the row
of point `i` is `vandermondeRow n (x_i, y_i) = [x_i^0, x_i^1, ..., x_i^(n-1), y_i]`: entry
`[i][j]` is `x_i^j` for `j < n` and entry `[i][n]` is `y_i`; `x^0` is 1 also for `x = 0`, as in
the matrix of the points (0,5), (2,7). -/
theorem buildVandermonde_rows (points : Points) :
    (∀ (D : Type) (A : Arith D), ∃ m, buildVandermondeG A points = Except.ok m ∧
      m.length = points.length ∧ ∀ row ∈ m, row.length = points.length + 1) ∧
    buildVandermondeG exactArith points
      = Except.ok (points.map (vandermondeRow points.length)) ∧
    Rect points.length (points.length + 1) (points.map (vandermondeRow points.length)) ∧
    (∀ i, i < points.length → ∀ j, j < points.length →
      ent (points.map (vandermondeRow points.length)) i j = xAt points i ^ j) ∧
    (∀ i, i < points.length →
      ent (points.map (vandermondeRow points.length)) i points.length = yAt points i) ∧
    buildVandermondeG exactArith [(0, 5), (2, 7)] = Except.ok [[1, 0, 5], [1, 2, 7]] := by
  refine ⟨fun D A => buildVandermondeG_ok A points, ?_, rect_vandermondeRows points,
    fun i hi j hj => ?_, fun i hi => ?_, ?_⟩
  · rw [buildVandermondeG_exact, buildVandermonde_eq]
  · rw [ent_vandermondeRows points hi (by omega), if_pos hj]
  · rw [ent_vandermondeRows points hi (by omega), if_neg (by omega)]
  · rw [buildVandermondeG_exact, buildVandermonde_eq]
    norm_num [vandermondeRow, List.range_succ]

end Catalog
